import Mathlib

/-!
Verification of the drawing-history engine (`src/drawing/pathcontainer.cpp`)
and the page-pixmap cache (`src/rendering/pixcache.cpp`) of BeamerPresenter.

The C++ classes are shallowly embedded: `QList` becomes `List`,
`QMap<int, T>` becomes an association list sorted by key (`QMap` iterates
keys in ascending order), `QGraphicsItem*` pointers become values of an
inductive item type identified by ids, and the out-of-range behaviour of
`QList::insert`/`QList::removeAt` (an assertion failure in Qt, never hit
from valid states) is modelled as a no-op.
-/

/-! ## Generic list and QMap infrastructure -/

/-- `QList::removeAt(i)` with a C++ `int` index.  Negative or out-of-range
indices leave the list unchanged (Qt asserts there; such calls never happen
in valid states). -/
def eraseAtI {α : Type} (i : Int) (l : List α) : List α :=
  if 0 ≤ i then l.eraseIdx i.toNat else l

/-- `QList::insert(i, x)` with a C++ `int` index.  Negative or past-the-end
indices leave the list unchanged. -/
def insertAtI {α : Type} (i : Int) (x : α) (l : List α) : List α :=
  if 0 ≤ i then l.insertIdx i.toNat x else l

/-- `QList::value(i)`: returns a default-constructed value (here: the `dflt`
argument) for an out-of-range index. -/
def valueAtI {α : Type} (i : Int) (l : List α) (dflt : α) : α :=
  if 0 ≤ i then l.getD i.toNat dflt else dflt

/-- `QMap<int, α>` as an association list with strictly ascending keys.
`mapInsert` is `operator[]=`: insert keeping keys sorted, replacing an
existing binding. -/
def mapInsert {α : Type} (k : Int) (v : α) : List (Int × α) → List (Int × α)
  | [] => [(k, v)]
  | (k', v') :: rest =>
    if k < k' then (k, v) :: (k', v') :: rest
    else if k = k' then (k, v) :: rest
    else (k', v') :: mapInsert k v rest

/-- `QMap::value(k)` (as an `Option`; callers supply the default). -/
def mapLookup {α : Type} (k : Int) : List (Int × α) → Option α
  | [] => none
  | (k', v') :: rest => if k = k' then some v' else mapLookup k rest

/-- Strictly ascending keys: the representation invariant of the `QMap`
embedding, and also the iteration order of `QMap`. -/
def KeysAsc {α : Type} (m : List (Int × α)) : Prop :=
  List.Pairwise (fun a b => a.1 < b.1) m

instance {α : Type} (m : List (Int × α)) : Decidable (KeysAsc m) := by
  unfold KeysAsc; infer_instance

/-- Remove the entries of `p` at the keys of `m`, iterating the keys in
descending order (the order used by the C++ code so that earlier removals do
not shift the indices of later ones). -/
def removeKeysDesc {α : Type} (m : List (Int × α)) (p : List α) : List α :=
  m.foldr (fun kv acc => eraseAtI kv.1 acc) p

/-- Insert the pairs of `m` into `p`, iterating in ascending key order (the
order used by the C++ code when restoring items). -/
def insertPairsAsc {α : Type} (m : List (Int × α)) (p : List α) : List α :=
  m.foldl (fun acc kv => insertAtI kv.1 kv.2 acc) p

/-- `QList::indexOf`: index of the first occurrence, `-1` if absent. -/
def qIndexOf {α : Type} [DecidableEq α] (x : α) : List α → Int
  | [] => -1
  | y :: ys =>
    if y = x then 0
    else
      let r := qIndexOf x ys
      if r < 0 then -1 else r + 1

/-! ## PathContainer: data model

A `QGraphicsItem` in the live sequence.  A `group` (`QGraphicsItemGroup`)
only ever arises during an eraser micro step, and only ever contains
graphics paths — groups are built exclusively from
`AbstractGraphicsPath::splitErase` results — so its children are
represented by path ids. -/
inductive GItem where
  | path (id : Nat)
  | text (id : Nat)
  | group (children : List Nat)
deriving DecidableEq

/-- One step of the drawing history (`DrawHistoryStep`): maps from list
indices to the items created (resp. deleted) by the step.  A map value of
`none` models a null `QGraphicsItem*`. -/
structure DrawHistoryStep where
  createdItems : List (Int × Option GItem)
  deletedItems : List (Int × Option GItem)
deriving DecidableEq

instance : Inhabited DrawHistoryStep := ⟨⟨[], []⟩⟩

/-- The state of a `PathContainer`: the live sequence `paths` (entries may
be null during a micro step), the history log, and the cursor `inHistory`
(`0` = fully forward, `n > 0` = `n` steps undone, `-1` = micro step open,
`-2` = detached copy). -/
structure PathContainer where
  paths : List (Option GItem)
  history : List DrawHistoryStep
  inHistory : Int
deriving DecidableEq

/-! ## PathContainer: operations (from `src/drawing/pathcontainer.cpp`) -/

/-- `PathContainer::undo` (without the `QGraphicsScene` bookkeeping, which
does not touch the container state). -/
def PathContainer.undo (s : PathContainer) : Bool × PathContainer :=
  if s.inHistory < 0 ∨ (s.history.length : Int) - s.inHistory < 1 then (false, s)
  else
    let inH := s.inHistory + 1
    let step := s.history.getD ((s.history.length : Int) - inH).toNat default
    (true,
      { s with
        paths := insertPairsAsc step.deletedItems (removeKeysDesc step.createdItems s.paths)
        inHistory := inH })

/-- `PathContainer::redo`. -/
def PathContainer.redo (s : PathContainer) : Bool × PathContainer :=
  if s.inHistory < 1 then (false, s)
  else
    let step := s.history.getD ((s.history.length : Int) - s.inHistory).toNat default
    (true,
      { s with
        paths := insertPairsAsc step.createdItems (removeKeysDesc step.deletedItems s.paths)
        inHistory := s.inHistory - 1 })

/-- The loop of `PathContainer::clearHistory(n)` after its `inHistory < 0`
guards: drop steps from the front of the log until
`history.length() - inHistory <= n` (negative `n` is treated as `0`).
Every call site reaches this loop with `inHistory = 0`. -/
def clearHistoryCore (n : Int) (s : PathContainer) : PathContainer :=
  let n' := if n < 0 then 0 else n
  { s with history := s.history.drop ((s.history.length : Int) - s.inHistory - n').toNat }

/-- `paths.value(k)` as used by `applyMicroStep` (default: null pointer). -/
def pathsValue (k : Int) (p : List (Option GItem)) : Option GItem :=
  if 0 ≤ k then p.getD k.toNat none else none

/-- Step 1 of `PathContainer::applyMicroStep`: walk the deleted map in
ascending key order with a running index shift; for every deleted slot whose
current `paths` entry is a `QGraphicsItemGroup`, record the group's children
in `createdItems` at the shifted indices.  `shift` decreases by one per
deleted key and increases by one per recorded child, exactly as in the
source (`shift--` in the loop head, `shift++` per child). -/
def buildCreatedGo (paths : List (Option GItem)) :
    List (Int × Option GItem) → Int → List (Int × Option GItem) → List (Int × Option GItem)
  | [], _, acc => acc
  | (k, _) :: rest, shift, acc =>
    match pathsValue k paths with
    | some (GItem.group g) =>
      let acc2 :=
        (g.foldl (fun p id => (p.1 + 1, mapInsert p.1 (some (GItem.path id)) p.2))
          (k + shift, acc)).2
      buildCreatedGo paths rest (shift + g.length - 1) acc2
    | _ => buildCreatedGo paths rest (shift - 1) acc

/-- `PathContainer::applyMicroStep`.  Outside a micro step it logs a
contract violation, resets the cursor to `0` and returns `true`.  Inside a
micro step with an empty deleted map it pops the (empty) step and returns
`false`.  Otherwise it converts group markers into `createdItems`, removes
the deleted slots (descending), inserts the new children (ascending),
returns to the forward state and prunes the log to `hlen` entries. -/
def PathContainer.applyMicroStep (hlen : Nat) (s : PathContainer) : Bool × PathContainer :=
  if s.inHistory ≠ -1 then (true, { s with inHistory := 0 })
  else
    match s.history.getLast? with
    | none => (true, { s with inHistory := 0 })
    | some st =>
      if st.deletedItems.isEmpty then
        (false, { s with inHistory := 0, history := s.history.dropLast })
      else
        let created := buildCreatedGo s.paths st.deletedItems 0 []
        let p2 := insertPairsAsc created (removeKeysDesc st.deletedItems s.paths)
        let s2 : PathContainer :=
          { paths := p2
            history := s.history.dropLast ++ [{ st with createdItems := created }]
            inHistory := 0 }
        (true, if s2.history.length > hlen then clearHistoryCore hlen s2 else s2)

/-- `PathContainer::truncateHistory`: finalize an open micro step, clear the
detached flag, or drop all undone ("redo") steps from the end of the log. -/
def PathContainer.truncateHistory (hlen : Nat) (s : PathContainer) : PathContainer :=
  if s.inHistory = -1 then (s.applyMicroStep hlen).2
  else if s.inHistory = -2 then { s with inHistory := 0 }
  else { s with
    history := s.history.take (s.history.length - s.inHistory.toNat)
    inHistory := 0 }

/-- `PathContainer::append(item)`. -/
def PathContainer.append (hlen : Nat) (item : GItem) (s : PathContainer) : PathContainer :=
  let s1 := s.truncateHistory hlen
  let step : DrawHistoryStep :=
    { createdItems := [((s1.paths.length : Int), some item)], deletedItems := [] }
  let s2 := { s1 with history := s1.history ++ [step], paths := s1.paths ++ [some item] }
  if s2.history.length > hlen then clearHistoryCore hlen s2 else s2

/-- `PathContainer::removeItem(item)`.  Note that the index is computed
before `truncateHistory()` runs, exactly as in the source. -/
def PathContainer.removeItem (hlen : Nat) (item : GItem) (s : PathContainer) : PathContainer :=
  let index := qIndexOf (some item) s.paths
  if index < 0 then s
  else
    let s1 := s.truncateHistory hlen
    let s2 := { s1 with paths := eraseAtI index s1.paths }
    let step : DrawHistoryStep := { createdItems := [], deletedItems := [(index, some item)] }
    let s3 := { s2 with history := s2.history ++ [step] }
    if s3.history.length > hlen then clearHistoryCore hlen s3 else s3

/-- `PathContainer::clearPaths`: record every live item as deleted at its
index in a fresh step, then empty the live sequence. -/
def PathContainer.clearPaths (hlen : Nat) (s : PathContainer) : PathContainer :=
  let s1 := s.truncateHistory hlen
  let step : DrawHistoryStep :=
    { createdItems := []
      deletedItems := s1.paths.enum.map (fun x => ((x.1 : Int), x.2)) }
  let s2 := { s1 with history := s1.history ++ [step], paths := [] }
  if s2.history.length > hlen then clearHistoryCore hlen s2 else s2

/-- `PathContainer::startMicroStep`. -/
def PathContainer.startMicroStep (hlen : Nat) (s : PathContainer) : PathContainer :=
  let s1 := s.truncateHistory hlen
  { s1 with history := s1.history ++ [(default : DrawHistoryStep)], inHistory := -1 }

/-- Result of `AbstractGraphicsPath::splitErase` (an external geometric
routine): the path vanished completely (empty list), was not touched (a
list whose first element is null), or was split into new sub-paths. -/
inductive SplitRes where
  | erased
  | unchanged
  | split (pieces : List Nat)
deriving DecidableEq

/-- One call of `PathContainer::eraserMicroStep(pos, size)`.  The geometry
is abstracted into the hit test (`boundingRect().marginsAdded(...)
.contains(pos)`) and the `splitErase` outcome for each path id. -/
structure EraserCall where
  hit : GItem → Bool
  se : Nat → SplitRes

/-- Erasing inside an existing `QGraphicsItemGroup`: every child whose
`splitErase` leaves it unchanged stays (in order); every erased or split
child is removed, and split results are appended at the end of the group
(`addToGroup` appends, and the loop iterates over a snapshot of the
children). -/
def eraseGroup (c : EraserCall) (g : List Nat) : List Nat :=
  (g.filter fun id => c.se id == SplitRes.unchanged) ++
    (g.map fun id =>
      match c.se id with
      | SplitRes.split l => l
      | _ => []).flatten

/-- Effect of one eraser call on the slot at index `i`, threading the open
step's deleted map `m`: a fully erased path is nulled out and recorded, a
split path is replaced by a group of the pieces and recorded, a group is
re-split against its children, anything else is untouched. -/
def eraseSlot (c : EraserCall) (i : Int) (e : Option GItem)
    (m : List (Int × Option GItem)) : Option GItem × List (Int × Option GItem) :=
  match e with
  | none => (none, m)
  | some it =>
    if c.hit it then
      match it with
      | GItem.path id =>
        match c.se id with
        | SplitRes.erased => (none, mapInsert i (some (GItem.path id)) m)
        | SplitRes.unchanged => (some it, m)
        | SplitRes.split l => (some (GItem.group l), mapInsert i (some (GItem.path id)) m)
      | GItem.group g => (some (GItem.group (eraseGroup c g)), m)
      | GItem.text id => (some (GItem.text id), m)
    else (some it, m)

/-- The loop of `eraserMicroStep` over all slots of `paths`. -/
def goErase (c : EraserCall) (i : Int) :
    List (Option GItem) → List (Int × Option GItem) →
    List (Option GItem) × List (Int × Option GItem)
  | [], m => ([], m)
  | e :: rest, m =>
    let r1 := eraseSlot c i e m
    let r2 := goErase c (i + 1) rest r1.2
    (r1.1 :: r2.1, r2.2)

/-- Replace the last history step (`history.last()` is mutated in place in
the source). -/
def modifyLastStep (f : DrawHistoryStep → DrawHistoryStep)
    (h : List DrawHistoryStep) : List DrawHistoryStep :=
  match h.getLast? with
  | none => h
  | some st => h.dropLast ++ [f st]

/-- `PathContainer::eraserMicroStep`: outside a micro step it logs a
contract violation and returns without touching anything. -/
def PathContainer.eraserMicroStep (c : EraserCall) (s : PathContainer) : PathContainer :=
  if s.inHistory ≠ -1 then s
  else
    let dm := (s.history.getLast?.getD default).deletedItems
    let r := goErase c 0 s.paths dm
    { s with
      paths := r.1
      history := modifyLastStep (fun st => { st with deletedItems := r.2 }) s.history }

/-! ## Replay lemmas: inserting and removing by index are inverse -/

/-- Validity of an ascending insertion run: the `i`-th key of `m` must be a
valid insertion position once the `i` earlier pairs have been inserted. -/
def InsOk {α : Type} : List (Int × α) → Nat → Prop
  | [], _ => True
  | (k, _) :: rest, n => 0 ≤ k ∧ k.toNat ≤ n ∧ InsOk rest (n + 1)

theorem length_insertAtI {α : Type} {i : Int} {x : α} {l : List α}
    (h0 : 0 ≤ i) (hle : i.toNat ≤ l.length) :
    (insertAtI i x l).length = l.length + 1 := by
  simp only [insertAtI, if_pos h0]
  exact List.length_insertIdx _ _ hle

theorem eraseAtI_insertAtI {α : Type} (i : Int) (x : α) (l : List α) (h0 : 0 ≤ i) :
    eraseAtI i (insertAtI i x l) = l := by
  simp only [insertAtI, eraseAtI, if_pos h0]
  exact List.eraseIdx_insertIdx _ _

/-- Inserting the pairs of `m` in ascending key order and then removing the
same keys in descending order restores the original list. -/
theorem removeKeysDesc_insertPairsAsc {α : Type} :
    ∀ (m : List (Int × α)) (p : List α), InsOk m p.length →
      removeKeysDesc m (insertPairsAsc m p) = p := by
  intro m
  induction m with
  | nil => intro p _; rfl
  | cons kv rest ih =>
    intro p h
    obtain ⟨h0, hle, hrest⟩ := h
    have hlen : (insertAtI kv.1 kv.2 p).length = p.length + 1 := length_insertAtI h0 hle
    have : removeKeysDesc rest (insertPairsAsc rest (insertAtI kv.1 kv.2 p)) =
        insertAtI kv.1 kv.2 p := by
      apply ih
      rw [hlen]; exact hrest
    show eraseAtI kv.1 (removeKeysDesc rest (insertPairsAsc rest (insertAtI kv.1 kv.2 p))) = p
    rw [this]
    exact eraseAtI_insertAtI _ _ _ h0

theorem insertIdx_eraseIdx_getElem {α : Type} :
    ∀ (n : Nat) (l : List α) (a : α), l[n]? = some a →
      (l.eraseIdx n).insertIdx n a = l := by
  intro n
  induction n with
  | zero =>
    intro l a h
    cases l with
    | nil => simp at h
    | cons x t =>
      simp only [List.getElem?_cons_zero, Option.some.injEq] at h
      subst h
      simp [List.insertIdx_zero]
  | succ n ih =>
    intro l a h
    cases l with
    | nil => simp at h
    | cons x t =>
      simp only [List.getElem?_cons_succ] at h
      simp only [List.eraseIdx_cons_succ, List.insertIdx_succ_cons]
      rw [ih t a h]

theorem insertAtI_eraseAtI_getElem {α : Type} {i : Int} {l : List α} {a : α}
    (h0 : 0 ≤ i) (h : l[i.toNat]? = some a) :
    insertAtI i a (eraseAtI i l) = l := by
  simp only [insertAtI, eraseAtI, if_pos h0]
  exact insertIdx_eraseIdx_getElem _ _ _ h

/-- Removal keys strictly larger than `j` do not disturb position `j`. -/
theorem getElem_removeKeysDesc_lt {α : Type} :
    ∀ (m : List (Int × α)) (p : List α) (j : Nat), (∀ kv ∈ m, (j : Int) < kv.1) →
      (removeKeysDesc m p)[j]? = p[j]? := by
  intro m
  induction m with
  | nil => intro p j _; rfl
  | cons kv rest ih =>
    intro p j h
    have hj : (j : Int) < kv.1 := h kv (by simp)
    have h0 : 0 ≤ kv.1 := le_trans (Int.ofNat_nonneg j) (le_of_lt hj)
    show (eraseAtI kv.1 (removeKeysDesc rest p))[j]? = p[j]?
    rw [eraseAtI, if_pos h0, List.getElem?_eraseIdx]
    have hjk : j < kv.1.toNat := by omega
    rw [if_pos hjk]
    exact ih p j (fun x hx => h x (by simp [hx]))

/-- Pair validity for a descending removal run: ascending keys, in range,
and the recorded values match the list. -/
def DelOk {α : Type} (m : List (Int × α)) (p : List α) : Prop :=
  KeysAsc m ∧ ∀ kv ∈ m, 0 ≤ kv.1 ∧ p[kv.1.toNat]? = some kv.2

/-- Removing the keys of `m` in descending order and then re-inserting the
recorded pairs in ascending order restores the original list. -/
theorem insertPairsAsc_removeKeysDesc {α : Type} :
    ∀ (m : List (Int × α)) (p : List α), DelOk m p →
      insertPairsAsc m (removeKeysDesc m p) = p := by
  intro m
  induction m with
  | nil => intro p _; rfl
  | cons kv rest ih =>
    intro p h
    obtain ⟨hasc, hmem⟩ := h
    obtain ⟨h0, hval⟩ := hmem kv (by simp)
    have hgt : ∀ x ∈ rest, kv.1 < x.1 := (List.pairwise_cons.mp hasc).1
    have hQ : (removeKeysDesc rest p)[kv.1.toNat]? = p[kv.1.toNat]? := by
      apply getElem_removeKeysDesc_lt
      intro x hx
      have : kv.1 < x.1 := hgt x hx
      omega
    show insertPairsAsc rest (insertAtI kv.1 kv.2 (eraseAtI kv.1 (removeKeysDesc rest p))) = p
    rw [insertAtI_eraseAtI_getElem h0 (by rw [hQ]; exact hval)]
    apply ih
    exact ⟨(List.pairwise_cons.mp hasc).2, fun x hx => hmem x (by simp [hx])⟩

/-! ## Length and agreement lemmas for descending removal -/

theorem asc_keys_length_le {α : Type} :
    ∀ (m : List (Int × α)) (lo B : Int), KeysAsc m →
      (∀ kv ∈ m, lo ≤ kv.1 ∧ kv.1 < B) → (m.length : Int) ≤ max 0 (B - lo) := by
  intro m
  induction m with
  | nil => intro lo B _ _; simp
  | cons kv rest ih =>
    intro lo B hasc h
    have hgt : ∀ x ∈ rest, kv.1 < x.1 := (List.pairwise_cons.mp hasc).1
    have hk := h kv (by simp)
    have hr : (rest.length : Int) ≤ max 0 (B - (kv.1 + 1)) := by
      apply ih (kv.1 + 1) B (List.pairwise_cons.mp hasc).2
      intro x hx
      exact ⟨by have := hgt x hx; omega, (h x (by simp [hx])).2⟩
    simp only [List.length_cons]
    have h1 : max 0 (B - (kv.1 + 1)) + 1 ≤ max 0 (B - lo) := by omega
    push_cast
    omega

theorem length_removeKeysDesc {α : Type} :
    ∀ (m : List (Int × α)) (p : List α), KeysAsc m →
      (∀ kv ∈ m, 0 ≤ kv.1 ∧ kv.1 < (p.length : Int)) →
      (removeKeysDesc m p).length = p.length - m.length := by
  intro m
  induction m with
  | nil => intro p _ _; rfl
  | cons kv rest ih =>
    intro p hasc h
    have hgt : ∀ x ∈ rest, kv.1 < x.1 := (List.pairwise_cons.mp hasc).1
    have hk := h kv (by simp)
    have hrest : (removeKeysDesc rest p).length = p.length - rest.length :=
      ih p (List.pairwise_cons.mp hasc).2 (fun x hx => h x (by simp [hx]))
    have hcnt : (rest.length : Int) ≤ max 0 ((p.length : Int) - (kv.1 + 1)) := by
      apply asc_keys_length_le rest (kv.1 + 1) (p.length : Int) (List.pairwise_cons.mp hasc).2
      intro x hx
      exact ⟨by have := hgt x hx; omega, (h x (by simp [hx])).2⟩
    have hklt : kv.1.toNat < (removeKeysDesc rest p).length := by omega
    show (eraseAtI kv.1 (removeKeysDesc rest p)).length = p.length - (rest.length + 1)
    rw [eraseAtI, if_pos hk.1, List.length_eraseIdx_of_lt hklt]
    omega

/-- Two lists of equal length that agree outside the keys of `m` have the
same descending removal.  (Used to relate the live sequence at the end of a
micro step to the pre-step sequence.) -/
theorem removeKeysDesc_congr {α : Type} :
    ∀ (m : List (Int × α)) (p q : List α), KeysAsc m →
      (∀ kv ∈ m, 0 ≤ kv.1 ∧ kv.1 < (p.length : Int)) →
      p.length = q.length →
      (∀ j : Nat, (∀ v, ((j : Int), v) ∉ m) → p[j]? = q[j]?) →
      removeKeysDesc m p = removeKeysDesc m q := by
  intro m
  induction m using List.reverseRecOn with
  | nil =>
    intro p q _ _ hlen hag
    show p = q
    apply List.ext_getElem?
    intro j
    by_cases hj : j < p.length
    · exact hag j (by simp)
    · rw [List.getElem?_eq_none (by omega), List.getElem?_eq_none (by omega)]
  | append_singleton m' kv ih =>
    intro p q hasc hrange hlen hag
    have hasc' : KeysAsc m' := (List.pairwise_append.mp hasc).1
    have hlt : ∀ x ∈ m', x.1 < kv.1 := by
      intro x hx
      exact (List.pairwise_append.mp hasc).2.2 x hx kv (by simp)
    have hk := hrange kv (by simp)
    show removeKeysDesc (m' ++ [kv]) p = removeKeysDesc (m' ++ [kv]) q
    rw [removeKeysDesc, removeKeysDesc, List.foldr_append, List.foldr_append]
    show removeKeysDesc m' (eraseAtI kv.1 p) = removeKeysDesc m' (eraseAtI kv.1 q)
    apply ih
    · exact hasc'
    · intro x hx
      have h1 := hrange x (by simp [hx])
      have h2 := hlt x hx
      have : (eraseAtI kv.1 p).length = p.length - 1 := by
        rw [eraseAtI, if_pos hk.1, List.length_eraseIdx_of_lt (by omega)]
      omega
    · rw [eraseAtI, eraseAtI, if_pos hk.1, if_pos hk.1,
        List.length_eraseIdx_of_lt (by omega), List.length_eraseIdx_of_lt (by omega), hlen]
    · intro j hj
      rw [eraseAtI, eraseAtI, if_pos hk.1, if_pos hk.1,
        List.getElem?_eraseIdx, List.getElem?_eraseIdx]
      by_cases hcase : j < kv.1.toNat
      · rw [if_pos hcase, if_pos hcase]
        apply hag
        intro v hv
        rcases List.mem_append.mp hv with h | h
        · exact hj v h
        · simp only [List.mem_singleton] at h
          have : (j : Int) = kv.1 := congrArg Prod.fst h
          omega
      · rw [if_neg hcase, if_neg hcase]
        apply hag
        intro v hv
        rcases List.mem_append.mp hv with h | h
        · have := hlt _ h
          omega
        · simp only [List.mem_singleton] at h
          have : ((j : Nat) + 1 : Int) = kv.1 := congrArg Prod.fst h
          omega

/-! ## The history chain invariant -/

/-- The live sequences of `paths` before (`p`) and after (`q`) a history
step, as replayed by `redo` (forward) and `undo` (backward). -/
def applyStepL (st : DrawHistoryStep) (p : List (Option GItem)) : List (Option GItem) :=
  insertPairsAsc st.createdItems (removeKeysDesc st.deletedItems p)

def unapplyStepL (st : DrawHistoryStep) (q : List (Option GItem)) : List (Option GItem) :=
  insertPairsAsc st.deletedItems (removeKeysDesc st.createdItems q)

/-- A step is coherent between a pre-state `p` and a post-state `q` when
redoing it maps `p` to `q` and undoing it maps `q` back to `p`. -/
def StepOK (st : DrawHistoryStep) (p q : List (Option GItem)) : Prop :=
  applyStepL st p = q ∧ unapplyStepL st q = p

/-- `ChainOK h qs`: `qs` is the timeline of live sequences threaded by the
history steps `h` (`qs.length = h.length + 1`, consecutive entries are
related by `StepOK`). -/
def ChainOK : List DrawHistoryStep → List (List (Option GItem)) → Prop
  | [], qs => ∃ q, qs = [q]
  | st :: rest, qs => ∃ p q qs2, qs = p :: q :: qs2 ∧ StepOK st p q ∧ ChainOK rest (q :: qs2)

theorem chainOK_length : ∀ (h : List DrawHistoryStep) (qs : List (List (Option GItem))),
    ChainOK h qs → qs.length = h.length + 1 := by
  intro h
  induction h with
  | nil => intro qs hc; obtain ⟨q, rfl⟩ := hc; rfl
  | cons st rest ih =>
    intro qs hc
    obtain ⟨p, q, qs2, rfl, _, hrest⟩ := hc
    have := ih (q :: qs2) hrest
    simp at this ⊢
    omega

theorem chainOK_step : ∀ (h : List DrawHistoryStep) (qs : List (List (Option GItem))),
    ChainOK h qs → ∀ j, j < h.length →
      StepOK (h.getD j default) (qs.getD j []) (qs.getD (j + 1) []) := by
  intro h
  induction h with
  | nil => intro qs _ j hj; simp at hj
  | cons st rest ih =>
    intro qs hc j hj
    obtain ⟨p, q, qs2, rfl, hs, hrest⟩ := hc
    cases j with
    | zero => simpa using hs
    | succ j =>
      have := ih (q :: qs2) hrest j (by simpa using hj)
      simpa using this

theorem chainOK_append_one : ∀ (h : List DrawHistoryStep) (qs : List (List (Option GItem)))
    (st : DrawHistoryStep) (qlast q' : List (Option GItem)), ChainOK h qs →
      qs.getLast? = some qlast → StepOK st qlast q' →
      ChainOK (h ++ [st]) (qs ++ [q']) := by
  intro h
  induction h with
  | nil =>
    intro qs st qlast q' hc hl hs
    obtain ⟨q, rfl⟩ := hc
    simp only [List.getLast?_singleton, Option.some.injEq] at hl
    subst hl
    exact ⟨q, q', [], rfl, hs, q', rfl⟩
  | cons st0 rest ih =>
    intro qs st qlast q' hc hl hs
    obtain ⟨p, q, qs2, rfl, hs0, hrest⟩ := hc
    refine ⟨p, q, qs2 ++ [q'], by simp, hs0, ?_⟩
    have hl2 : (q :: qs2).getLast? = some qlast := by
      rwa [List.getLast?_cons_cons] at hl
    have := ih (q :: qs2) st qlast q' hrest hl2 hs
    simpa using this

theorem chainOK_drop : ∀ (d : Nat) (h : List DrawHistoryStep)
    (qs : List (List (Option GItem))), d ≤ h.length → ChainOK h qs →
      ChainOK (h.drop d) (qs.drop d) := by
  intro d
  induction d with
  | zero => intro h qs _ hc; simpa using hc
  | succ d ih =>
    intro h qs hd hc
    cases h with
    | nil => simp at hd
    | cons st rest =>
      obtain ⟨p, q, qs2, rfl, _, hrest⟩ := hc
      simpa using ih rest (q :: qs2) (by simpa using hd) hrest

theorem chainOK_take : ∀ (h : List DrawHistoryStep) (qs : List (List (Option GItem)))
    (d : Nat), ChainOK h qs → ChainOK (h.take d) (qs.take (d + 1)) := by
  intro h
  induction h with
  | nil =>
    intro qs d hc
    obtain ⟨q, rfl⟩ := hc
    simp only [List.take_nil, List.take_succ_cons]
    exact ⟨q, rfl⟩
  | cons st rest ih =>
    intro qs d hc
    obtain ⟨p, q, qs2, rfl, hs, hrest⟩ := hc
    cases d with
    | zero =>
      simp only [List.take_zero, List.take_succ_cons]
      exact ⟨p, rfl⟩
    | succ d =>
      simp only [List.take_succ_cons]
      refine ⟨p, q, qs2.take d, by simp, hs, ?_⟩
      have := ih (q :: qs2) d hrest
      simpa using this

/-! ## Invariants of reachable PathContainer states -/

/-- `true` on `QGraphicsItemGroup` entries.  Outside an open micro step the
live sequence never contains groups. -/
def isGroupO : Option GItem → Bool
  | some (GItem.group _) => true
  | _ => false

/-- No entry of the list is a group. -/
def NGFree (q : List (Option GItem)) : Prop := ∀ e ∈ q, isGroupO e = false

/-- Forward-state invariant (`inHistory ≥ 0`): the cursor is in range and
the history log carries a coherent timeline of group-free live sequences
whose entry at the cursor is the current `paths`. -/
structure InvF (s : PathContainer) : Prop where
  h0 : 0 ≤ s.inHistory
  hle : s.inHistory ≤ (s.history.length : Int)
  chain : ∃ qs, ChainOK s.history qs ∧
    qs.getD (s.history.length - s.inHistory.toNat) [] = s.paths ∧
    ∀ q ∈ qs, NGFree q

/-- The relation at one slot of the live sequence during a micro step:
if the deleted map records the slot (`mv = some v`), the original entry was
`v` and the slot is now null or a group; otherwise the slot is untouched. -/
def SlotRel (mv : Option (Option GItem)) (qe ce : Option GItem) : Prop :=
  match mv with
  | some v => qe = v ∧ (ce = none ∨ ∃ g, ce = some (GItem.group g))
  | none => ce = qe

/-- Relation between the open micro step's deleted map `dm`, the live
sequence `qpre` from just before `startMicroStep`, and the current live
sequence `cur`: recorded slots hold the original item in `dm` and have been
nulled or replaced by a group in `cur`; all other slots are untouched. -/
structure MicroRel (dm : List (Int × Option GItem)) (qpre cur : List (Option GItem)) : Prop where
  hlen : cur.length = qpre.length
  hasc : KeysAsc dm
  hkeys : ∀ kv ∈ dm, 0 ≤ kv.1 ∧ kv.1 < (qpre.length : Int)
  hrel : ∀ j : Nat, j < qpre.length →
    SlotRel (mapLookup (j : Int) dm) (qpre.getD j none) (cur.getD j none)

/-- Micro-step invariant (`inHistory = -1`): the last history step is the
open (created-empty) micro step, the rest of the log carries a coherent
timeline ending in the pre-step sequence `qpre`, and the current `paths`
relates to `qpre` through the step's deleted map. -/
def InvM (s : PathContainer) : Prop :=
  ∃ hist st qs qpre,
    s.history = hist ++ [st] ∧ st.createdItems = [] ∧
    ChainOK hist qs ∧ qs.getLast? = some qpre ∧ (∀ q ∈ qs, NGFree q) ∧
    MicroRel st.deletedItems qpre s.paths

/-- Invariant of every state reachable through the documented state
machine. -/
def PCInv (s : PathContainer) : Prop :=
  if s.inHistory = -1 then InvM s else InvF s

/-- States reachable from a fresh container through the `PathContainer`
operations, each invoked only from the cursor states in which the spec
declares it valid (`append`/`removeItem`/`clearPaths`/`startMicroStep` from
`Forward`/`PartiallyUndone`, `applyMicroStep` from `MicroStepOpen`;
`eraserMicroStep`, `undo` and `redo` guard themselves).  `append` is only
ever called with freshly drawn strokes or text items, never with a group. -/
inductive Reach (hlen : Nat) : PathContainer → Prop where
  | init : Reach hlen ⟨[], [], 0⟩
  | append (s : PathContainer) (item : GItem) (hs : Reach hlen s)
      (hfwd : 0 ≤ s.inHistory) (hng : ∀ g, item ≠ GItem.group g) :
      Reach hlen (s.append hlen item)
  | removeItem (s : PathContainer) (item : GItem) (hs : Reach hlen s)
      (hfwd : 0 ≤ s.inHistory) : Reach hlen (s.removeItem hlen item)
  | clearPaths (s : PathContainer) (hs : Reach hlen s) (hfwd : 0 ≤ s.inHistory) :
      Reach hlen (s.clearPaths hlen)
  | startMicroStep (s : PathContainer) (hs : Reach hlen s) (hfwd : 0 ≤ s.inHistory) :
      Reach hlen (s.startMicroStep hlen)
  | eraser (s : PathContainer) (c : EraserCall) (hs : Reach hlen s) :
      Reach hlen (s.eraserMicroStep c)
  | applyMicro (s : PathContainer) (hs : Reach hlen s) (hmicro : s.inHistory = -1) :
      Reach hlen (s.applyMicroStep hlen).2
  | undoR (s : PathContainer) (hs : Reach hlen s) : Reach hlen (s.undo).2
  | redoR (s : PathContainer) (hs : Reach hlen s) : Reach hlen (s.redo).2

/-! ## Undo and redo walk the chain -/

theorem undo_chain (s : PathContainer) (qs : List (List (Option GItem)))
    (hc : ChainOK s.history qs) (h0 : 0 ≤ s.inHistory)
    (hlt : s.inHistory < (s.history.length : Int))
    (hcur : qs.getD (s.history.length - s.inHistory.toNat) [] = s.paths) :
    s.undo = (true,
      { s with paths := qs.getD (s.history.length - s.inHistory.toNat - 1) []
               inHistory := s.inHistory + 1 }) := by
  have hguard : ¬(s.inHistory < 0 ∨ (s.history.length : Int) - s.inHistory < 1) := by omega
  rw [PathContainer.undo, if_neg hguard]
  have hm : ((s.history.length : Int) - (s.inHistory + 1)).toNat =
      s.history.length - s.inHistory.toNat - 1 := by omega
  have hj : s.history.length - s.inHistory.toNat - 1 < s.history.length := by omega
  have hstep := chainOK_step s.history qs hc (s.history.length - s.inHistory.toNat - 1) hj
  have hidx : s.history.length - s.inHistory.toNat - 1 + 1 =
      s.history.length - s.inHistory.toNat := by omega
  rw [hidx] at hstep
  rw [hcur] at hstep
  have hpaths := hstep.2
  simp only [Prod.mk.injEq, true_and]
  rw [hm]
  rw [PathContainer.mk.injEq]
  refine ⟨?_, rfl, rfl⟩
  exact hpaths

theorem redo_chain (s : PathContainer) (qs : List (List (Option GItem)))
    (hc : ChainOK s.history qs) (h1 : 1 ≤ s.inHistory)
    (hle : s.inHistory ≤ (s.history.length : Int))
    (hcur : qs.getD (s.history.length - s.inHistory.toNat) [] = s.paths) :
    s.redo = (true,
      { s with paths := qs.getD (s.history.length - s.inHistory.toNat + 1) []
               inHistory := s.inHistory - 1 }) := by
  have hguard : ¬(s.inHistory < 1) := by omega
  rw [PathContainer.redo, if_neg hguard]
  have hm : ((s.history.length : Int) - s.inHistory).toNat =
      s.history.length - s.inHistory.toNat := by omega
  have hj : s.history.length - s.inHistory.toNat < s.history.length := by omega
  have hstep := chainOK_step s.history qs hc (s.history.length - s.inHistory.toNat) hj
  rw [hcur] at hstep
  have hpaths := hstep.1
  simp only [Prod.mk.injEq, true_and]
  rw [hm]
  rw [PathContainer.mk.injEq]
  refine ⟨?_, rfl, rfl⟩
  exact hpaths

/-- Iterated `undo` (discarding the boolean results, as the claim does). -/
def undoN : Nat → PathContainer → PathContainer
  | 0, s => s
  | k + 1, s => undoN k (s.undo).2

/-- Iterated `redo`. -/
def redoN : Nat → PathContainer → PathContainer
  | 0, s => s
  | k + 1, s => redoN k (s.redo).2

theorem undoN_spec : ∀ (k : Nat) (s : PathContainer) (qs : List (List (Option GItem))),
    ChainOK s.history qs → 0 ≤ s.inHistory →
    s.inHistory + (k : Int) ≤ (s.history.length : Int) →
    qs.getD (s.history.length - s.inHistory.toNat) [] = s.paths →
    undoN k s = { s with paths := qs.getD (s.history.length - s.inHistory.toNat - k) []
                         inHistory := s.inHistory + k } := by
  intro k
  induction k with
  | zero =>
    intro s qs _ _ _ hcur
    show s = _
    rw [PathContainer.mk.injEq]
    refine ⟨?_, rfl, by omega⟩
    simpa using hcur.symm
  | succ k ih =>
    intro s qs hc h0 hk hcur
    show undoN k (s.undo).2 = _
    rw [undo_chain s qs hc h0 (by omega) hcur]
    have hres := ih { s with paths := qs.getD (s.history.length - s.inHistory.toNat - 1) []
                             inHistory := s.inHistory + 1 }
      qs hc (by simp; omega) (by simp; omega)
      (by simp only []; congr 1; omega)
    rw [hres]
    rw [PathContainer.mk.injEq]
    refine ⟨by simp only []; congr 1; omega, rfl, by simp only []; omega⟩

theorem redoN_spec : ∀ (k : Nat) (s : PathContainer) (qs : List (List (Option GItem))),
    ChainOK s.history qs → (k : Int) ≤ s.inHistory →
    s.inHistory ≤ (s.history.length : Int) →
    qs.getD (s.history.length - s.inHistory.toNat) [] = s.paths →
    redoN k s = { s with paths := qs.getD (s.history.length - s.inHistory.toNat + k) []
                         inHistory := s.inHistory - k } := by
  intro k
  induction k with
  | zero =>
    intro s qs _ _ _ hcur
    show s = _
    rw [PathContainer.mk.injEq]
    refine ⟨?_, rfl, by omega⟩
    simpa using hcur.symm
  | succ k ih =>
    intro s qs hc hk hle hcur
    show redoN k (s.redo).2 = _
    rw [redo_chain s qs hc (by push_cast at hk; omega) hle hcur]
    have hres := ih { s with paths := qs.getD (s.history.length - s.inHistory.toNat + 1) []
                             inHistory := s.inHistory - 1 }
      qs hc (by simp; omega) (by simp; omega)
      (by simp only []; congr 1; omega)
    rw [hres]
    rw [PathContainer.mk.injEq]
    refine ⟨by simp only []; congr 1; omega, rfl, by simp only []; push_cast; omega⟩

/-! ## QMap lemmas -/

theorem mapLookup_mapInsert_self {α : Type} (k : Int) (v : α) :
    ∀ (m : List (Int × α)), mapLookup k (mapInsert k v m) = some v := by
  intro m
  induction m with
  | nil => simp [mapInsert, mapLookup]
  | cons kv rest ih =>
    by_cases h1 : k < kv.1
    · simp [mapInsert, mapLookup, h1]
    · by_cases h2 : k = kv.1
      · simp [mapInsert, mapLookup, h1, h2]
      · simp only [mapInsert, if_neg h1, if_neg h2, mapLookup, if_neg h2]
        exact ih

theorem mapLookup_mapInsert_ne {α : Type} (k k' : Int) (v : α) (hne : k' ≠ k) :
    ∀ (m : List (Int × α)), mapLookup k' (mapInsert k v m) = mapLookup k' m := by
  intro m
  induction m with
  | nil => simp [mapInsert, mapLookup, hne]
  | cons kv rest ih =>
    by_cases h1 : k < kv.1
    · simp only [mapInsert, if_pos h1, mapLookup, if_neg hne]
    · by_cases h2 : k = kv.1
      · subst h2
        simp only [mapInsert, if_neg h1, if_pos rfl, mapLookup, if_neg hne]
      · simp only [mapInsert, if_neg h1, if_neg h2, mapLookup]
        by_cases h3 : k' = kv.1
        · simp [h3]
        · simp only [if_neg h3]
          exact ih

theorem keysAsc_mapInsert {α : Type} (k : Int) (v : α) :
    ∀ (m : List (Int × α)), KeysAsc m → KeysAsc (mapInsert k v m) := by
  intro m
  induction m with
  | nil => intro _; simp [mapInsert, KeysAsc]
  | cons kv rest ih =>
    intro hasc
    obtain ⟨hhead, hrest⟩ := List.pairwise_cons.mp hasc
    by_cases h1 : k < kv.1
    · simp only [mapInsert, if_pos h1]
      refine List.pairwise_cons.mpr ⟨?_, hasc⟩
      intro x hx
      rcases List.mem_cons.mp hx with h | h
      · rw [h]; exact h1
      · exact lt_trans h1 (hhead x h)
    · by_cases h2 : k = kv.1
      · subst h2
        simp only [mapInsert, if_neg h1, if_pos rfl]
        exact List.pairwise_cons.mpr ⟨hhead, hrest⟩
      · simp only [mapInsert, if_neg h1, if_neg h2]
        refine List.pairwise_cons.mpr ⟨?_, ih hrest⟩
        intro x hx
        have hk : kv.1 < k := by omega
        -- membership in mapInsert: either old member or the new pair
        clear ih hasc hrest
        induction rest with
        | nil =>
          simp only [mapInsert, List.mem_singleton] at hx
          rw [hx]; exact hk
        | cons kv2 rest2 ih2 =>
          by_cases g1 : k < kv2.1
          · simp only [mapInsert, if_pos g1] at hx
            rcases List.mem_cons.mp hx with h | h
            · rw [h]; exact hk
            · exact hhead x (by simp [List.mem_cons.mp h])
          · by_cases g2 : k = kv2.1
            · simp only [mapInsert, if_neg g1, if_pos g2] at hx
              rcases List.mem_cons.mp hx with h | h
              · rw [h]; exact hk
              · exact hhead x (by simp [h])
            · simp only [mapInsert, if_neg g1, if_neg g2] at hx
              rcases List.mem_cons.mp hx with h | h
              · exact hhead x (by rw [h]; simp)
              · exact ih2 (fun y hy => hhead y (by simp at hy ⊢; tauto)) h

theorem mapLookup_eq_none_iff {α : Type} (k : Int) :
    ∀ (m : List (Int × α)), mapLookup k m = none ↔ ∀ v, (k, v) ∉ m := by
  intro m
  induction m with
  | nil => simp [mapLookup]
  | cons kv rest ih =>
    cases kv with
    | mk k0 v0 =>
      simp only [mapLookup, List.mem_cons]
      by_cases h : k = k0
      · subst h
        simp only [if_pos rfl]
        constructor
        · intro hc; exact Option.noConfusion hc
        · intro hc
          exact absurd (Or.inl rfl) (hc v0)
      · simp only [if_neg h]
        rw [ih]
        constructor
        · intro hc v hv
          rcases hv with h2 | h2
          · exact h (by injection h2)
          · exact hc v h2
        · intro hc v hv
          exact hc v (Or.inr hv)

theorem mapLookup_of_mem_asc {α : Type} :
    ∀ (m : List (Int × α)), KeysAsc m → ∀ kv ∈ m, mapLookup kv.1 m = some kv.2 := by
  intro m
  induction m with
  | nil => intro _ kv h; simp at h
  | cons kv0 rest ih =>
    intro hasc kv hkv
    obtain ⟨hhead, hrest⟩ := List.pairwise_cons.mp hasc
    rcases List.mem_cons.mp hkv with h | h
    · subst h; simp [mapLookup]
    · have hne : kv.1 ≠ kv0.1 := by
        have := hhead kv h; omega
      simp only [mapLookup, if_neg hne]
      exact ih hrest kv h

theorem mapLookup_isSome_mem {α : Type} :
    ∀ (m : List (Int × α)) (k : Int) (v : α), mapLookup k m = some v → (k, v) ∈ m := by
  intro m
  induction m with
  | nil => intro k v h; simp [mapLookup] at h
  | cons kv rest ih =>
    intro k v h
    simp only [mapLookup] at h
    by_cases hk : k = kv.1
    · rw [if_pos hk] at h
      apply List.mem_cons.mpr
      left
      cases kv
      simp at hk h ⊢
      exact ⟨hk, h.symm⟩
    · rw [if_neg hk] at h
      apply List.mem_cons.mpr
      right
      exact ih k v h

/-! ## The eraser preserves the micro-step relation -/

theorem eraseSlot_spec (c : EraserCall) (i0 : Int) (qe e : Option GItem)
    (m : List (Int × Option GItem)) (hasc : KeysAsc m) (hng : isGroupO qe = false)
    (hrel : SlotRel (mapLookup i0 m) qe e) :
    KeysAsc (eraseSlot c i0 e m).2 ∧
    (∀ k : Int, k ≠ i0 → mapLookup k (eraseSlot c i0 e m).2 = mapLookup k m) ∧
    (∀ v, mapLookup i0 m = some v → mapLookup i0 (eraseSlot c i0 e m).2 = some v) ∧
    SlotRel (mapLookup i0 (eraseSlot c i0 e m).2) qe (eraseSlot c i0 e m).1 := by
  cases hmv : mapLookup i0 m with
  | some v =>
    rw [hmv] at hrel
    obtain ⟨hqe, hslot⟩ := hrel
    have hmap : (eraseSlot c i0 e m).2 = m ∧
        ((eraseSlot c i0 e m).1 = none ∨
          ∃ g, (eraseSlot c i0 e m).1 = some (GItem.group g)) := by
      rcases hslot with h | ⟨g, h⟩
      · subst h; exact ⟨rfl, Or.inl rfl⟩
      · subst h
        simp only [eraseSlot]
        by_cases hh : c.hit (GItem.group g)
        · rw [if_pos hh]
          exact ⟨rfl, Or.inr ⟨eraseGroup c g, rfl⟩⟩
        · rw [if_neg hh]
          exact ⟨rfl, Or.inr ⟨g, rfl⟩⟩
    refine ⟨by rw [hmap.1]; exact hasc, fun k _ => by rw [hmap.1],
      fun v2 hv2 => by rw [hmap.1, hmv]; exact hv2, ?_⟩
    rw [hmap.1, hmv]
    exact ⟨hqe, hmap.2⟩
  | none =>
    rw [hmv] at hrel
    have heq : e = qe := hrel
    subst heq
    have hfix : ∀ (res : Option GItem × List (Int × Option GItem)), res.2 = m →
        res.1 = e →
        KeysAsc res.2 ∧
        (∀ k : Int, k ≠ i0 → mapLookup k res.2 = mapLookup k m) ∧
        (∀ v, (none : Option (Option GItem)) = some v → mapLookup i0 res.2 = some v) ∧
        SlotRel (mapLookup i0 res.2) e res.1 := by
      intro res h2 h1
      refine ⟨by rw [h2]; exact hasc, fun k _ => by rw [h2],
        fun v2 hv2 => absurd hv2 (by simp), ?_⟩
      rw [h2, hmv, h1]
      show e = e
      rfl
    cases e with
    | none => exact hfix (eraseSlot c i0 none m) rfl rfl
    | some it =>
      by_cases hh : c.hit it
      · cases it with
        | path id =>
          cases hse : c.se id with
          | erased =>
            have hres : eraseSlot c i0 (some (GItem.path id)) m =
                (none, mapInsert i0 (some (GItem.path id)) m) := by
              simp [eraseSlot, hh, hse]
            rw [hres]
            refine ⟨keysAsc_mapInsert _ _ m hasc,
              fun k hk => mapLookup_mapInsert_ne _ _ _ hk m,
              fun v2 hv2 => absurd hv2 (by simp), ?_⟩
            show SlotRel (mapLookup i0 (mapInsert i0 (some (GItem.path id)) m)) _ _
            rw [mapLookup_mapInsert_self]
            exact ⟨rfl, Or.inl rfl⟩
          | unchanged =>
            have hres : eraseSlot c i0 (some (GItem.path id)) m =
                (some (GItem.path id), m) := by
              simp [eraseSlot, hh, hse]
            exact hfix (eraseSlot c i0 (some (GItem.path id)) m)
              (by rw [hres]) (by rw [hres])
          | split l =>
            have hres : eraseSlot c i0 (some (GItem.path id)) m =
                (some (GItem.group l), mapInsert i0 (some (GItem.path id)) m) := by
              simp [eraseSlot, hh, hse]
            rw [hres]
            refine ⟨keysAsc_mapInsert _ _ m hasc,
              fun k hk => mapLookup_mapInsert_ne _ _ _ hk m,
              fun v2 hv2 => absurd hv2 (by simp), ?_⟩
            show SlotRel (mapLookup i0 (mapInsert i0 (some (GItem.path id)) m)) _ _
            rw [mapLookup_mapInsert_self]
            exact ⟨rfl, Or.inr ⟨l, rfl⟩⟩
        | text id =>
          exact hfix (eraseSlot c i0 (some (GItem.text id)) m)
            (by simp [eraseSlot, hh]) (by simp [eraseSlot, hh])
        | group g => simp [isGroupO] at hng
      · have hres : eraseSlot c i0 (some it) m = (some it, m) := by
          simp [eraseSlot, hh]
        exact hfix (eraseSlot c i0 (some it) m) (by rw [hres]) (by rw [hres])

theorem goErase_master (c : EraserCall) :
    ∀ (ctail qtail : List (Option GItem)) (i0 : Int) (m : List (Int × Option GItem)),
    ctail.length = qtail.length →
    KeysAsc m →
    NGFree qtail →
    (∀ j : Nat, j < qtail.length →
      SlotRel (mapLookup (i0 + (j : Int)) m) (qtail.getD j none) (ctail.getD j none)) →
    (goErase c i0 ctail m).1.length = ctail.length ∧
    KeysAsc (goErase c i0 ctail m).2 ∧
    (∀ k : Int, (k < i0 ∨ i0 + (qtail.length : Int) ≤ k) →
      mapLookup k (goErase c i0 ctail m).2 = mapLookup k m) ∧
    (∀ (k : Int) (v : Option GItem), mapLookup k m = some v →
      mapLookup k (goErase c i0 ctail m).2 = some v) ∧
    (∀ j : Nat, j < qtail.length →
      SlotRel (mapLookup (i0 + (j : Int)) (goErase c i0 ctail m).2)
        (qtail.getD j none) ((goErase c i0 ctail m).1.getD j none)) := by
  intro ctail
  induction ctail with
  | nil =>
    intro qtail i0 m hlen _ _ _
    have hq : qtail = [] := by
      cases qtail with
      | nil => rfl
      | cons a b => simp at hlen
    subst hq
    exact ⟨rfl, by simpa using ‹KeysAsc m›, fun k _ => rfl, fun k v hv => hv,
      fun j hj => absurd hj (by simp)⟩
  | cons e crest ih =>
    intro qtail i0 m hlen hasc hng hrel
    cases qtail with
    | nil => simp at hlen
    | cons qe qrest =>
      have hlen2 : crest.length = qrest.length := by simpa using hlen
      have hng0 : isGroupO qe = false := hng qe (by simp)
      have hngrest : NGFree qrest := fun x hx => hng x (by simp [hx])
      have hrel0 : SlotRel (mapLookup i0 m) qe e := by
        have := hrel 0 (by simp)
        simpa using this
      have hes := eraseSlot_spec c i0 qe e m hasc hng0 hrel0
      have hrelrest : ∀ j : Nat, j < qrest.length →
          SlotRel (mapLookup ((i0 + 1) + (j : Int)) (eraseSlot c i0 e m).2)
            (qrest.getD j none) (crest.getD j none) := by
        intro j hj
        have hf : mapLookup ((i0 + 1) + (j : Int)) (eraseSlot c i0 e m).2 =
            mapLookup ((i0 + 1) + (j : Int)) m := hes.2.1 _ (by omega)
        rw [hf]
        have h2 := hrel (j + 1) (by simp; omega)
        have hc : i0 + ((j + 1 : Nat) : Int) = (i0 + 1) + (j : Int) := by push_cast; ring
        rw [hc] at h2
        simpa using h2
      have hih := ih qrest (i0 + 1) (eraseSlot c i0 e m).2 hlen2 hes.1 hngrest hrelrest
      have hsplit : goErase c i0 (e :: crest) m =
          ((eraseSlot c i0 e m).1 :: (goErase c (i0 + 1) crest (eraseSlot c i0 e m).2).1,
           (goErase c (i0 + 1) crest (eraseSlot c i0 e m).2).2) := rfl
      rw [hsplit]
      refine ⟨by simpa using hih.1, hih.2.1, ?_, ?_, ?_⟩
      · intro k hk
        have h1 : mapLookup k (goErase c (i0 + 1) crest (eraseSlot c i0 e m).2).2 =
            mapLookup k (eraseSlot c i0 e m).2 := by
          apply hih.2.2.1
          rcases hk with h | h
          · left; omega
          · right; simp at h ⊢; omega
        rw [h1]
        apply hes.2.1
        rcases hk with h | h
        · omega
        · simp at h; omega
      · intro k v hv
        by_cases hk : k = i0
        · subst hk
          exact hih.2.2.2.1 _ _ (hes.2.2.1 v hv)
        · apply hih.2.2.2.1
          rw [hes.2.1 k hk]
          exact hv
      · intro j hj
        cases j with
        | zero =>
          simp only [List.getD_cons_zero, Int.Nat.cast_ofNat_Int, add_zero]
          have hf : mapLookup i0 (goErase c (i0 + 1) crest (eraseSlot c i0 e m).2).2 =
              mapLookup i0 (eraseSlot c i0 e m).2 := hih.2.2.1 _ (by left; omega)
          rw [hf]
          exact hes.2.2.2
        | succ j =>
          have hj2 : j < qrest.length := by simp at hj; omega
          have := hih.2.2.2.2 j hj2
          have hc : i0 + ((j + 1 : Nat) : Int) = (i0 + 1) + (j : Int) := by push_cast; ring
          simp only [List.getD_cons_succ]
          rw [hc]
          exact this

theorem mem_of_getLastQ {α : Type} : ∀ (l : List α) (a : α), l.getLast? = some a → a ∈ l := by
  intro l
  induction l with
  | nil => intro a h; exact Option.noConfusion h
  | cons x xs ih =>
    intro a h
    cases xs with
    | nil =>
      simp only [List.getLast?_singleton, Option.some.injEq] at h
      simp [h]
    | cons y ys =>
      rw [List.getLast?_cons_cons] at h
      simp [ih a h]

theorem modifyLastStep_concat (f : DrawHistoryStep → DrawHistoryStep)
    (h : List DrawHistoryStep) (st : DrawHistoryStep) :
    modifyLastStep f (h ++ [st]) = h ++ [f st] := by
  rw [modifyLastStep, List.getLast?_concat]
  rw [List.dropLast_concat]

/-- An eraser call inside an open micro step preserves the micro-step
invariant. -/
theorem eraser_preserves_invM (c : EraserCall) (s : PathContainer)
    (hm : s.inHistory = -1) (hinv : InvM s) : InvM (s.eraserMicroStep c) := by
  obtain ⟨hist, st, qs, qpre, hh, hcre, hchain, hlast, hngall, hrelm⟩ := hinv
  have hguard : ¬(s.inHistory ≠ -1) := by omega
  have hdm : (s.history.getLast?.getD default).deletedItems = st.deletedItems := by
    rw [hh, List.getLast?_concat]
    rfl
  have hngpre : NGFree qpre := hngall qpre (mem_of_getLastQ qs qpre hlast)
  have hrel0 : ∀ j : Nat, j < qpre.length →
      SlotRel (mapLookup ((0 : Int) + (j : Int)) st.deletedItems)
        (qpre.getD j none) (s.paths.getD j none) := by
    intro j hj
    have := hrelm.hrel j hj
    simpa using this
  have hmaster := goErase_master c s.paths qpre 0 st.deletedItems hrelm.hlen
    hrelm.hasc hngpre hrel0
  refine ⟨hist, { st with deletedItems := (goErase c 0 s.paths st.deletedItems).2 },
    qs, qpre, ?_, hcre, hchain, hlast, hngall, ?_⟩
  · show (s.eraserMicroStep c).history = _
    rw [PathContainer.eraserMicroStep, if_neg hguard]
    simp only [hdm, hh]
    rw [modifyLastStep_concat]
    simp [List.getLast?_concat]
  · have hpaths : (s.eraserMicroStep c).paths = (goErase c 0 s.paths st.deletedItems).1 := by
      rw [PathContainer.eraserMicroStep, if_neg hguard]
      simp only [hdm]
    refine ⟨?_, hmaster.2.1, ?_, ?_⟩
    · rw [hpaths, hmaster.1]
      exact hrelm.hlen
    · intro kv hkv
      have hlk : mapLookup kv.1 (goErase c 0 s.paths st.deletedItems).2 = some kv.2 :=
        mapLookup_of_mem_asc _ hmaster.2.1 kv hkv
      by_contra hcon
      push_neg at hcon
      have hout : kv.1 < 0 ∨ (0 : Int) + (qpre.length : Int) ≤ kv.1 := by
        by_cases h1 : 0 ≤ kv.1
        · right
          have := hcon h1
          omega
        · left; omega
      rw [hmaster.2.2.1 kv.1 hout] at hlk
      have hnone : mapLookup kv.1 st.deletedItems = none := by
        rw [mapLookup_eq_none_iff]
        intro v hv
        have := hrelm.hkeys (kv.1, v) hv
        simp at this
        omega
      rw [hnone] at hlk
      exact Option.noConfusion hlk
    · intro j hj
      have := hmaster.2.2.2.2 j hj
      rw [hpaths]
      simpa using this

/-! ## applyMicroStep: the created map built from group markers -/

/-- The pairs recorded for the children of one group: consecutive keys
starting at `base`. -/
def groupPairsFrom (base : Int) : List Nat → List (Int × Option GItem)
  | [] => []
  | id :: rest => (base, some (GItem.path id)) :: groupPairsFrom (base + 1) rest

/-- Accumulator-free description of `buildCreatedGo` (the keys are written
in strictly ascending order, so the `QMap` writes just append). -/
def genCreated (paths : List (Option GItem)) :
    List (Int × Option GItem) → Int → List (Int × Option GItem)
  | [], _ => []
  | (k, _) :: rest, shift =>
    match pathsValue k paths with
    | some (GItem.group g) =>
      groupPairsFrom (k + shift) g ++ genCreated paths rest (shift + g.length - 1)
    | _ => genCreated paths rest (shift - 1)

theorem mapInsert_append_of_gt {α : Type} (k : Int) (v : α) :
    ∀ (m : List (Int × α)), (∀ kv ∈ m, kv.1 < k) → mapInsert k v m = m ++ [(k, v)] := by
  intro m
  induction m with
  | nil => intro _; rfl
  | cons kv rest ih =>
    intro h
    have h0 := h kv (by simp)
    simp only [mapInsert, if_neg (by omega : ¬k < kv.1), if_neg (by omega : ¬k = kv.1)]
    rw [ih (fun x hx => h x (by simp [hx]))]
    simp

theorem foldIns_spec :
    ∀ (g : List Nat) (start : Int) (acc : List (Int × Option GItem)),
    (∀ kv ∈ acc, kv.1 < start) →
    (g.foldl (fun p id => (p.1 + 1, mapInsert p.1 (some (GItem.path id)) p.2)) (start, acc)) =
      (start + g.length, acc ++ groupPairsFrom start g) := by
  intro g
  induction g with
  | nil => intro start acc _; simp [groupPairsFrom]
  | cons id rest ih =>
    intro start acc hacc
    simp only [List.foldl_cons]
    rw [mapInsert_append_of_gt start _ acc hacc]
    have := ih (start + 1) (acc ++ [(start, some (GItem.path id))])
      (by intro kv hkv
          rcases List.mem_append.mp hkv with h | h
          · have := hacc kv h; omega
          · simp only [List.mem_singleton] at h
            subst h
            show start < start + 1
            omega)
    rw [this]
    simp only [groupPairsFrom, List.length_cons]
    rw [Prod.mk.injEq]
    refine ⟨by push_cast; ring, by simp⟩

theorem groupPairsFrom_key_lb :
    ∀ (g : List Nat) (base : Int) (kv : Int × Option GItem),
      kv ∈ groupPairsFrom base g → base ≤ kv.1 ∧ kv.1 < base + g.length := by
  intro g
  induction g with
  | nil => intro base kv h; exact absurd h (by simp [groupPairsFrom])
  | cons id rest ih =>
    intro base kv h
    simp only [groupPairsFrom, List.mem_cons] at h
    rcases h with h | h
    · subst h; simp
    · have := ih (base + 1) kv h
      simp only [List.length_cons]
      push_cast at this ⊢
      omega

theorem keysAsc_groupPairsFrom : ∀ (g : List Nat) (base : Int),
    KeysAsc (groupPairsFrom base g) := by
  intro g
  induction g with
  | nil => intro base; simp [groupPairsFrom, KeysAsc]
  | cons id rest ih =>
    intro base
    refine List.pairwise_cons.mpr ⟨?_, ih (base + 1)⟩
    intro kv hkv
    have := groupPairsFrom_key_lb rest (base + 1) kv hkv
    simp only []
    omega

theorem genCreated_key_lb (paths : List (Option GItem)) :
    ∀ (dm : List (Int × Option GItem)) (shift lo : Int), KeysAsc dm →
      (∀ kv ∈ dm, lo ≤ kv.1) →
      ∀ kv2 ∈ genCreated paths dm shift, lo + shift ≤ kv2.1 := by
  intro dm
  induction dm with
  | nil => intro shift lo _ _ kv2 h; exact absurd h (by simp [genCreated])
  | cons kv rest ih =>
    intro shift lo hasc hlo kv2 h2
    obtain ⟨hhead, hrest⟩ := List.pairwise_cons.mp hasc
    have hk := hlo kv (by simp)
    cases kv with
    | mk k v0 =>
      simp only [genCreated] at h2
      cases hpv : pathsValue k paths with
      | none =>
        rw [hpv] at h2
        have := ih (shift - 1) (k + 1) hrest
          (fun x hx => by have := hhead x hx; omega) kv2 h2
        simp at hk
        omega
      | some it =>
        cases it with
        | group g =>
          rw [hpv] at h2
          rcases List.mem_append.mp h2 with h | h
          · have := groupPairsFrom_key_lb g (k + shift) kv2 h
            simp at hk
            omega
          · have := ih (shift + g.length - 1) (k + 1) hrest
              (fun x hx => by have := hhead x hx; omega) kv2 h
            simp at hk
            omega
        | path id =>
          rw [hpv] at h2
          have := ih (shift - 1) (k + 1) hrest
            (fun x hx => by have := hhead x hx; omega) kv2 h2
          simp at hk
          omega
        | text id =>
          rw [hpv] at h2
          have := ih (shift - 1) (k + 1) hrest
            (fun x hx => by have := hhead x hx; omega) kv2 h2
          simp at hk
          omega

theorem groupPairsFrom_length : ∀ (g : List Nat) (base : Int),
    (groupPairsFrom base g).length = g.length := by
  intro g
  induction g with
  | nil => intro base; rfl
  | cons id rest ih => intro base; simp [groupPairsFrom, ih]

theorem keysAsc_genCreated (paths : List (Option GItem)) :
    ∀ (dm : List (Int × Option GItem)) (shift : Int), KeysAsc dm →
      KeysAsc (genCreated paths dm shift) := by
  intro dm
  induction dm with
  | nil => intro shift _; simp [genCreated, KeysAsc]
  | cons kv rest ih =>
    intro shift hasc
    obtain ⟨hhead, hrest⟩ := List.pairwise_cons.mp hasc
    cases kv with
    | mk k v0 =>
      simp only [genCreated]
      cases hpv : pathsValue k paths with
      | none => exact ih (shift - 1) hrest
      | some it =>
        cases it with
        | group g =>
          apply List.pairwise_append.mpr
          refine ⟨keysAsc_groupPairsFrom g (k + shift), ih (shift + g.length - 1) hrest, ?_⟩
          intro x hx y hy
          have hxb := groupPairsFrom_key_lb g (k + shift) x hx
          have hyb := genCreated_key_lb paths rest (shift + g.length - 1) (k + 1) hrest
            (fun z hz => by have := hhead z hz; omega) y hy
          omega
        | path id => exact ih (shift - 1) hrest
        | text id => exact ih (shift - 1) hrest

theorem buildCreatedGo_eq (paths : List (Option GItem)) :
    ∀ (dm : List (Int × Option GItem)) (shift : Int) (acc : List (Int × Option GItem))
      (lo : Int), KeysAsc dm → (∀ kv ∈ dm, lo ≤ kv.1) →
      (∀ kv ∈ acc, kv.1 < lo + shift) →
      buildCreatedGo paths dm shift acc = acc ++ genCreated paths dm shift := by
  intro dm
  induction dm with
  | nil => intro shift acc lo _ _ _; simp [buildCreatedGo, genCreated]
  | cons kv rest ih =>
    intro shift acc lo hasc hlo hacc
    obtain ⟨hhead, hrest⟩ := List.pairwise_cons.mp hasc
    have hk := hlo kv (by simp)
    cases kv with
    | mk k v0 =>
      cases hpv : pathsValue k paths with
      | none =>
        have h1 : buildCreatedGo paths ((k, v0) :: rest) shift acc =
            buildCreatedGo paths rest (shift - 1) acc := by
          simp [buildCreatedGo, hpv]
        have h2 : genCreated paths ((k, v0) :: rest) shift =
            genCreated paths rest (shift - 1) := by
          simp [genCreated, hpv]
        rw [h1, h2]
        exact ih (shift - 1) acc (k + 1) hrest
          (fun x hx => by have := hhead x hx; omega)
          (fun x hx => by have := hacc x hx; simp at hk; omega)
      | some it =>
        cases it with
        | group g =>
          have hc : ∀ x ∈ acc, x.1 < k + shift := by
            intro x hx; have := hacc x hx; simp at hk; omega
          have hfold : (g.foldl (fun p id => (p.1 + 1, mapInsert p.1
              (some (GItem.path id)) p.2)) (k + shift, acc)).2 =
              acc ++ groupPairsFrom (k + shift) g := by
            rw [foldIns_spec g (k + shift) acc hc]
          have h1 : buildCreatedGo paths ((k, v0) :: rest) shift acc =
              buildCreatedGo paths rest (shift + (g.length : Int) - 1)
                (acc ++ groupPairsFrom (k + shift) g) := by
            simp only [buildCreatedGo, hpv]
            rw [hfold]
          have h2 : genCreated paths ((k, v0) :: rest) shift =
              groupPairsFrom (k + shift) g ++
                genCreated paths rest (shift + (g.length : Int) - 1) := by
            simp [genCreated, hpv]
          rw [h1, h2]
          rw [ih (shift + g.length - 1) (acc ++ groupPairsFrom (k + shift) g) (k + 1) hrest
            (fun x hx => by have := hhead x hx; omega)
            (by intro x hx
                rcases List.mem_append.mp hx with h | h
                · have := hacc x h; simp at hk; omega
                · have := groupPairsFrom_key_lb g (k + shift) x h; omega)]
          simp [List.append_assoc]
        | path id =>
          have h1 : buildCreatedGo paths ((k, v0) :: rest) shift acc =
              buildCreatedGo paths rest (shift - 1) acc := by
            simp [buildCreatedGo, hpv]
          have h2 : genCreated paths ((k, v0) :: rest) shift =
              genCreated paths rest (shift - 1) := by
            simp [genCreated, hpv]
          rw [h1, h2]
          exact ih (shift - 1) acc (k + 1) hrest
            (fun x hx => by have := hhead x hx; omega)
            (fun x hx => by have := hacc x hx; simp at hk; omega)
        | text id =>
          have h1 : buildCreatedGo paths ((k, v0) :: rest) shift acc =
              buildCreatedGo paths rest (shift - 1) acc := by
            simp [buildCreatedGo, hpv]
          have h2 : genCreated paths ((k, v0) :: rest) shift =
              genCreated paths rest (shift - 1) := by
            simp [genCreated, hpv]
          rw [h1, h2]
          exact ih (shift - 1) acc (k + 1) hrest
            (fun x hx => by have := hhead x hx; omega)
            (fun x hx => by have := hacc x hx; simp at hk; omega)

theorem insOk_append {α : Type} : ∀ (a b : List (Int × α)) (n : Nat),
    InsOk a n → InsOk b (n + a.length) → InsOk (a ++ b) n := by
  intro a
  induction a with
  | nil => intro b n _ hb; simpa using hb
  | cons kv arest ih =>
    intro b n ha hb
    obtain ⟨h0, hle, hrest⟩ := ha
    refine ⟨h0, hle, ?_⟩
    apply ih b (n + 1) hrest
    have : n + 1 + arest.length = n + (arest.length + 1) := by omega
    rw [this]
    simpa using hb

theorem insOk_groupPairsFrom : ∀ (g : List Nat) (base : Int) (n : Nat),
    0 ≤ base → base.toNat ≤ n → InsOk (groupPairsFrom base g) n := by
  intro g
  induction g with
  | nil => intro base n _ _; exact trivial
  | cons id rest ih =>
    intro base n h0 hle
    exact ⟨h0, hle, ih (base + 1) (n + 1) (by omega) (by omega)⟩

/-- Number of keys of `dm` strictly below `x`. -/
def countLT {α : Type} (dm : List (Int × α)) (x : Int) : Int :=
  ((dm.filter (fun kv => decide (kv.1 < x))).length : Int)

theorem countLT_head_zero {α : Type} (k : Int) (v : α) (rest : List (Int × α))
    (hasc : KeysAsc ((k, v) :: rest)) : countLT ((k, v) :: rest) k = 0 := by
  have hhead := (List.pairwise_cons.mp hasc).1
  have : ((k, v) :: rest).filter (fun kv => decide (kv.1 < k)) = [] := by
    rw [List.filter_eq_nil_iff]
    intro kv hkv
    rcases List.mem_cons.mp hkv with h | h
    · subst h; simp
    · have := hhead kv h
      simp
      omega
  rw [countLT, this]
  rfl

theorem countLT_cons_of_lt {α : Type} (k : Int) (v : α) (rest : List (Int × α))
    (x : Int) (h : k < x) : countLT ((k, v) :: rest) x = countLT rest x + 1 := by
  rw [countLT, countLT]
  rw [List.filter_cons_of_pos (by simp; omega)]
  simp

theorem length_filter_split {α : Type} (p : α → Bool) :
    ∀ (l : List α), (l.filter p).length + (l.filter (fun a => !(p a))).length = l.length := by
  intro l
  induction l with
  | nil => rfl
  | cons x rest ih =>
    by_cases h : p x
    · rw [List.filter_cons_of_pos h, List.filter_cons_of_neg (by simp [h])]
      simp only [List.length_cons]
      omega
    · rw [List.filter_cons_of_neg (by simpa using h), List.filter_cons_of_pos (by simpa using h)]
      simp only [List.length_cons]
      omega

theorem asc_count_ge {α : Type} (dm : List (Int × α)) (B : Int) (hasc : KeysAsc dm)
    (hB : ∀ kv ∈ dm, kv.1 < B) :
    ∀ kv ∈ dm, (dm.length : Int) - countLT dm kv.1 ≤ B - kv.1 := by
  intro kv hkv
  have hsub : KeysAsc (dm.filter (fun x => !(decide (x.1 < kv.1)))) :=
    List.Pairwise.sublist (List.filter_sublist dm) hasc
  have hlen := asc_keys_length_le (dm.filter (fun x => !(decide (x.1 < kv.1)))) kv.1 B hsub
    (by intro x hx
        have hmem := List.mem_of_mem_filter hx
        have hprop := List.of_mem_filter hx
        simp at hprop
        exact ⟨hprop, hB x hmem⟩)
  have hsplit := length_filter_split (fun x => decide (x.1 < kv.1)) dm
  have hkB := hB kv hkv
  rw [countLT]
  have : (0 : Int) ≤ B - kv.1 - 1 := by omega
  omega

theorem genCreated_insOk (paths : List (Option GItem)) :
    ∀ (dm : List (Int × Option GItem)) (shift : Int) (n : Nat), KeysAsc dm →
      (∀ kv ∈ dm, 0 ≤ kv.1 + shift) →
      (∀ kv ∈ dm, kv.1 + shift ≤ (n : Int) + countLT dm kv.1) →
      InsOk (genCreated paths dm shift) n := by
  intro dm
  induction dm with
  | nil => intro shift n _ _ _; exact trivial
  | cons kv rest ih =>
    intro shift n hasc h0 hB
    obtain ⟨hhead, hrest⟩ := List.pairwise_cons.mp hasc
    have hh0 := h0 kv (by simp)
    have hhB := hB kv (by simp)
    cases kv with
    | mk k v0 =>
      rw [countLT_head_zero k v0 rest hasc] at hhB
      simp only [] at hh0 hhB
      cases hpv : pathsValue k paths with
      | none =>
        have h2 : genCreated paths ((k, v0) :: rest) shift =
            genCreated paths rest (shift - 1) := by simp [genCreated, hpv]
        rw [h2]
        apply ih (shift - 1) n hrest
        · intro x hx; have := hhead x hx; simp at this ⊢; omega
        · intro x hx
          have hx1 := hB x (by simp [hx])
          have hx2 := hhead x hx
          rw [countLT_cons_of_lt k v0 rest x.1 (by simpa using hx2)] at hx1
          omega
      | some it =>
        cases it with
        | group g =>
          have h2 : genCreated paths ((k, v0) :: rest) shift =
              groupPairsFrom (k + shift) g ++
                genCreated paths rest (shift + (g.length : Int) - 1) := by
            simp [genCreated, hpv]
          rw [h2]
          apply insOk_append
          · exact insOk_groupPairsFrom g (k + shift) n hh0 (by omega)
          · rw [groupPairsFrom_length]
            apply ih (shift + (g.length : Int) - 1) (n + g.length) hrest
            · intro x hx; have := hhead x hx; simp at this ⊢; omega
            · intro x hx
              have hx1 := hB x (by simp [hx])
              have hx2 := hhead x hx
              rw [countLT_cons_of_lt k v0 rest x.1 (by simpa using hx2)] at hx1
              push_cast
              omega
        | path id =>
          have h2 : genCreated paths ((k, v0) :: rest) shift =
              genCreated paths rest (shift - 1) := by simp [genCreated, hpv]
          rw [h2]
          apply ih (shift - 1) n hrest
          · intro x hx; have := hhead x hx; simp at this ⊢; omega
          · intro x hx
            have hx1 := hB x (by simp [hx])
            have hx2 := hhead x hx
            rw [countLT_cons_of_lt k v0 rest x.1 (by simpa using hx2)] at hx1
            omega
        | text id =>
          have h2 : genCreated paths ((k, v0) :: rest) shift =
              genCreated paths rest (shift - 1) := by simp [genCreated, hpv]
          rw [h2]
          apply ih (shift - 1) n hrest
          · intro x hx; have := hhead x hx; simp at this ⊢; omega
          · intro x hx
            have hx1 := hB x (by simp [hx])
            have hx2 := hhead x hx
            rw [countLT_cons_of_lt k v0 rest x.1 (by simpa using hx2)] at hx1
            omega

theorem groupPairsFrom_values : ∀ (g : List Nat) (base : Int) (kv : Int × Option GItem),
    kv ∈ groupPairsFrom base g → ∃ id, kv.2 = some (GItem.path id) := by
  intro g
  induction g with
  | nil => intro base kv h; exact absurd h (by simp [groupPairsFrom])
  | cons id rest ih =>
    intro base kv h
    simp only [groupPairsFrom, List.mem_cons] at h
    rcases h with h | h
    · subst h; exact ⟨id, rfl⟩
    · exact ih (base + 1) kv h

theorem genCreated_values (paths : List (Option GItem)) :
    ∀ (dm : List (Int × Option GItem)) (shift : Int) (kv : Int × Option GItem),
      kv ∈ genCreated paths dm shift → ∃ id, kv.2 = some (GItem.path id) := by
  intro dm
  induction dm with
  | nil => intro shift kv h; exact absurd h (by simp [genCreated])
  | cons kv0 rest ih =>
    intro shift kv h
    cases kv0 with
    | mk k v0 =>
      simp only [genCreated] at h
      cases hpv : pathsValue k paths with
      | none =>
        rw [hpv] at h
        exact ih (shift - 1) kv h
      | some it =>
        cases it with
        | group g =>
          rw [hpv] at h
          rcases List.mem_append.mp h with h2 | h2
          · exact groupPairsFrom_values g (k + shift) kv h2
          · exact ih (shift + g.length - 1) kv h2
        | path id =>
          rw [hpv] at h
          exact ih (shift - 1) kv h
        | text id =>
          rw [hpv] at h
          exact ih (shift - 1) kv h

/-! ## Small list helpers -/

theorem list_eq_of_getD {α : Type} (d : α) {p q : List α} (hlen : p.length = q.length)
    (h : ∀ j, j < q.length → p.getD j d = q.getD j d) : p = q := by
  apply List.ext_getElem hlen
  intro i h1 h2
  have h3 := h i h2
  rwa [List.getD_eq_getElem p d h1, List.getD_eq_getElem q d h2] at h3

theorem insertIdx_subset_cons {α : Type} :
    ∀ (n : Nat) (a : α) (l : List α), l.insertIdx n a ⊆ a :: l := by
  intro n
  induction n with
  | zero => intro a l; simp [List.insertIdx_zero]
  | succ n ih =>
    intro a l
    cases l with
    | nil => simp [List.insertIdx_succ_nil]
    | cons x t =>
      rw [List.insertIdx_succ_cons]
      intro y hy
      rcases List.mem_cons.mp hy with h | h
      · simp [h]
      · have := ih a t h
        rcases List.mem_cons.mp this with h2 | h2
        · simp [h2]
        · simp [h2]

theorem mem_insertAtI {α : Type} (k : Int) (v x : α) (p : List α)
    (h : x ∈ insertAtI k v p) : x = v ∨ x ∈ p := by
  rw [insertAtI] at h
  by_cases h0 : 0 ≤ k
  · rw [if_pos h0] at h
    have := insertIdx_subset_cons k.toNat v p h
    simpa using this
  · rw [if_neg h0] at h
    exact Or.inr h

theorem mem_insertPairsAsc {α : Type} :
    ∀ (m : List (Int × α)) (p : List α) (x : α), x ∈ insertPairsAsc m p →
      x ∈ p ∨ ∃ kv ∈ m, x = kv.2 := by
  intro m
  induction m with
  | nil => intro p x h; exact Or.inl h
  | cons kv rest ih =>
    intro p x h
    have := ih (insertAtI kv.1 kv.2 p) x h
    rcases this with h2 | ⟨kv2, hkv2, hx⟩
    · rcases mem_insertAtI kv.1 kv.2 x p h2 with h3 | h3
      · exact Or.inr ⟨kv, by simp, h3⟩
      · exact Or.inl h3
    · exact Or.inr ⟨kv2, by simp [hkv2], hx⟩

theorem mem_removeKeysDesc {α : Type} :
    ∀ (m : List (Int × α)) (p : List α), removeKeysDesc m p ⊆ p := by
  intro m
  induction m with
  | nil => intro p x h; exact h
  | cons kv rest ih =>
    intro p x h
    show x ∈ p
    have h1 : x ∈ removeKeysDesc rest p := by
      have : removeKeysDesc (kv :: rest) p = eraseAtI kv.1 (removeKeysDesc rest p) := rfl
      rw [this] at h
      rw [eraseAtI] at h
      by_cases h0 : 0 ≤ kv.1
      · rw [if_pos h0] at h
        exact (removeKeysDesc rest p).eraseIdx_subset _ h
      · rwa [if_neg h0] at h
    exact ih p h1

theorem getD_drop_general {α : Type} (d : Nat) (qs : List α) (i : Nat) (x : α) :
    (qs.drop d).getD i x = qs.getD (d + i) x := by
  rw [List.getD_eq_getElem?_getD, List.getD_eq_getElem?_getD, List.getElem?_drop]

theorem getD_append_self {α : Type} (qs : List α) (q x : α) :
    (qs ++ [q]).getD qs.length x = q := by
  rw [List.getD_eq_getElem?_getD, List.getElem?_append]
  simp

theorem getD_of_getLastQ {α : Type} (qs : List α) (a x : α) (h : qs.getLast? = some a) :
    qs.getD (qs.length - 1) x = a := by
  rw [List.getLast?_eq_getElem?] at h
  rw [List.getD_eq_getElem?_getD, h]
  rfl

/-- Pruning the oldest history entries preserves the forward invariant. -/
theorem invF_clearHistoryCore (n : Int) (s : PathContainer) (hinv : InvF s) :
    InvF (clearHistoryCore n s) := by
  obtain ⟨h0, hle, qs, hchain, hcur, hng⟩ := hinv
  set n' : Int := if n < 0 then 0 else n with hn
  have hn0 : 0 ≤ n' := by rw [hn]; split <;> omega
  set d : Nat := ((s.history.length : Int) - s.inHistory - n').toNat with hd
  have hdle : d ≤ s.history.length - s.inHistory.toNat := by omega
  have hres : clearHistoryCore n s = { s with history := s.history.drop d } := rfl
  rw [hres]
  refine ⟨h0, ?_, qs.drop d, chainOK_drop d s.history qs (by omega) hchain, ?_, ?_⟩
  · simp only [List.length_drop]
    omega
  · simp only [List.length_drop]
    rw [getD_drop_general]
    rw [show d + (s.history.length - d - s.inHistory.toNat) =
      s.history.length - s.inHistory.toNat from by omega]
    exact hcur
  · intro q hq
    exact hng q (List.drop_subset _ _ hq)

/-- Finalizing a micro step restores the forward invariant: the new step is
coherent between the pre-step live sequence and the finalized one. -/
theorem apply_preserves_inv (hlen : Nat) (s : PathContainer) (hm : s.inHistory = -1)
    (hinv : InvM s) : InvF (s.applyMicroStep hlen).2 := by
  obtain ⟨hist, st, qs, qpre, hh, hcre, hchain, hlast, hngall, hrelm⟩ := hinv
  have hlastH : s.history.getLast? = some st := by rw [hh]; exact List.getLast?_concat _
  have hqs_len : qs.length = hist.length + 1 := chainOK_length hist qs hchain
  have hqpre_cur : qs.getD hist.length [] = qpre := by
    have h1 := getD_of_getLastQ qs qpre [] hlast
    rw [hqs_len] at h1
    simpa using h1
  have hngpre : NGFree qpre := hngall qpre (mem_of_getLastQ qs qpre hlast)
  have hguard : ¬s.inHistory ≠ -1 := by omega
  have hdrop : s.history.dropLast = hist := by rw [hh]; exact List.dropLast_concat
  by_cases hde : st.deletedItems.isEmpty
  · have hdm : st.deletedItems = [] := List.isEmpty_iff.mp hde
    have happ : (s.applyMicroStep hlen).2 =
        { s with inHistory := 0, history := s.history.dropLast } := by
      simp only [PathContainer.applyMicroStep, if_neg hguard, hlastH, hde, if_true]
    rw [happ, hdrop]
    have hpq : s.paths = qpre := by
      apply list_eq_of_getD none hrelm.hlen
      intro j hj
      have := hrelm.hrel j hj
      rw [hdm] at this
      exact this
    refine ⟨by show (0 : Int) ≤ 0; omega,
      by show (0 : Int) ≤ ((hist.length : Nat) : Int); omega, qs, hchain, ?_, hngall⟩
    show qs.getD (hist.length - (0 : Int).toNat) [] = s.paths
    rw [hpq]
    simpa using hqpre_cur
  · have hdmne : st.deletedItems ≠ [] := by
      intro hcon
      rw [hcon] at hde
      exact hde rfl
    set dm := st.deletedItems with hdm_def
    have hkeys := hrelm.hkeys
    have hasc := hrelm.hasc
    have hlen0 := hrelm.hlen
    -- the created map
    have hbuild : buildCreatedGo s.paths dm 0 [] = genCreated s.paths dm 0 := by
      have := buildCreatedGo_eq s.paths dm 0 [] 0 hasc
        (fun kv hkv => (hkeys kv hkv).1) (by intro kv hkv; exact absurd hkv (by simp))
      simpa using this
    set created := genCreated s.paths dm 0 with hcreated_def
    -- agreement of the two removals
    have hvals : ∀ kv ∈ dm, qpre[kv.1.toNat]? = some kv.2 := by
      intro kv hkv
      obtain ⟨hk0, hkB⟩ := hkeys kv hkv
      have hj : kv.1.toNat < qpre.length := by omega
      have hlk : mapLookup kv.1 dm = some kv.2 := mapLookup_of_mem_asc dm hasc kv hkv
      have hrel := hrelm.hrel kv.1.toNat hj
      rw [show ((kv.1.toNat : Int)) = kv.1 from by omega, hlk] at hrel
      have := hrel.1
      rw [List.getD_eq_getElem qpre none hj] at this
      rw [List.getElem?_eq_getElem hj, this]
    have hagree : removeKeysDesc dm s.paths = removeKeysDesc dm qpre := by
      apply removeKeysDesc_congr dm s.paths qpre hasc
      · intro kv hkv
        obtain ⟨hk0, hkB⟩ := hkeys kv hkv
        omega
      · exact hlen0
      · intro j hjnone
        have hnone : mapLookup (j : Int) dm = none :=
          (mapLookup_eq_none_iff (j : Int) dm).mpr hjnone
        by_cases hj : j < qpre.length
        · have hrel := hrelm.hrel j hj
          rw [hnone] at hrel
          have hj2 : j < s.paths.length := by omega
          rw [List.getD_eq_getElem s.paths none hj2, List.getD_eq_getElem qpre none hj] at hrel
          rw [List.getElem?_eq_getElem hj2, List.getElem?_eq_getElem hj, hrel]
        · rw [List.getElem?_eq_none (by omega), List.getElem?_eq_none (by omega)]
    have hbaselen : (removeKeysDesc dm qpre).length = qpre.length - dm.length := by
      apply length_removeKeysDesc dm qpre hasc
      intro kv hkv
      exact hkeys kv hkv
    have hDB : dm.length ≤ qpre.length := by
      have := asc_keys_length_le dm 0 (qpre.length : Int) hasc
        (fun kv hkv => ⟨(hkeys kv hkv).1, (hkeys kv hkv).2⟩)
      omega
    have hinsok : InsOk created ((removeKeysDesc dm qpre).length) := by
      rw [hbaselen, hcreated_def]
      apply genCreated_insOk s.paths dm 0 (qpre.length - dm.length) hasc
      · intro kv hkv
        exact le_trans (hkeys kv hkv).1 (by omega)
      · intro kv hkv
        have hc := asc_count_ge dm (qpre.length : Int) hasc
          (fun x hx => (hkeys x hx).2) kv hkv
        have hc0 : (0 : Int) ≤ countLT dm kv.1 := by
          rw [countLT]
          positivity
        omega
    have hdelok : DelOk dm qpre := ⟨hasc, fun kv hkv => ⟨(hkeys kv hkv).1, hvals kv hkv⟩⟩
    -- the new step is coherent between qpre and the new live sequence
    set st2 : DrawHistoryStep := { st with createdItems := created } with hst2
    set p2 : List (Option GItem) :=
      insertPairsAsc created (removeKeysDesc dm s.paths) with hp2
    have hstep : StepOK st2 qpre p2 := by
      constructor
      · show insertPairsAsc created (removeKeysDesc dm qpre) = p2
        rw [hp2, hagree]
      · show insertPairsAsc dm (removeKeysDesc created p2) = qpre
        have h1 : removeKeysDesc created p2 = removeKeysDesc dm qpre := by
          rw [hp2, hagree]
          exact removeKeysDesc_insertPairsAsc created (removeKeysDesc dm qpre) hinsok
        rw [h1]
        exact insertPairsAsc_removeKeysDesc dm qpre hdelok
    have hngp2 : NGFree p2 := by
      intro x hx
      rcases mem_insertPairsAsc created (removeKeysDesc dm s.paths) x hx with h | ⟨kv, hkv, hxv⟩
      · rw [hagree] at h
        exact hngpre x (mem_removeKeysDesc dm qpre h)
      · obtain ⟨id, hid⟩ := genCreated_values s.paths dm 0 kv hkv
        rw [hxv, hid]
        rfl
    have happ : (s.applyMicroStep hlen).2 =
        (if (s.history.dropLast ++ [st2]).length > hlen then
          clearHistoryCore hlen
            { paths := p2, history := s.history.dropLast ++ [st2], inHistory := 0 }
         else { paths := p2, history := s.history.dropLast ++ [st2], inHistory := 0 }) := by
      simp only [PathContainer.applyMicroStep, if_neg hguard, hlastH, hde, if_false,
        Bool.false_eq_true, hbuild]
    rw [hdrop] at happ
    have hinvF2 : InvF ⟨p2, hist ++ [st2], (0 : Int)⟩ := by
      refine ⟨by show (0 : Int) ≤ 0; omega,
        by show (0 : Int) ≤ (((hist ++ [st2]).length : Nat) : Int); omega,
        qs ++ [p2],
        chainOK_append_one hist qs st2 qpre p2 hchain hlast hstep, ?_, ?_⟩
      · show (qs ++ [p2]).getD ((hist ++ [st2]).length - (0 : Int).toNat) [] = p2
        simp only [List.length_append, List.length_singleton, Int.toNat_zero, Nat.sub_zero]
        rw [show hist.length + 1 = qs.length from by omega]
        exact getD_append_self qs p2 []
      · intro q hq
        rcases List.mem_append.mp hq with h | h
        · exact hngall q h
        · simp only [List.mem_singleton] at h
          rw [h]
          exact hngp2
    rw [happ]
    split
    · exact invF_clearHistoryCore hlen _ hinvF2
    · exact hinvF2

/-! ## Preservation of the invariant by the forward operations -/

theorem pcInv_of_invF (s : PathContainer) (h : InvF s) : PCInv s := by
  rw [PCInv]
  split
  · exact absurd h.h0 (by omega)
  · exact h

theorem invF_of_pcInv (s : PathContainer) (h : PCInv s) (hfwd : 0 ≤ s.inHistory) : InvF s := by
  rw [PCInv, if_neg (by omega)] at h
  exact h

theorem invM_of_pcInv (s : PathContainer) (h : PCInv s) (hm : s.inHistory = -1) : InvM s := by
  rwa [PCInv, if_pos hm] at h

theorem pcInv_undo (s : PathContainer) (h : PCInv s) : PCInv (s.undo).2 := by
  by_cases hguard : s.inHistory < 0 ∨ (s.history.length : Int) - s.inHistory < 1
  · have : s.undo = (false, s) := by rw [PathContainer.undo, if_pos hguard]
    rw [this]
    exact h
  · have hfwd : 0 ≤ s.inHistory := by omega
    obtain ⟨h0, hle, qs, hchain, hcur, hng⟩ := invF_of_pcInv s h hfwd
    rw [undo_chain s qs hchain h0 (by omega) hcur]
    apply pcInv_of_invF
    refine ⟨by show (0 : Int) ≤ s.inHistory + 1; omega,
      by show s.inHistory + 1 ≤ (s.history.length : Int); omega, qs, hchain, ?_, hng⟩
    show qs.getD (s.history.length - (s.inHistory + 1).toNat) [] = _
    congr 1
    omega

theorem pcInv_redo (s : PathContainer) (h : PCInv s) : PCInv (s.redo).2 := by
  by_cases hguard : s.inHistory < 1
  · have : s.redo = (false, s) := by rw [PathContainer.redo, if_pos hguard]
    rw [this]
    exact h
  · have h1 : 1 ≤ s.inHistory := by omega
    obtain ⟨h0, hle, qs, hchain, hcur, hng⟩ := invF_of_pcInv s h (by omega)
    rw [redo_chain s qs hchain h1 hle hcur]
    apply pcInv_of_invF
    refine ⟨by show (0 : Int) ≤ s.inHistory - 1; omega,
      by show s.inHistory - 1 ≤ (s.history.length : Int); omega, qs, hchain, ?_, hng⟩
    show qs.getD (s.history.length - (s.inHistory - 1).toNat) [] = _
    congr 1
    omega

theorem truncate_forward_eq (hlen : Nat) (s : PathContainer) (hfwd : 0 ≤ s.inHistory) :
    s.truncateHistory hlen =
      { s with history := s.history.take (s.history.length - s.inHistory.toNat)
               inHistory := 0 } := by
  rw [PathContainer.truncateHistory, if_neg (by omega), if_neg (by omega)]

theorem invF_truncate (hlen : Nat) (s : PathContainer) (hfwd : 0 ≤ s.inHistory)
    (hinv : InvF s) : InvF (s.truncateHistory hlen) := by
  obtain ⟨h0, hle, qs, hchain, hcur, hng⟩ := hinv
  rw [truncate_forward_eq hlen s hfwd]
  set d : Nat := s.history.length - s.inHistory.toNat with hd
  refine ⟨by show (0 : Int) ≤ 0; omega,
    by show (0 : Int) ≤ ((s.history.take d).length : Int); omega,
    qs.take (d + 1), chainOK_take s.history qs d hchain, ?_, ?_⟩
  · show (qs.take (d + 1)).getD ((s.history.take d).length - (0 : Int).toNat) [] = s.paths
    have hdlen : (s.history.take d).length = d := by
      rw [List.length_take]
      omega
    rw [hdlen]
    simp only [Int.toNat_zero, Nat.sub_zero]
    rw [List.getD_eq_getElem?_getD, List.getElem?_take, if_pos (by omega)]
    rw [← List.getD_eq_getElem?_getD]
    exact hcur
  · intro q hq
    exact hng q (List.take_subset _ _ hq)

/-- After `truncateHistory` from a forward state the cursor sits at the top
of the chain. -/
theorem invF_top (s : PathContainer) (hinv : InvF s) (h0 : s.inHistory = 0) :
    ∃ qs, ChainOK s.history qs ∧ qs.getLast? = some s.paths ∧ ∀ q ∈ qs, NGFree q := by
  obtain ⟨_, _, qs, hchain, hcur, hng⟩ := hinv
  refine ⟨qs, hchain, ?_, hng⟩
  have hqlen : qs.length = s.history.length + 1 := chainOK_length _ _ hchain
  rw [h0] at hcur
  simp only [Int.toNat_zero, Nat.sub_zero] at hcur
  rw [List.getLast?_eq_getElem?, hqlen]
  simp only [Nat.add_sub_cancel]
  rw [List.getD_eq_getElem?_getD] at hcur
  cases hq : qs[s.history.length]? with
  | none =>
    rw [hq] at hcur
    have : s.history.length < qs.length := by omega
    rw [List.getElem?_eq_getElem this] at hq
    exact Option.noConfusion hq
  | some q =>
    rw [hq] at hcur
    simp at hcur
    rw [hcur]

theorem eraseAtI_subset {α : Type} (i : Int) (l : List α) : eraseAtI i l ⊆ l := by
  rw [eraseAtI]
  split
  · exact l.eraseIdx_subset _
  · exact fun x hx => hx

/-- `append` preserves the forward invariant. -/
theorem append_preserves_invF (hlen : Nat) (item : GItem) (s : PathContainer)
    (hfwd : 0 ≤ s.inHistory) (hng : ∀ g, item ≠ GItem.group g) (hinv : InvF s) :
    InvF (s.append hlen item) := by
  have hinv1 := invF_truncate hlen s hfwd hinv
  set s1 := s.truncateHistory hlen with hs1
  have h10 : s1.inHistory = 0 := by
    rw [hs1, truncate_forward_eq hlen s hfwd]
  obtain ⟨qs, hchain, hlast, hngall⟩ := invF_top s1 hinv1 h10
  set step : DrawHistoryStep :=
    { createdItems := [((s1.paths.length : Int), some item)], deletedItems := [] } with hstep_def
  have hins : insertAtI (s1.paths.length : Int) (some item) s1.paths =
      s1.paths ++ [some item] := by
    rw [insertAtI, if_pos (by positivity)]
    rw [show ((s1.paths.length : Int)).toNat = s1.paths.length from by omega]
    exact List.insertIdx_length_self _ _
  have hstep : StepOK step s1.paths (s1.paths ++ [some item]) := by
    constructor
    · show insertPairsAsc step.createdItems (removeKeysDesc [] s1.paths) = _
      show insertAtI (s1.paths.length : Int) (some item) s1.paths = _
      exact hins
    · show insertPairsAsc [] (removeKeysDesc step.createdItems (s1.paths ++ [some item])) = _
      show eraseAtI (s1.paths.length : Int) (s1.paths ++ [some item]) = s1.paths
      rw [← hins]
      exact eraseAtI_insertAtI _ _ _ (by positivity)
  have hinv2 : InvF ⟨s1.paths ++ [some item], s1.history ++ [step], s1.inHistory⟩ := by
    refine ⟨by show (0 : Int) ≤ s1.inHistory; omega,
      by show s1.inHistory ≤ ((s1.history ++ [step]).length : Int); simp; omega,
      qs ++ [s1.paths ++ [some item]],
      chainOK_append_one s1.history qs step s1.paths (s1.paths ++ [some item])
        hchain hlast hstep, ?_, ?_⟩
    · show (qs ++ [s1.paths ++ [some item]]).getD
        ((s1.history ++ [step]).length - s1.inHistory.toNat) [] = s1.paths ++ [some item]
      rw [h10]
      simp only [List.length_append, List.length_singleton, Int.toNat_zero, Nat.sub_zero]
      rw [show s1.history.length + 1 = qs.length from by
        have := chainOK_length _ _ hchain; omega]
      exact getD_append_self qs _ []
    · intro q hq
      rcases List.mem_append.mp hq with h | h
      · exact hngall q h
      · simp only [List.mem_singleton] at h
        rw [h]
        intro e he
        rcases List.mem_append.mp he with h2 | h2
        · exact hngall s1.paths (mem_of_getLastQ qs s1.paths hlast) e h2
        · simp only [List.mem_singleton] at h2
          rw [h2]
          cases item with
          | path id => rfl
          | text id => rfl
          | group g => exact absurd rfl (hng g)
  show InvF (if (⟨s1.paths ++ [some item], s1.history ++ [step],
      s1.inHistory⟩ : PathContainer).history.length > hlen then
    clearHistoryCore hlen ⟨s1.paths ++ [some item], s1.history ++ [step], s1.inHistory⟩
    else ⟨s1.paths ++ [some item], s1.history ++ [step], s1.inHistory⟩)
  split
  · exact invF_clearHistoryCore hlen _ hinv2
  · exact hinv2

theorem qIndexOf_spec {α : Type} [DecidableEq α] :
    ∀ (l : List α) (x : α), qIndexOf x l < 0 ∨
      (0 ≤ qIndexOf x l ∧ l[(qIndexOf x l).toNat]? = some x) := by
  intro l
  induction l with
  | nil => intro x; left; rw [qIndexOf]; omega
  | cons y ys ih =>
    intro x
    by_cases hxy : y = x
    · right
      constructor
      · rw [qIndexOf, if_pos hxy]
      · rw [qIndexOf, if_pos hxy]
        simpa using hxy
    · rcases ih x with h | ⟨h0, hget⟩
      · left
        rw [qIndexOf, if_neg hxy]
        simp only []
        rw [if_pos h]
        omega
      · right
        have hr : qIndexOf x (y :: ys) = qIndexOf x ys + 1 := by
          rw [qIndexOf, if_neg hxy]
          simp only []
          rw [if_neg (by omega)]
        rw [hr]
        refine ⟨by omega, ?_⟩
        rw [show (qIndexOf x ys + 1).toNat = (qIndexOf x ys).toNat + 1 from by omega]
        rw [List.getElem?_cons_succ]
        exact hget

theorem enumMap_bounds : ∀ (p : List (Option GItem)) (n : Nat)
    (kv : Int × Option GItem),
    kv ∈ (List.enumFrom n p).map (fun x => ((x.1 : Int), x.2)) →
    (n : Int) ≤ kv.1 ∧ kv.1 < (n : Int) + p.length := by
  intro p
  induction p with
  | nil => intro n kv h; exact absurd h (by simp)
  | cons e rest ih =>
    intro n kv h
    rw [List.enumFrom_cons] at h
    simp only [List.map_cons, List.mem_cons] at h
    rcases h with h | h
    · subst h
      simp
    · have := ih (n + 1) kv h
      simp only [List.length_cons]
      push_cast at this ⊢
      omega

theorem enumMap_keysAsc : ∀ (p : List (Option GItem)) (n : Nat),
    KeysAsc ((List.enumFrom n p).map (fun x => ((x.1 : Int), x.2))) := by
  intro p
  induction p with
  | nil => intro n; simp [KeysAsc]
  | cons e rest ih =>
    intro n
    rw [List.enumFrom_cons]
    simp only [List.map_cons]
    refine List.pairwise_cons.mpr ⟨?_, ih (n + 1)⟩
    intro kv hkv
    have := enumMap_bounds rest (n + 1) kv hkv
    simp only []
    push_cast at this ⊢
    omega

theorem insertPairsAsc_enumMap : ∀ (p acc : List (Option GItem)),
    insertPairsAsc ((List.enumFrom acc.length p).map (fun x => ((x.1 : Int), x.2))) acc =
      acc ++ p := by
  intro p
  induction p with
  | nil => intro acc; simp [insertPairsAsc]
  | cons e rest ih =>
    intro acc
    rw [List.enumFrom_cons]
    simp only [List.map_cons]
    show insertPairsAsc _ (insertAtI (acc.length : Int) e acc) = acc ++ e :: rest
    have hins : insertAtI (acc.length : Int) e acc = acc ++ [e] := by
      rw [insertAtI, if_pos (by positivity),
        show ((acc.length : Int)).toNat = acc.length from by omega]
      exact List.insertIdx_length_self _ _
    rw [hins]
    have := ih (acc ++ [e])
    rw [show (acc ++ [e]).length = acc.length + 1 from by simp] at this
    rw [this]
    simp

theorem removeItem_preserves_invF (hlen : Nat) (item : GItem) (s : PathContainer)
    (hfwd : 0 ≤ s.inHistory) (hinv : InvF s) : InvF (s.removeItem hlen item) := by
  by_cases hni : qIndexOf (some item) s.paths < 0
  · show InvF (if qIndexOf (some item) s.paths < 0 then s else _)
    rw [if_pos hni]
    exact hinv
  · rcases qIndexOf_spec s.paths (some item) with h | ⟨h0, hget⟩
    · exact absurd h hni
    set idx := qIndexOf (some item) s.paths with hidx
    have hinv1 := invF_truncate hlen s hfwd hinv
    set s1 := s.truncateHistory hlen with hs1
    have h10 : s1.inHistory = 0 := by rw [hs1, truncate_forward_eq hlen s hfwd]
    have h1p : s1.paths = s.paths := by rw [hs1, truncate_forward_eq hlen s hfwd]
    obtain ⟨qs, hchain, hlast, hngall⟩ := invF_top s1 hinv1 h10
    set step : DrawHistoryStep :=
      { createdItems := [], deletedItems := [(idx, some item)] } with hstep_def
    have hstep : StepOK step s1.paths (eraseAtI idx s1.paths) := by
      constructor
      · show insertPairsAsc [] (removeKeysDesc [(idx, some item)] s1.paths) = _
        rfl
      · show insertPairsAsc [(idx, some item)] (removeKeysDesc [] (eraseAtI idx s1.paths)) =
          s1.paths
        show insertAtI idx (some item) (eraseAtI idx s1.paths) = s1.paths
        apply insertAtI_eraseAtI_getElem h0
        rw [h1p]
        exact hget
    have hinv2 : InvF ⟨eraseAtI idx s1.paths, s1.history ++ [step], s1.inHistory⟩ := by
      refine ⟨by show (0 : Int) ≤ s1.inHistory; omega,
        by show s1.inHistory ≤ ((s1.history ++ [step]).length : Int); simp; omega,
        qs ++ [eraseAtI idx s1.paths],
        chainOK_append_one s1.history qs step s1.paths (eraseAtI idx s1.paths)
          hchain hlast hstep, ?_, ?_⟩
      · show (qs ++ [eraseAtI idx s1.paths]).getD
          ((s1.history ++ [step]).length - s1.inHistory.toNat) [] = eraseAtI idx s1.paths
        rw [h10]
        simp only [List.length_append, List.length_singleton, Int.toNat_zero, Nat.sub_zero]
        rw [show s1.history.length + 1 = qs.length from by
          have := chainOK_length _ _ hchain; omega]
        exact getD_append_self qs _ []
      · intro q hq
        rcases List.mem_append.mp hq with h | h
        · exact hngall q h
        · simp only [List.mem_singleton] at h
          rw [h]
          intro e he
          exact hngall s1.paths (mem_of_getLastQ qs s1.paths hlast) e
            (eraseAtI_subset idx s1.paths he)
    show InvF (if qIndexOf (some item) s.paths < 0 then s else
      (if ((s.truncateHistory hlen).history ++ [step]).length > hlen then
        clearHistoryCore hlen ⟨eraseAtI idx (s.truncateHistory hlen).paths,
          (s.truncateHistory hlen).history ++ [step], (s.truncateHistory hlen).inHistory⟩
       else ⟨eraseAtI idx (s.truncateHistory hlen).paths,
          (s.truncateHistory hlen).history ++ [step], (s.truncateHistory hlen).inHistory⟩))
    rw [if_neg hni]
    split
    · exact invF_clearHistoryCore hlen _ hinv2
    · exact hinv2

theorem clearPaths_preserves_invF (hlen : Nat) (s : PathContainer)
    (hfwd : 0 ≤ s.inHistory) (hinv : InvF s) : InvF (s.clearPaths hlen) := by
  have hinv1 := invF_truncate hlen s hfwd hinv
  set s1 := s.truncateHistory hlen with hs1
  have h10 : s1.inHistory = 0 := by rw [hs1, truncate_forward_eq hlen s hfwd]
  obtain ⟨qs, hchain, hlast, hngall⟩ := invF_top s1 hinv1 h10
  set step : DrawHistoryStep :=
    { createdItems := []
      deletedItems := s1.paths.enum.map (fun x => ((x.1 : Int), x.2)) } with hstep_def
  have henum : s1.paths.enum = List.enumFrom 0 s1.paths := rfl
  have hasc : KeysAsc step.deletedItems := by
    show KeysAsc (s1.paths.enum.map _)
    rw [henum]
    exact enumMap_keysAsc s1.paths 0
  have hbounds : ∀ kv ∈ step.deletedItems, 0 ≤ kv.1 ∧ kv.1 < (s1.paths.length : Int) := by
    intro kv hkv
    have := enumMap_bounds s1.paths 0 kv (by rw [← henum]; exact hkv)
    simpa using this
  have hdellen : step.deletedItems.length = s1.paths.length := by
    show (s1.paths.enum.map _).length = _
    simp
  have hstep : StepOK step s1.paths [] := by
    constructor
    · show insertPairsAsc [] (removeKeysDesc step.deletedItems s1.paths) = []
      have hlen2 : (removeKeysDesc step.deletedItems s1.paths).length =
          s1.paths.length - step.deletedItems.length :=
        length_removeKeysDesc step.deletedItems s1.paths hasc hbounds
      rw [hdellen] at hlen2
      simp only [Nat.sub_self] at hlen2
      show removeKeysDesc step.deletedItems s1.paths = []
      exact List.length_eq_zero.mp hlen2
    · show insertPairsAsc step.deletedItems (removeKeysDesc [] []) = s1.paths
      show insertPairsAsc (s1.paths.enum.map _) [] = s1.paths
      rw [henum]
      have := insertPairsAsc_enumMap s1.paths []
      simpa using this
  have hinv2 : InvF ⟨[], s1.history ++ [step], s1.inHistory⟩ := by
    refine ⟨by show (0 : Int) ≤ s1.inHistory; omega,
      by show s1.inHistory ≤ ((s1.history ++ [step]).length : Int); simp; omega,
      qs ++ [[]],
      chainOK_append_one s1.history qs step s1.paths [] hchain hlast hstep, ?_, ?_⟩
    · show (qs ++ [[]]).getD ((s1.history ++ [step]).length - s1.inHistory.toNat) [] = []
      rw [h10]
      simp only [List.length_append, List.length_singleton, Int.toNat_zero, Nat.sub_zero]
      rw [show s1.history.length + 1 = qs.length from by
        have := chainOK_length _ _ hchain; omega]
      exact getD_append_self qs _ []
    · intro q hq
      rcases List.mem_append.mp hq with h | h
      · exact hngall q h
      · simp only [List.mem_singleton] at h
        rw [h]
        intro e he
        exact absurd he (by simp)
  show InvF (if (s1.history ++ [step]).length > hlen then
      clearHistoryCore hlen ⟨[], s1.history ++ [step], s1.inHistory⟩
    else ⟨[], s1.history ++ [step], s1.inHistory⟩)
  split
  · exact invF_clearHistoryCore hlen _ hinv2
  · exact hinv2

theorem startMicroStep_preserves (hlen : Nat) (s : PathContainer)
    (hfwd : 0 ≤ s.inHistory) (hinv : InvF s) : InvM (s.startMicroStep hlen) := by
  have hinv1 := invF_truncate hlen s hfwd hinv
  set s1 := s.truncateHistory hlen with hs1
  have h10 : s1.inHistory = 0 := by rw [hs1, truncate_forward_eq hlen s hfwd]
  obtain ⟨qs, hchain, hlast, hngall⟩ := invF_top s1 hinv1 h10
  refine ⟨s1.history, default, qs, s1.paths, rfl, rfl, hchain, hlast, hngall, ?_⟩
  refine ⟨rfl, ?_, ?_, ?_⟩
  · show KeysAsc ([] : List (Int × Option GItem))
    exact List.Pairwise.nil
  · intro kv hkv
    exact absurd (show kv ∈ ([] : List (Int × Option GItem)) from hkv) (by simp)
  · intro j hj
    show SlotRel (mapLookup (j : Int) []) _ _
    rw [show mapLookup (j : Int) ([] : List (Int × Option GItem)) = none from rfl]
    rfl

theorem pcInv_eraser (c : EraserCall) (s : PathContainer) (h : PCInv s) :
    PCInv (s.eraserMicroStep c) := by
  by_cases hm : s.inHistory = -1
  · have hres := eraser_preserves_invM c s hm (invM_of_pcInv s h hm)
    have hfield : (s.eraserMicroStep c).inHistory = s.inHistory := by
      rw [PathContainer.eraserMicroStep]
      split
      · rfl
      · rfl
    rw [PCInv, if_pos (by rw [hfield]; exact hm)]
    exact hres
  · have : s.eraserMicroStep c = s := by
      rw [PathContainer.eraserMicroStep, if_pos hm]
    rw [this]
    exact h

theorem pcInv_applyMicro (hlen : Nat) (s : PathContainer) (hm : s.inHistory = -1)
    (h : PCInv s) : PCInv (s.applyMicroStep hlen).2 :=
  pcInv_of_invF _ (apply_preserves_inv hlen s hm (invM_of_pcInv s h hm))

/-- Every reachable state satisfies the invariant. -/
theorem reach_pcInv (hlen : Nat) (s : PathContainer) (h : Reach hlen s) : PCInv s := by
  induction h with
  | init =>
    apply pcInv_of_invF
    refine ⟨by show (0 : Int) ≤ 0; omega, by show (0 : Int) ≤ 0; omega,
      [[]], ⟨[], rfl⟩, rfl, ?_⟩
    intro q hq
    simp only [List.mem_singleton] at hq
    rw [hq]
    intro e he
    exact absurd he (by simp)
  | append s item _ hfwd hng ih =>
    exact pcInv_of_invF _ (append_preserves_invF hlen item s hfwd hng (invF_of_pcInv s ih hfwd))
  | removeItem s item _ hfwd ih =>
    exact pcInv_of_invF _ (removeItem_preserves_invF hlen item s hfwd (invF_of_pcInv s ih hfwd))
  | clearPaths s _ hfwd ih =>
    exact pcInv_of_invF _ (clearPaths_preserves_invF hlen s hfwd (invF_of_pcInv s ih hfwd))
  | startMicroStep s _ hfwd ih =>
    have hres := startMicroStep_preserves hlen s hfwd (invF_of_pcInv s ih hfwd)
    rw [PCInv, if_pos (show (PathContainer.startMicroStep hlen s).inHistory = -1 from rfl)]
    exact hres
  | eraser s c _ ih => exact pcInv_eraser c s ih
  | applyMicro s _ hmicro ih => exact pcInv_applyMicro hlen s hmicro ih
  | undoR s _ ih => exact pcInv_undo s ih
  | redoR s _ ih => exact pcInv_redo s ih

theorem undoN_redoN_of_invF (k : Nat) (s : PathContainer) (hinv : InvF s)
    (hk : s.inHistory + (k : Int) ≤ (s.history.length : Int)) :
    redoN k (undoN k s) = s := by
  obtain ⟨h0, hle, qs, hchain, hcur, _⟩ := hinv
  rw [undoN_spec k s qs hchain h0 hk hcur]
  rw [redoN_spec k ⟨qs.getD (s.history.length - s.inHistory.toNat - k) [], s.history,
      s.inHistory + (k : Int)⟩ qs hchain
    (by show (k : Int) ≤ s.inHistory + (k : Int); omega)
    (by show s.inHistory + (k : Int) ≤ (s.history.length : Int); exact hk)
    (by show qs.getD (s.history.length - (s.inHistory + (k : Int)).toNat) [] =
          qs.getD (s.history.length - s.inHistory.toNat - k) []
        congr 1
        omega)]
  show (⟨qs.getD (s.history.length - (s.inHistory + (k : Int)).toNat + k) [],
    s.history, s.inHistory + k - k⟩ : PathContainer) = s
  show (⟨qs.getD (s.history.length - (s.inHistory + (k : Int)).toNat + k) [],
    s.history, s.inHistory + k - k⟩ : PathContainer) = ⟨s.paths, s.history, s.inHistory⟩
  rw [PathContainer.mk.injEq]
  refine ⟨?_, rfl, by omega⟩
  rw [show s.history.length - (s.inHistory + (k : Int)).toNat + k =
    s.history.length - s.inHistory.toNat from by omega]
  exact hcur

/-! ## Supporting lemmas for the claim theorems -/

theorem getLast?_drop_lt {α : Type} (l : List α) (d : Nat) (hd : d < l.length) :
    (l.drop d).getLast? = l.getLast? := by
  rw [List.getLast?_eq_getElem?, List.getLast?_eq_getElem?, List.getElem?_drop]
  congr 1
  simp only [List.length_drop]
  omega

/-- `clearHistoryCore` with a positive bound keeps the newest entry, the
cursor, and the live sequence. -/
theorem clearHistoryCore_facts (hlen : Nat) (s : PathContainer) (hl1 : 1 ≤ hlen)
    (h0 : s.inHistory = 0) (hne : 1 ≤ s.history.length) :
    (clearHistoryCore hlen s).history.getLast? = s.history.getLast? ∧
    (clearHistoryCore hlen s).inHistory = 0 ∧
    (clearHistoryCore hlen s).paths = s.paths ∧
    1 ≤ (clearHistoryCore hlen s).history.length := by
  have hres : clearHistoryCore (hlen : Int) s =
      { s with history :=
        s.history.drop (((s.history.length : Int) - s.inHistory - hlen).toNat) } := by
    rw [clearHistoryCore]
    simp only [if_neg (show ¬(hlen : Int) < 0 by omega)]
  set d : Nat := (((s.history.length : Int)) - s.inHistory - hlen).toNat with hd
  have hdlt : d < s.history.length := by omega
  rw [hres]
  refine ⟨getLast?_drop_lt s.history d hdlt, h0, rfl, ?_⟩
  show 1 ≤ (s.history.drop d).length
  simp only [List.length_drop]
  omega

theorem micro_rel_empty (qpre cur : List (Option GItem))
    (hrel : MicroRel [] qpre cur) : cur = qpre := by
  apply list_eq_of_getD none hrel.hlen
  intro j hj
  have := hrel.hrel j hj
  exact this

theorem eraser_micro_step_rel (c : EraserCall) (t : PathContainer)
    (hist0 : List DrawHistoryStep) (cre dm : List (Int × Option GItem))
    (qpre : List (Option GItem)) (hm : t.inHistory = -1)
    (hh : t.history = hist0 ++ [⟨cre, dm⟩]) (hng : NGFree qpre)
    (hrel : MicroRel dm qpre t.paths) :
    (t.eraserMicroStep c).inHistory = -1 ∧
    (t.eraserMicroStep c).history = hist0 ++ [⟨cre, (goErase c 0 t.paths dm).2⟩] ∧
    MicroRel (goErase c 0 t.paths dm).2 qpre (t.eraserMicroStep c).paths ∧
    (∀ (k : Int) (v : Option GItem), mapLookup k dm = some v →
      mapLookup k (goErase c 0 t.paths dm).2 = some v) := by
  have hguard : ¬(t.inHistory ≠ -1) := by omega
  have hdm : (t.history.getLast?.getD default).deletedItems = dm := by
    rw [hh, List.getLast?_concat]
    rfl
  have hrel0 : ∀ j : Nat, j < qpre.length →
      SlotRel (mapLookup ((0 : Int) + (j : Int)) dm)
        (qpre.getD j none) (t.paths.getD j none) := by
    intro j hj
    have := hrel.hrel j hj
    simpa using this
  have hmaster := goErase_master c t.paths qpre 0 dm hrel.hlen hrel.hasc hng hrel0
  have hfield : (t.eraserMicroStep c).inHistory = t.inHistory := by
    rw [PathContainer.eraserMicroStep, if_neg hguard]
  have hpaths : (t.eraserMicroStep c).paths = (goErase c 0 t.paths dm).1 := by
    rw [PathContainer.eraserMicroStep, if_neg hguard]
    simp only [hdm]
  refine ⟨by rw [hfield]; exact hm, ?_, ?_, hmaster.2.2.2.1⟩
  · rw [PathContainer.eraserMicroStep, if_neg hguard]
    simp only [hdm, hh]
    rw [modifyLastStep_concat]
    simp [List.getLast?_concat]
  · refine ⟨?_, hmaster.2.1, ?_, ?_⟩
    · rw [hpaths, hmaster.1]
      exact hrel.hlen
    · intro kv hkv
      have hlk : mapLookup kv.1 (goErase c 0 t.paths dm).2 = some kv.2 :=
        mapLookup_of_mem_asc _ hmaster.2.1 kv hkv
      by_contra hcon
      push_neg at hcon
      have hout : kv.1 < 0 ∨ (0 : Int) + (qpre.length : Int) ≤ kv.1 := by
        by_cases h1 : 0 ≤ kv.1
        · right
          have := hcon h1
          omega
        · left; omega
      rw [hmaster.2.2.1 kv.1 hout] at hlk
      have hnone : mapLookup kv.1 dm = none := by
        rw [mapLookup_eq_none_iff]
        intro v hv
        have := hrel.hkeys (kv.1, v) hv
        simp at this
        omega
      rw [hnone] at hlk
      exact Option.noConfusion hlk
    · intro j hj
      have := hmaster.2.2.2.2 j hj
      rw [hpaths]
      simpa using this

/-- A whole sequence of eraser calls inside one micro step. -/
def eraserSeq : List EraserCall → PathContainer → PathContainer
  | [], s => s
  | c :: cs, s => eraserSeq cs (s.eraserMicroStep c)

theorem eraserSeq_master : ∀ (cs : List EraserCall) (t : PathContainer)
    (hist0 : List DrawHistoryStep) (cre dm : List (Int × Option GItem))
    (qpre : List (Option GItem)), t.inHistory = -1 →
    t.history = hist0 ++ [⟨cre, dm⟩] → NGFree qpre →
    MicroRel dm qpre t.paths →
    ∃ dm2, (eraserSeq cs t).inHistory = -1 ∧
      (eraserSeq cs t).history = hist0 ++ [⟨cre, dm2⟩] ∧
      MicroRel dm2 qpre (eraserSeq cs t).paths ∧
      (∀ (k : Int) (v : Option GItem), mapLookup k dm = some v →
        mapLookup k dm2 = some v) := by
  intro cs
  induction cs with
  | nil =>
    intro t hist0 cre dm qpre hm hh hng hrel
    exact ⟨dm, hm, hh, hrel, fun k v hv => hv⟩
  | cons c rest ih =>
    intro t hist0 cre dm qpre hm hh hng hrel
    have hstep := eraser_micro_step_rel c t hist0 cre dm qpre hm hh hng hrel
    obtain ⟨dm2, h1, h2, h3, h4⟩ := ih (t.eraserMicroStep c) hist0 cre
      (goErase c 0 t.paths dm).2 qpre hstep.1 hstep.2.1 hng hstep.2.2.1
    exact ⟨dm2, h1, h2, h3, fun k v hv => h4 k v (hstep.2.2.2 k v hv)⟩

theorem apply_inHistory_zero (hlen : Nat) (s : PathContainer) :
    (s.applyMicroStep hlen).2.inHistory = 0 := by
  rw [PathContainer.applyMicroStep]
  split
  · rfl
  · split
    · rfl
    · split
      · rfl
      · dsimp only
        split
        · show (clearHistoryCore hlen _).inHistory = 0
          rfl
        · rfl

theorem truncate_inHistory_zero (hlen : Nat) (s : PathContainer) :
    (s.truncateHistory hlen).inHistory = 0 := by
  rw [PathContainer.truncateHistory]
  split
  · exact apply_inHistory_zero hlen s
  · split
    · rfl
    · rfl

theorem undo_getLast (t : PathContainer) (st : DrawHistoryStep) (h0 : t.inHistory = 0)
    (hlast : t.history.getLast? = some st) (hne : 1 ≤ t.history.length) :
    (t.undo).2.paths = insertPairsAsc st.deletedItems (removeKeysDesc st.createdItems t.paths) := by
  have hguard : ¬(t.inHistory < 0 ∨ (t.history.length : Int) - t.inHistory < 1) := by omega
  have hstep : t.history.getD ((t.history.length : Int) - (t.inHistory + 1)).toNat default = st := by
    rw [h0]
    rw [show (((t.history.length : Int)) - (0 + 1)).toNat = t.history.length - 1 from by omega]
    exact getD_of_getLastQ t.history st default hlast
  rw [PathContainer.undo, if_neg hguard]
  show insertPairsAsc (t.history.getD ((t.history.length : Int) -
    (t.inHistory + 1)).toNat default).deletedItems
    (removeKeysDesc (t.history.getD ((t.history.length : Int) -
      (t.inHistory + 1)).toNat default).createdItems t.paths) = _
  rw [hstep]

theorem invF_paths_ngfree (s : PathContainer) (h : InvF s) : NGFree s.paths := by
  obtain ⟨_, _, qs, _, hcur, hng⟩ := h
  rw [← hcur, List.getD_eq_getElem?_getD]
  cases hq : qs[s.history.length - s.inHistory.toNat]? with
  | none =>
    intro e he
    simp at he
  | some q =>
    have hmem : q ∈ qs := by
      obtain ⟨hlt, heq⟩ := List.getElem?_eq_some.mp hq
      exact heq ▸ List.getElem_mem hlt
    exact hng q hmem

/-! ## Claim theorems for `PathContainer` -/

/-- Claim C2: for every reachable container in a forward state and every
`k` with at least `k` undoable steps behind the cursor, `k` calls of `undo`
followed by `k` calls of `redo` restore the live sequence (indeed the whole
container state) exactly. -/
theorem undo_redo_roundtrip (hlen : Nat) (s : PathContainer) (k : Nat)
    (hreach : Reach hlen s) (hfwd : 0 ≤ s.inHistory)
    (hk : s.inHistory + (k : Int) ≤ (s.history.length : Int)) :
    redoN k (undoN k s) = s :=
  undoN_redoN_of_invF k s (invF_of_pcInv s (reach_pcInv hlen s hreach) hfwd) hk

/-- The container after appending one freshly drawn stroke to a fresh
container; used as the concrete instance of several claims. -/
def wOne : PathContainer := PathContainer.append 100 (GItem.path 0) ⟨[], [], 0⟩

theorem undo_redo_roundtrip_witness :
    (Reach 100 wOne ∧ 0 ≤ wOne.inHistory ∧
      wOne.inHistory + ((1 : Nat) : Int) ≤ (wOne.history.length : Int)) ∧
    redoN 1 (undoN 1 wOne) = wOne := by
  have hr : Reach 100 wOne :=
    Reach.append ⟨[], [], 0⟩ (GItem.path 0) Reach.init (by decide)
      (fun g hg => GItem.noConfusion hg)
  exact ⟨⟨hr, by decide, by decide⟩,
    undo_redo_roundtrip 100 wOne 1 hr (by decide) (by decide)⟩

/-- Claim C5: from any non-detached state that is not inside an open micro
step (cursor `≥ 0`), with a positive history-length preference, calling
`clearPaths` and then one `undo` restores the live sequence to exactly its
pre-clear content and order. -/
theorem clearPaths_undo_restores (hlen : Nat) (s : PathContainer)
    (hfwd : 0 ≤ s.inHistory) (h1 : 1 ≤ hlen) :
    ((s.clearPaths hlen).undo).2.paths = s.paths := by
  set s1 := s.truncateHistory hlen with hs1
  have h10 : s1.inHistory = 0 := by rw [hs1]; exact truncate_inHistory_zero hlen s
  have h1p : s1.paths = s.paths := by
    rw [hs1, truncate_forward_eq hlen s hfwd]
  set st : DrawHistoryStep :=
    ⟨[], s1.paths.enum.map (fun x => ((x.1 : Int), x.2))⟩ with hst
  set s2 : PathContainer := ⟨[], s1.history ++ [st], s1.inHistory⟩ with hs2
  have hcp : s.clearPaths hlen =
      if (s1.history ++ [st]).length > hlen then clearHistoryCore hlen s2 else s2 := rfl
  have h2i : s2.inHistory = 0 := h10
  have h2n : 1 ≤ s2.history.length := by
    show 1 ≤ (s1.history ++ [st]).length
    simp
  have hfacts : (s.clearPaths hlen).paths = [] ∧ (s.clearPaths hlen).inHistory = 0 ∧
      (s.clearPaths hlen).history.getLast? = some st ∧
      1 ≤ (s.clearPaths hlen).history.length := by
    rw [hcp]
    split
    · have hf := clearHistoryCore_facts hlen s2 h1 h2i h2n
      refine ⟨by rw [hf.2.2.1], hf.2.1, ?_, hf.2.2.2⟩
      rw [hf.1]
      show (s1.history ++ [st]).getLast? = some st
      exact List.getLast?_concat _
    · refine ⟨rfl, h10, ?_, h2n⟩
      show (s1.history ++ [st]).getLast? = some st
      exact List.getLast?_concat _
  obtain ⟨hp, h0c, hlastc, hnec⟩ := hfacts
  rw [undo_getLast (s.clearPaths hlen) st h0c hlastc hnec, hp]
  exact (insertPairsAsc_enumMap s1.paths []).trans h1p

theorem clearPaths_undo_restores_witness :
    (0 ≤ ((⟨[some (GItem.path 7)], [], 0⟩ : PathContainer)).inHistory ∧ 1 ≤ 100) ∧
    ((PathContainer.clearPaths 100 ⟨[some (GItem.path 7)], [], 0⟩).undo).2.paths =
      ((⟨[some (GItem.path 7)], [], 0⟩ : PathContainer)).paths :=
  ⟨⟨by decide, by decide⟩,
    clearPaths_undo_restores 100 ⟨[some (GItem.path 7)], [], 0⟩ (by decide) (by decide)⟩

/-- Claim C6: on a reachable forward state, open a micro step, run any
sequence of eraser calls that leaves the step's deleted map empty; then
`applyMicroStep` returns `false`, keeps the live sequence exactly as before
the micro step, pops the opened step from the history log and resets the
cursor to the forward state `0`. -/
theorem noop_eraser_apply (hlen : Nat) (s : PathContainer) (cs : List EraserCall)
    (hreach : Reach hlen s) (hfwd : 0 ≤ s.inHistory)
    (hempty : ((eraserSeq cs (s.startMicroStep hlen)).history.getLast?.getD
        default).deletedItems = []) :
    (eraserSeq cs (s.startMicroStep hlen)).applyMicroStep hlen =
      (false, ⟨s.paths, (s.truncateHistory hlen).history, 0⟩) := by
  have hinv : InvF s := invF_of_pcInv s (reach_pcInv hlen s hreach) hfwd
  have hng : NGFree s.paths := invF_paths_ngfree s hinv
  set s1 := s.truncateHistory hlen with hs1
  have h1p : s1.paths = s.paths := by
    rw [hs1, truncate_forward_eq hlen s hfwd]
  set sm := s.startMicroStep hlen with hsm
  have hmm : sm.inHistory = -1 := rfl
  have hmh : sm.history = s1.history ++ [(⟨[], []⟩ : DrawHistoryStep)] := rfl
  have hrel : MicroRel [] s1.paths sm.paths := by
    refine ⟨rfl, List.Pairwise.nil, ?_, ?_⟩
    · intro kv hkv
      exact absurd hkv (by simp)
    · intro j hj
      show SlotRel (mapLookup (j : Int) []) _ _
      rw [show mapLookup (j : Int) ([] : List (Int × Option GItem)) = none from rfl]
      rfl
  obtain ⟨dm2, hm2, hh2, hrel2, _⟩ :=
    eraserSeq_master cs sm s1.history [] [] s1.paths hmm hmh
      (by rw [h1p]; exact hng) hrel
  set f := eraserSeq cs sm with hf
  have hdm2 : dm2 = [] := by
    rw [hh2, List.getLast?_concat] at hempty
    exact hempty
  subst hdm2
  have hpaths : f.paths = s1.paths := micro_rel_empty s1.paths f.paths hrel2
  have hlast : f.history.getLast? = some (⟨[], []⟩ : DrawHistoryStep) := by
    rw [hh2]
    exact List.getLast?_concat _
  rw [PathContainer.applyMicroStep, if_neg (fun hc => hc hm2), hlast]
  show (false, (⟨f.paths, f.history.dropLast, 0⟩ : PathContainer)) = _
  rw [hpaths, h1p, hh2, List.dropLast_concat]

/-- An eraser call that never intersects any item. -/
def wErase : EraserCall := ⟨fun _ => false, fun _ => SplitRes.unchanged⟩

theorem noop_eraser_apply_witness :
    (Reach 100 wOne ∧ 0 ≤ wOne.inHistory ∧
      ((eraserSeq [wErase] (wOne.startMicroStep 100)).history.getLast?.getD
        default).deletedItems = []) ∧
    (eraserSeq [wErase] (wOne.startMicroStep 100)).applyMicroStep 100 =
      (false, ⟨wOne.paths, (wOne.truncateHistory 100).history, 0⟩) := by
  have hr : Reach 100 wOne :=
    Reach.append ⟨[], [], 0⟩ (GItem.path 0) Reach.init (by decide)
      (fun g hg => GItem.noConfusion hg)
  exact ⟨⟨hr, by decide, by decide⟩,
    noop_eraser_apply 100 wOne [wErase] hr (by decide) (by decide)⟩

/-- Claim C7, counterexample to the literal statement: from the reachable
state obtained by appending one stroke and undoing it (cursor `1`, i.e. not
`MicroStepOpen`), the misuse branch of `applyMicroStep` does change the
state: it resets the cursor from `1` to `0`. -/
theorem apply_misuse_changes_cursor :
    ((PathContainer.append 100 (GItem.path 0) ⟨[], [], 0⟩).undo).2.inHistory ≠ -1 ∧
    (((PathContainer.append 100 (GItem.path 0) ⟨[], [], 0⟩).undo).2.applyMicroStep
        100).2.inHistory ≠
      ((PathContainer.append 100 (GItem.path 0) ⟨[], [], 0⟩).undo).2.inHistory := by
  decide

/-- Claim C7, amended: outside `MicroStepOpen` (`inHistory ≠ -1`),
`eraserMicroStep` aborts leaving the state fully unchanged, while
`applyMicroStep` aborts leaving the live sequence and the history log
unchanged but resets the cursor to `0` (so a `PartiallyUndone` cursor is
not preserved) and returns `true`. -/
theorem microstep_misuse_amended (hlen : Nat) (c : EraserCall) (s : PathContainer)
    (hm : s.inHistory ≠ -1) :
    s.eraserMicroStep c = s ∧
    s.applyMicroStep hlen = (true, ⟨s.paths, s.history, 0⟩) := by
  constructor
  · rw [PathContainer.eraserMicroStep, if_pos hm]
  · rw [PathContainer.applyMicroStep, if_pos hm]

theorem microstep_misuse_amended_witness :
    ((⟨[], [], 0⟩ : PathContainer)).inHistory ≠ -1 ∧
    (((⟨[], [], 0⟩ : PathContainer)).eraserMicroStep wErase = ⟨[], [], 0⟩ ∧
      ((⟨[], [], 0⟩ : PathContainer)).applyMicroStep 100 = (true, ⟨[], [], 0⟩)) :=
  ⟨by decide, microstep_misuse_amended 100 wErase ⟨[], [], 0⟩ (by decide)⟩

/-- Claim C9: if the item is absent from the live sequence, `removeItem` is
a complete no-op on the container state (no history step is appended, the
live sequence and the cursor are untouched); if it is present, a pure
deletion step recording the item at its index is appended as the newest
history entry and the cursor returns to the forward state. -/
theorem removeItem_absent_noop (hlen : Nat) (item : GItem) (s : PathContainer)
    (h1 : 1 ≤ hlen) :
    (qIndexOf (some item) s.paths < 0 → s.removeItem hlen item = s) ∧
    (0 ≤ qIndexOf (some item) s.paths →
      (s.removeItem hlen item).history.getLast? =
        some ⟨[], [(qIndexOf (some item) s.paths, some item)]⟩ ∧
      (s.removeItem hlen item).inHistory = 0) := by
  constructor
  · intro h
    rw [PathContainer.removeItem]
    simp only [if_pos h]
  · intro h
    set idx := qIndexOf (some item) s.paths with hidx
    have hnneg : ¬(idx < 0) := by omega
    set s1 := s.truncateHistory hlen with hs1
    have h10 : s1.inHistory = 0 := by rw [hs1]; exact truncate_inHistory_zero hlen s
    set st : DrawHistoryStep := ⟨[], [(idx, some item)]⟩ with hst
    set s3 : PathContainer := ⟨eraseAtI idx s1.paths, s1.history ++ [st], s1.inHistory⟩
      with hs3
    have hri : s.removeItem hlen item =
        if (s1.history ++ [st]).length > hlen then clearHistoryCore hlen s3 else s3 := by
      show (if idx < 0 then s
        else if (s1.history ++ [st]).length > hlen then clearHistoryCore hlen s3 else s3) = _
      rw [if_neg hnneg]
    rw [hri]
    have h3i : s3.inHistory = 0 := h10
    have h3n : 1 ≤ s3.history.length := by
      show 1 ≤ (s1.history ++ [st]).length
      simp
    split
    · have hf := clearHistoryCore_facts hlen s3 h1 h3i h3n
      refine ⟨?_, hf.2.1⟩
      rw [hf.1]
      show (s1.history ++ [st]).getLast? = some st
      exact List.getLast?_concat _
    · refine ⟨?_, h3i⟩
      show (s1.history ++ [st]).getLast? = some st
      exact List.getLast?_concat _

theorem removeItem_absent_noop_witness :
    (1 ≤ 100) ∧
    ((qIndexOf (some (GItem.path 0))
          ((⟨[some (GItem.path 3)], [], 0⟩ : PathContainer)).paths < 0 →
        PathContainer.removeItem 100 (GItem.path 0) ⟨[some (GItem.path 3)], [], 0⟩ =
          ⟨[some (GItem.path 3)], [], 0⟩) ∧
      (0 ≤ qIndexOf (some (GItem.path 0))
          ((⟨[some (GItem.path 3)], [], 0⟩ : PathContainer)).paths →
        (PathContainer.removeItem 100 (GItem.path 0)
            ⟨[some (GItem.path 3)], [], 0⟩).history.getLast? =
          some ⟨[], [(qIndexOf (some (GItem.path 0))
            ((⟨[some (GItem.path 3)], [], 0⟩ : PathContainer)).paths, some (GItem.path 0))]⟩ ∧
        (PathContainer.removeItem 100 (GItem.path 0)
            ⟨[some (GItem.path 3)], [], 0⟩).inHistory = 0)) :=
  ⟨by decide, removeItem_absent_noop 100 (GItem.path 0)
    ⟨[some (GItem.path 3)], [], 0⟩ (by decide)⟩

/-! ## Color serialization (`color_to_rgba` / `rgba_to_color`)

A `QColor` is four 8-bit channels.  `QColor::rgb()` returns the color as
`0xffRRGGBB` (alpha forced opaque), an unsigned 32-bit value; the shift in
`color_to_rgba` is a 32-bit shift, so the leading `0xff` byte falls out.
`QString` values are lists of characters. -/

structure QColor where
  r : Nat
  g : Nat
  b : Nat
  a : Nat
deriving DecidableEq

/-- `QColor::rgb()`: `0xff000000 | (r << 16) | (g << 8) | b`. -/
def QColor.rgbVal (c : QColor) : Nat := 4278190080 + c.r * 65536 + c.g * 256 + c.b

/-- The 32-bit value `(color.rgb() << 8) + color.alpha()` serialized by
`color_to_rgba`. -/
def colorSerial (c : QColor) : Nat :=
  ((c.rgbVal * 256) % 4294967296 + c.a) % 4294967296

/-- Lowercase hexadecimal digits, as produced by `QString::number(·, 16)`
(code points 48–57 are `'0'`–`'9'` and 97–102 are `'a'`–`'f'`). -/
def hexDigit (n : Nat) : Char :=
  if n < 10 then Char.ofNat (48 + n) else Char.ofNat (87 + n)

/-- Hex digits of `n`, least significant first, with explicit fuel (the
recursion divides by 16, so fuel `n + 1` always suffices). -/
def natToHexRevFuel : Nat → Nat → List Char
  | 0, _ => []
  | fuel + 1, n =>
    if n < 16 then [hexDigit n] else hexDigit (n % 16) :: natToHexRevFuel fuel (n / 16)

/-- Hex digits of `n`, least significant first. -/
def hexDigitsRev (n : Nat) : List Char := natToHexRevFuel (n + 1) n

/-- `QString::number(n, 16)`: lowercase hex, no leading zeros, `"0"` for 0. -/
def qNumber16 (n : Nat) : List Char := (hexDigitsRev n).reverse

/-- `QString::rightJustified(width, fill, truncate)`. -/
def rightJustified (width : Nat) (fill : Char) (trunc : Bool) (s : List Char) : List Char :=
  if width ≤ s.length then (if trunc then s.take width else s)
  else List.replicate (width - s.length) fill ++ s

/-- `color_to_rgba` from `pathcontainer.cpp`. -/
def color_to_rgba (c : QColor) : List Char :=
  '#' :: rightJustified 8 '0' true (qNumber16 (colorSerial c))

/-- Value of one hex digit character, as in `QColor`'s string parser. -/
def hexVal (ch : Char) : Option Nat :=
  if '0' ≤ ch ∧ ch ≤ '9' then some (ch.toNat - 48)
  else if 'a' ≤ ch ∧ ch ≤ 'f' then some (ch.toNat - 87)
  else if 'A' ≤ ch ∧ ch ≤ 'F' then some (ch.toNat - 55)
  else none

def hexPairVal (c1 c2 : Char) : Option Nat :=
  (hexVal c1).bind fun h => (hexVal c2).map fun l => 16 * h + l

/-- `QColor(const QString &)` on the two hex forms used here: `#rrggbb`
(opaque) and `#aarrggbb`; `none` models an invalid `QColor`. -/
def qcolorFromString (s : List Char) : Option QColor :=
  match s with
  | '#' :: [c1, c2, c3, c4, c5, c6] =>
    (hexPairVal c1 c2).bind fun r => (hexPairVal c3 c4).bind fun g =>
      (hexPairVal c5 c6).map fun b => ⟨r, g, b, 255⟩
  | '#' :: [c1, c2, c3, c4, c5, c6, c7, c8] =>
    (hexPairVal c1 c2).bind fun a => (hexPairVal c3 c4).bind fun r =>
      (hexPairVal c5 c6).bind fun g => (hexPairVal c7 c8).map fun b => ⟨r, g, b, a⟩
  | _ => none

/-- `rgba_to_color` from `pathcontainer.cpp`: a 9-character string
`#rrggbbaa` is reordered to `#aarrggbb` (`'#' + right(2) + mid(1,6)`)
before being handed to the `QColor` constructor. -/
def rgba_to_color (s : List Char) : Option QColor :=
  if s.length = 9 then
    qcolorFromString ('#' :: (s.drop (s.length - 2) ++ (s.drop 1).take 6))
  else qcolorFromString s

/-- Fixed-width big-endian hex rendering (the low `k` digits of `n`). -/
def hexFix : Nat → Nat → List Char
  | 0, _ => []
  | k + 1, n => hexFix k (n / 16) ++ [hexDigit (n % 16)]

def isLowerHex (ch : Char) : Prop :=
  ('0' ≤ ch ∧ ch ≤ '9') ∨ ('a' ≤ ch ∧ ch ≤ 'f')

instance isLowerHex.decPred : DecidablePred isLowerHex := fun ch =>
  decidable_of_iff (('0' ≤ ch ∧ ch ≤ '9') ∨ ('a' ≤ ch ∧ ch ≤ 'f')) Iff.rfl

theorem hexVal_hexDigit (n : Nat) (h : n < 16) : hexVal (hexDigit n) = some n := by
  interval_cases n <;> decide

theorem hexDigit_lower (n : Nat) (h : n < 16) : isLowerHex (hexDigit n) := by
  interval_cases n <;> decide

theorem natToHexRevFuel_congr : ∀ (f1 f2 n : Nat), n < f1 → n < f2 →
    natToHexRevFuel f1 n = natToHexRevFuel f2 n := by
  intro f1
  induction f1 with
  | zero => intro f2 n h1; omega
  | succ f ih =>
    intro f2 n h1 h2
    cases f2 with
    | zero => omega
    | succ g =>
      rw [natToHexRevFuel, natToHexRevFuel]
      by_cases h16 : n < 16
      · rw [if_pos h16, if_pos h16]
      · rw [if_neg h16, if_neg h16]
        have := ih g (n / 16) (by omega) (by omega)
        rw [this]

theorem hexDigitsRev_lt (n : Nat) (h : n < 16) : hexDigitsRev n = [hexDigit n] := by
  rw [hexDigitsRev, natToHexRevFuel, if_pos h]

theorem hexDigitsRev_step (n : Nat) (h : ¬n < 16) :
    hexDigitsRev n = hexDigit (n % 16) :: hexDigitsRev (n / 16) := by
  rw [hexDigitsRev, natToHexRevFuel, if_neg h, hexDigitsRev]
  rw [natToHexRevFuel_congr n (n / 16 + 1) (n / 16) (by omega) (by omega)]

theorem hexFix_length : ∀ (k n : Nat), (hexFix k n).length = k := by
  intro k
  induction k with
  | zero => intro n; rfl
  | succ k ih =>
    intro n
    rw [hexFix]
    simp [ih]

theorem hexFix_zero : ∀ (k : Nat), hexFix k 0 = List.replicate k '0' := by
  intro k
  induction k with
  | zero => rfl
  | succ k ih =>
    rw [hexFix]
    simp only [Nat.zero_div, Nat.zero_mod, ih]
    rw [show hexDigit 0 = '0' from rfl, ← List.replicate_succ']

theorem hexDigitsRev_len_le : ∀ (k n : Nat), n < 16 ^ k → 1 ≤ k →
    (hexDigitsRev n).length ≤ k := by
  intro k
  induction k with
  | zero => intro n hn h1; omega
  | succ k ih =>
    intro n hn h1
    by_cases h16 : n < 16
    · rw [hexDigitsRev_lt n h16]
      simp
    · rw [hexDigitsRev_step n h16]
      have hk : 1 ≤ k := by
        by_contra hc
        push_neg at hc
        interval_cases k
        simp at hn
        omega
      have hdiv : n / 16 < 16 ^ k := by
        rw [Nat.div_lt_iff_lt_mul (by omega)]
        calc n < 16 ^ (k + 1) := hn
        _ = 16 ^ k * 16 := by ring
      have := ih (n / 16) hdiv hk
      simp only [List.length_cons]
      omega

theorem hexPad : ∀ (k n : Nat), n < 16 ^ k → 1 ≤ k →
    List.replicate (k - (hexDigitsRev n).length) '0' ++ (hexDigitsRev n).reverse =
      hexFix k n := by
  intro k
  induction k with
  | zero => intro n hn h1; omega
  | succ k ih =>
    intro n hn h1
    by_cases h16 : n < 16
    · rw [hexDigitsRev_lt n h16]
      rw [hexFix, Nat.div_eq_of_lt h16, Nat.mod_eq_of_lt h16, hexFix_zero]
      simp
    · rw [hexDigitsRev_step n h16]
      have hk : 1 ≤ k := by
        by_contra hc
        push_neg at hc
        interval_cases k
        simp at hn
        omega
      have hdiv : n / 16 < 16 ^ k := by
        rw [Nat.div_lt_iff_lt_mul (by omega)]
        calc n < 16 ^ (k + 1) := hn
        _ = 16 ^ k * 16 := by ring
      have hih := ih (n / 16) hdiv hk
      simp only [List.length_cons, List.reverse_cons, Nat.succ_sub_succ]
      rw [← List.append_assoc, hih, hexFix]

theorem rightJustified_pad (k : Nat) (fill : Char) (s : List Char) (h : s.length ≤ k) :
    rightJustified k fill true s = List.replicate (k - s.length) fill ++ s := by
  rw [rightJustified]
  split
  · have heq : s.length = k := by omega
    simp [List.take_of_length_le h, heq]
  · rfl

theorem hexFix_split : ∀ (j k n : Nat),
    hexFix (j + k) n = hexFix j (n / 16 ^ k) ++ hexFix k n := by
  intro j k
  induction k with
  | zero =>
    intro n
    simp [hexFix, Nat.div_one]
  | succ k ih =>
    intro n
    rw [show j + (k + 1) = (j + k) + 1 from by omega]
    rw [show hexFix ((j + k) + 1) n = hexFix (j + k) (n / 16) ++ [hexDigit (n % 16)]
      from rfl]
    rw [ih (n / 16), Nat.div_div_eq_div_mul]
    rw [show (16 : Nat) ^ (k + 1) = 16 ^ k * 16 from by ring]
    rw [show hexFix (k + 1) n = hexFix k (n / 16) ++ [hexDigit (n % 16)] from rfl]
    rw [List.append_assoc]
    rw [Nat.mul_comm (16 ^ k) 16]

theorem hexFix_mod : ∀ (k n : Nat), hexFix k (n % 16 ^ k) = hexFix k n := by
  intro k
  induction k with
  | zero => intro n; rfl
  | succ k ih =>
    intro n
    rw [hexFix, hexFix]
    have h1 : n % 16 ^ (k + 1) % 16 = n % 16 :=
      Nat.mod_mod_of_dvd n (dvd_pow_self 16 (by omega))
    have h2 : n % 16 ^ (k + 1) / 16 = n / 16 % 16 ^ k := by
      rw [show (16 : Nat) ^ (k + 1) = 16 * 16 ^ k from by ring]
      exact Nat.mod_mul_right_div_self n 16 (16 ^ k)
    rw [h1, h2, ih]

theorem color_to_rgba_format (c : QColor) (hr : c.r < 256) (hg : c.g < 256)
    (hb : c.b < 256) (ha : c.a < 256) :
    color_to_rgba c =
      '#' :: (hexFix 2 c.r ++ hexFix 2 c.g ++ hexFix 2 c.b ++ hexFix 2 c.a) := by
  have hv : colorSerial c = c.r * 16777216 + c.g * 65536 + c.b * 256 + c.a := by
    rw [colorSerial, QColor.rgbVal]
    omega
  have h168 : (16 : Nat) ^ 8 = 4294967296 := by norm_num
  have hlt : colorSerial c < 16 ^ 8 := by rw [hv, h168]; omega
  rw [color_to_rgba]
  congr 1
  rw [show qNumber16 (colorSerial c) = (hexDigitsRev (colorSerial c)).reverse from rfl]
  have hlen : (hexDigitsRev (colorSerial c)).length ≤ 8 :=
    hexDigitsRev_len_le 8 _ hlt (by omega)
  have hlenrev : ((hexDigitsRev (colorSerial c)).reverse).length ≤ 8 := by
    rw [List.length_reverse]
    exact hlen
  rw [rightJustified_pad 8 '0' _ hlenrev, List.length_reverse]
  rw [hexPad 8 (colorSerial c) hlt (by omega)]
  have e1 := hexFix_split 2 6 (colorSerial c)
  have e2 := hexFix_split 2 4 (colorSerial c)
  have e3 := hexFix_split 2 2 (colorSerial c)
  norm_num at e1 e2 e3
  rw [e1, e2, e3]
  have h162 : (16 : Nat) ^ 2 = 256 := by norm_num
  have hvr : colorSerial c / 16777216 = c.r := by rw [hv]; omega
  have hvg : hexFix 2 (colorSerial c / 65536) = hexFix 2 c.g := by
    rw [← hexFix_mod 2 (colorSerial c / 65536), ← hexFix_mod 2 c.g, h162]
    congr 1
    rw [hv]
    omega
  have hvb : hexFix 2 (colorSerial c / 256) = hexFix 2 c.b := by
    rw [← hexFix_mod 2 (colorSerial c / 256), ← hexFix_mod 2 c.b, h162]
    congr 1
    rw [hv]
    omega
  have hva : hexFix 2 (colorSerial c) = hexFix 2 c.a := by
    rw [← hexFix_mod 2 (colorSerial c), ← hexFix_mod 2 c.a, h162]
    congr 1
    rw [hv]
    omega
  rw [hvr, hvg, hvb, hva]
  simp only [List.append_assoc]

theorem hexPairVal_hexDigit (m : Nat) (hm : m < 256) :
    hexPairVal (hexDigit (m / 16 % 16)) (hexDigit (m % 16)) = some m := by
  rw [hexPairVal, hexVal_hexDigit _ (by omega), hexVal_hexDigit _ (by omega)]
  simp only [Option.some_bind, Option.map_some', Option.some.injEq]
  omega

theorem qcolor_parse9 (a r g b : Nat) (ha : a < 256) (hr : r < 256)
    (hg : g < 256) (hb : b < 256) :
    qcolorFromString
        ('#' :: (hexFix 2 a ++ (hexFix 2 r ++ (hexFix 2 g ++ hexFix 2 b)))) =
      some ⟨r, g, b, a⟩ := by
  show ((hexPairVal (hexDigit (a / 16 % 16)) (hexDigit (a % 16))).bind fun a2 =>
      (hexPairVal (hexDigit (r / 16 % 16)) (hexDigit (r % 16))).bind fun r2 =>
      (hexPairVal (hexDigit (g / 16 % 16)) (hexDigit (g % 16))).bind fun g2 =>
      (hexPairVal (hexDigit (b / 16 % 16)) (hexDigit (b % 16))).map fun b2 =>
        (⟨r2, g2, b2, a2⟩ : QColor)) = some ⟨r, g, b, a⟩
  rw [hexPairVal_hexDigit a ha, hexPairVal_hexDigit r hr,
    hexPairVal_hexDigit g hg, hexPairVal_hexDigit b hb]
  rfl

theorem rgba_to_color_on9 (l : List Char) (hl : l.length = 8) :
    rgba_to_color ('#' :: l) = qcolorFromString ('#' :: (l.drop 6 ++ l.take 6)) := by
  rw [rgba_to_color, if_pos (by simp [hl])]
  have h1 : ('#' :: l).length - 2 = 7 := by simp [hl]
  rw [h1]
  rw [show ('#' :: l).drop 7 = l.drop 6 from rfl]
  rw [show ('#' :: l).drop 1 = l from rfl]

/-- Claim C8: for every color whose four channels are 8-bit values,
`color_to_rgba` produces `'#'` followed by the two lowercase hex digits of
red, green, blue and alpha in that order (`#rrggbbaa`), and `rgba_to_color`
maps that string back to exactly the original color. -/
theorem color_roundtrip (c : QColor) (hr : c.r < 256) (hg : c.g < 256)
    (hb : c.b < 256) (ha : c.a < 256) :
    color_to_rgba c =
      '#' :: (hexFix 2 c.r ++ hexFix 2 c.g ++ hexFix 2 c.b ++ hexFix 2 c.a) ∧
    (∀ ch ∈ color_to_rgba c, ch = '#' ∨ isLowerHex ch) ∧
    rgba_to_color (color_to_rgba c) = some c := by
  have hfmt := color_to_rgba_format c hr hg hb ha
  have hfx : ∀ m : Nat, hexFix 2 m = [hexDigit (m / 16 % 16), hexDigit (m % 16)] :=
    fun m => rfl
  refine ⟨hfmt, ?_, ?_⟩
  · rw [hfmt]
    intro ch hch
    simp only [List.mem_cons] at hch
    rcases hch with h | hch
    · left; exact h
    · right
      simp only [hfx, List.mem_append, List.mem_cons, List.not_mem_nil, or_false] at hch
      rcases hch with (((h | h) | (h | h)) | (h | h)) | (h | h) <;>
        (subst h; exact hexDigit_lower _ (by omega))
  · rw [hfmt, List.append_assoc, List.append_assoc]
    rw [rgba_to_color_on9 _ (by simp [hexFix_length])]
    exact qcolor_parse9 c.a c.r c.g c.b ha hr hg hb

theorem color_roundtrip_witness :
    ((171 : Nat) < 256 ∧ (205 : Nat) < 256 ∧ (239 : Nat) < 256 ∧ (18 : Nat) < 256) ∧
    (color_to_rgba ⟨171, 205, 239, 18⟩ =
        '#' :: (hexFix 2 171 ++ hexFix 2 205 ++ hexFix 2 239 ++ hexFix 2 18) ∧
      (∀ ch ∈ color_to_rgba ⟨171, 205, 239, 18⟩, ch = '#' ∨ isLowerHex ch) ∧
      rgba_to_color (color_to_rgba ⟨171, 205, 239, 18⟩) = some ⟨171, 205, 239, 18⟩) :=
  ⟨by decide, color_roundtrip ⟨171, 205, 239, 18⟩ (by decide) (by decide)
    (by decide) (by decide)⟩

/-! ## PixCache (`src/rendering/pixcache.cpp`)

The cache (`QMap<int, const PngPixmap*>`) is the sorted association list of
the generic `QMap` embedding; a value of `none` is the null-pointer marker
for a page that a thread is currently rendering.  `qreal` resolutions are
rationals; `maxMemory` (a `float` holding a byte count) and the `qint64`
`usedMemory` are integers — every arithmetic step performed on them in the
translated code paths is exact at these magnitudes, and C++ integer
division truncates toward zero (`Int.tdiv`).  `threads` entries are
`none` for a null thread pointer and `some b` for a thread whose
`isRunning()` returns `b`.  Emitted signals (`pageReady`,
`setPixCacheThreadPage`) and `startTimer(0)` calls are returned as explicit
outputs. -/

structure Png where
  resolution : ℚ
  size : Int
deriving DecidableEq

structure PixState where
  cache : List (Int × Option Png)
  priority : List Int
  regionFirst : Int
  regionSecond : Int
  usedMemory : Int
deriving DecidableEq

structure PixEnv where
  numberOfPages : Int
  prefPage : Int
  maxMemory : Int
  maxNumber : Int
  threads : List (Option Bool)
  getRes : Int → ℚ
  renderValid : Bool
  renderOk : Int → ℚ → Bool
  pngSize : Int → ℚ → Int

/-- `MAX_RESOLUTION_DEVIATION` (`1e-9`). -/
def resEps : ℚ := 1 / 1000000000

/-- `INT_MAX >> 1`. -/
def INT_MAX_HALF : Int := 1073741823

/-- Size contribution of one cache entry (null markers count as 0). -/
def entrySize : Option Png → Int
  | some png => png.size
  | none => 0

def cacheTotal (l : List (Int × Option Png)) : Int :=
  (l.map (fun kv => entrySize kv.2)).sum

/-- The memory-accounting invariant: `usedMemory` is the total size of the
non-null cache entries. -/
def CacheOk (s : PixState) : Prop := s.usedMemory = cacheTotal s.cache

/-- `QMap::remove(k)`. -/
def mapErase {α : Type} (k : Int) (l : List (Int × α)) : List (Int × α) :=
  l.filter fun kv => decide (kv.1 ≠ k)

/-- `PixCache::clear`: drop all cached pages, reset the accounted memory,
collapse the region to the current page. -/
def pixClear (env : PixEnv) (s : PixState) : PixState :=
  ⟨[], s.priority, env.prefPage, env.prefPage, 0⟩

/-- The cache-hit test shared by `pixmap` and `requestPage`: a non-null
entry for the page whose resolution deviates by less than
`MAX_RESOLUTION_DEVIATION`. -/
def pixmapHit (p : Int) (r : ℚ) (cache : List (Int × Option Png)) : Bool :=
  match mapLookup p cache with
  | some (some png) => decide (|png.resolution - r| < resEps)
  | _ => false

/-- Writing a rendered page into the cache with the replace-accounting
pattern (`usedMemory -= old->size()` if a non-null entry existed, then
`cache[page] = png; usedMemory += png->size()`). -/
def cacheStore (p : Int) (png : Png) (s : PixState) : PixState :=
  ⟨mapInsert p (some png) s.cache, s.priority, s.regionFirst, s.regionSecond,
    s.usedMemory - entrySize ((mapLookup p s.cache).getD none) + png.size⟩

/-- `PixCache::pixmap(page, resolution)`: synchronous render-and-cache.
The returned `Bool` is whether a non-null pixmap was produced. -/
def pixPixmap (env : PixEnv) (p : Int) (r0 : ℚ) (s : PixState) : PixState × Bool :=
  let r := if r0 ≤ 0 then env.getRes p else r0
  if pixmapHit p r s.cache then (s, true)
  else if p < 0 ∨ env.numberOfPages ≤ p then (s, false)
  else if env.renderValid = false then (s, false)
  else if env.renderOk p r = false then (s, false)
  else (cacheStore p ⟨r, env.pngSize p r⟩ s, true)

/-- Outputs of `requestPage`: `hit` = `pageReady` emitted straight from the
cache, `rendered` = `renderer->renderPixmap` ran, `ready` = `pageReady`
emitted at all, `timer` = `startTimer(0)` reached. -/
structure ReqOut where
  hit : Bool
  rendered : Bool
  ready : Bool
  timer : Bool
deriving DecidableEq

/-- `PixCache::requestPage(page, resolution, cache_page)`. -/
def requestPage (env : PixEnv) (p : Int) (r : ℚ) (cache_page : Bool)
    (s : PixState) : PixState × ReqOut :=
  if pixmapHit p r s.cache then (s, ⟨true, false, true, false⟩)
  else if p < 0 ∨ env.numberOfPages ≤ p then (s, ⟨false, false, false, false⟩)
  else if env.renderValid = false then (s, ⟨false, false, false, false⟩)
  else if env.renderOk p r = false then (s, ⟨false, true, false, false⟩)
  else ((if cache_page then cacheStore p ⟨r, env.pngSize p r⟩ s else s),
    ⟨false, true, true, true⟩)

/-- `PixCache::receiveData`: `none` models null or null-image data.  A
result whose resolution became stale is dropped (removing a null marker for
the page, but keeping a real cached entry); otherwise it is stored.  The
`Bool` is the `startTimer(0)` call. -/
def receiveData (env : PixEnv) (p : Int) (d : Option Png) (s : PixState) :
    PixState × Bool :=
  match d with
  | none => (s, false)
  | some png =>
    if resEps < |env.getRes p - png.resolution| then
      (match mapLookup p s.cache with
       | some (some _) => (s, true)
       | _ => (⟨mapErase p s.cache, s.priority, s.regionFirst, s.regionSecond,
           s.usedMemory⟩, true))
    else (cacheStore p png s, true)

/-- `QList::removeOne`. -/
def removeOne (x : Int) : List Int → List Int
  | [] => []
  | y :: ys => if y = x then ys else y :: removeOne x ys

/-- The downward gap walk of `pageNumberChanged`: decrement `region.first`
while the key is present (the fuel, one more than the cache size, always
suffices because each successful step consumes a distinct key). -/
def walkDown (ks : List Int) : Nat → Int → Int
  | 0, rf => rf
  | f + 1, rf => if rf ∈ ks then walkDown ks f (rf - 1) else rf

def walkUp (ks : List Int) : Nat → Int → Int
  | 0, rs => rs
  | f + 1, rs => if rs ∈ ks then walkUp ks f (rs + 1) else rs

/-- `PixCache::pageNumberChanged(page)`.  The `Bool` is whether
`startTimer(0)` was reached (the absent-page branch returns before it). -/
def pageNumberChanged (p : Int) (s : PixState) : PixState × Bool :=
  if (mapLookup p s.cache).isSome = false then
    (⟨s.cache,
      (if s.priority.isEmpty = false ∧ s.priority.head? ≠ some p
        then p :: removeOne p s.priority else s.priority),
      p, p, s.usedMemory⟩, false)
  else
    let rf0 := if p < s.regionFirst ∨ s.regionSecond < p then p - 1 else s.regionFirst
    let rs0 := if p < s.regionFirst ∨ s.regionSecond < p then p + 1 else s.regionSecond
    let ks := s.cache.map Prod.fst
    (⟨s.cache, s.priority, walkDown ks (s.cache.length + 1) rf0,
      walkUp ks (s.cache.length + 1) rs0, s.usedMemory⟩, true)

def firstKey (l : List (Int × Option Png)) : Int := (l.head?.map Prod.fst).getD 0

def lastKey (l : List (Int × Option Png)) : Int := (l.getLast?.map Prod.fst).getD 0

/-- Number of threads counted off by `limitCacheSize` (non-null and
running). -/
def runningCount (threads : List (Option Bool)) : Int :=
  ((threads.filter fun t => decide (t = some true)).length : Int)

/-- State of the eviction loop inside `limitCacheSize`. -/
structure EvictSt where
  cache : List (Int × Option Png)
  used : Int
  first : Int
  last : Int
  allowed : Int
  cached : Int
deriving DecidableEq

/-- The in-loop recomputation of `allowed_slides` after deleting a page
(the `maxNumber` clamp here is not guarded by `maxNumber > 0`, unlike the
one before the loop). -/
def allowedUpdate (env : PixEnv) (st : EvictSt) : Int :=
  if 0 < st.used ∧ 0 < st.cached then
    (let a := ((env.maxMemory - st.used) * st.cached).tdiv st.used
     if env.maxNumber < a + (st.cache.length : Int) then
       env.maxNumber - (st.cache.length : Int)
     else a)
  else env.maxNumber - (st.cache.length : Int)

/-- The good-enough escape of the eviction loop (`return 0`), including the
`cache.size() < 2` segfault guard. -/
def evictStop (env : PixEnv) (pref : Int) (st : EvictSt) : Bool :=
  ((decide (env.maxNumber < 0) || decide ((st.cache.length : Int) ≤ env.maxNumber)) &&
   (decide (env.maxMemory < 0) || decide (st.used ≤ env.maxMemory)) &&
   decide (pref < st.last) &&
   decide (st.last - st.first ≤ (st.cache.length : Int)) &&
   decide (5 * pref < 2 * st.last + 3 * st.first)) ||
  decide ((st.cache.length : Int) < 2)

/-- One eviction of the do-while loop: remove the entry at the last (resp.
first) key, keep the iterator-derived edge keys up to date, and — unless the
removed value was a null marker (`continue`) — subtract its size and
recompute `allowed_slides`. -/
def evictOnce (env : PixEnv) (pref : Int) (st : EvictSt) : EvictSt :=
  let removed := if 4 * pref < st.last + 3 * st.first
    then (st.cache.getLast?.getD (0, none)).2
    else (st.cache.head?.getD (0, none)).2
  let cache2 := if 4 * pref < st.last + 3 * st.first
    then st.cache.dropLast else st.cache.tail
  let first2 := if 4 * pref < st.last + 3 * st.first then st.first else firstKey cache2
  let last2 := if 4 * pref < st.last + 3 * st.first then lastKey cache2 else st.last
  if removed = none then ⟨cache2, st.used, first2, last2, st.allowed, st.cached⟩
  else
    (let used2 := st.used - entrySize removed
     let cached2 := st.cached - 1
     ⟨cache2, used2, first2, last2,
       allowedUpdate env ⟨cache2, used2, first2, last2, 0, cached2⟩, cached2⟩)

/-- The do-while eviction loop of `limitCacheSize`.  `some 0` is the
in-loop `return 0`; `none` means the loop condition failed and the caller
returns `allowed_slides`.  Each iteration removes one entry, so fuel
exceeding the cache size never runs out. -/
def evictLoop (env : PixEnv) (pref : Int) : Nat → EvictSt → EvictSt × Option Int
  | 0, st => (st, none)
  | fuel + 1, st =>
    if evictStop env pref st then (st, some 0)
    else
      let st2 := evictOnce env pref st
      if st2.allowed < (env.threads.length : Int) ∧ 0 < st2.cached then
        evictLoop env pref fuel st2
      else (st2, none)

/-- The pre-loop `allowed_slides` computation of `limitCacheSize` (the
`maxNumber` clamp here is guarded by `maxNumber > 0`). -/
def allowedPre (env : PixEnv) (s1 : PixState) (cached0 : Int) : Int :=
  let allowed1 : Int :=
    if 0 < env.maxMemory then
      (if 0 < s1.usedMemory ∧ 0 < cached0 then
        ((env.maxMemory - s1.usedMemory) * cached0).tdiv s1.usedMemory
      else (env.threads.length : Int))
    else INT_MAX_HALF
  if 0 < env.maxNumber ∧ env.maxNumber < allowed1 + (s1.cache.length : Int) then
    env.maxNumber - (s1.cache.length : Int)
  else allowed1

/-- `PixCache::limitCacheSize` after the budget checks and the region
validity fix. -/
def limitCacheCore (env : PixEnv) (s1 : PixState) : PixState × Int :=
  if (s1.cache.length : Int) - runningCount env.threads ≤ 0 then (s1, INT_MAX_HALF)
  else
    let cached0 : Int := (s1.cache.length : Int) - runningCount env.threads
    let allowed2 := allowedPre env s1 cached0
    if (env.threads.length : Int) ≤ allowed2 then (s1, allowed2)
    else
      let res := evictLoop env env.prefPage (s1.cache.length + 1)
        ⟨s1.cache, s1.usedMemory, firstKey s1.cache, lastKey s1.cache,
          allowed2, cached0⟩
      match res.2 with
      | some v => (⟨res.1.cache, s1.priority, s1.regionFirst, s1.regionSecond,
          res.1.used⟩, v)
      | none =>
        (⟨res.1.cache, s1.priority,
          (if s1.regionFirst + 1 < res.1.first then res.1.first - 1
           else s1.regionFirst),
          (if res.1.last + 1 < s1.regionSecond then res.1.last + 1
           else s1.regionSecond),
          res.1.used⟩, res.1.allowed)

/-- `PixCache::limitCacheSize`. -/
def limitCacheSize (env : PixEnv) (s : PixState) : PixState × Int :=
  if env.maxMemory < 0 ∧ env.maxNumber < 0 then
    (if (s.cache.length : Int) = env.numberOfPages then (s, 0) else (s, INT_MAX_HALF))
  else if env.maxNumber = 0 ∨ env.maxMemory = 0 then (pixClear env s, 0)
  else
    limitCacheCore env
      (if s.regionSecond < s.regionFirst then
        ⟨s.cache, s.priority, env.prefPage, env.prefPage, s.usedMemory⟩ else s)

/-- The priority-queue scan at the top of `renderNext` (`takeFirst` until a
page not yet in the cache is found). -/
def renderNextPrio : List Int → List (Int × Option Png) → List Int × Option Int
  | [], _ => ([], none)
  | p :: rest, cache =>
    if (mapLookup p cache).isSome then renderNextPrio rest cache
    else (rest, some p)

/-- The region-edge selection loop of `renderNext`.  Returns the updated
region edges and the selected page; each iteration either returns or moves
an edge past a cached page, so the fuel (twice the cache size plus two)
always suffices. -/
def selectRegion (env : PixEnv) (cache : List (Int × Option Png)) :
    Nat → Int → Int → Int × Int × Option Int
  | 0, rf, rs => (rf, rs, none)
  | f + 1, rf, rs =>
    if 4 * env.prefPage < rs + 3 * rf ∧ 0 ≤ rf then
      (if (mapLookup rf cache).isSome then selectRegion env cache f (rf - 1) rs
       else (rf - 1, rs, some rf))
    else
      (if (mapLookup rs cache).isSome then selectRegion env cache f rf (rs + 1)
       else (rf, rs + 1, some rs))

/-- `PixCache::renderNext`. -/
def renderNext (env : PixEnv) (s : PixState) : PixState × Option Int :=
  match renderNextPrio s.priority s.cache with
  | (pr, some p) => (⟨s.cache, pr, s.regionFirst, s.regionSecond, s.usedMemory⟩, some p)
  | (pr, none) =>
    let rf0 := if s.regionSecond < s.regionFirst then env.prefPage else s.regionFirst
    let rs0 := if s.regionSecond < s.regionFirst then env.prefPage else s.regionSecond
    let sel := selectRegion env s.cache (2 * s.cache.length + 2) rf0 rs0
    (⟨s.cache, pr, sel.1, sel.2.1, s.usedMemory⟩, sel.2.2)

/-- The dispatch loop of `startRendering`: for each idle thread, pick the
next page and emit `setPixCacheThreadPage` (collected as page/resolution
pairs). -/
def dispatchLoop (env : PixEnv) : List (Option Bool) → Int → PixState →
    PixState × List (Int × ℚ)
  | [], _, s => (s, [])
  | t :: rest, allowed, s =>
    if 0 < allowed ∧ t = some false then
      match renderNext env s with
      | (s2, none) => (s2, [])
      | (s2, some page) =>
        if page < 0 ∨ env.numberOfPages ≤ page then (s2, [])
        else
          (let r := dispatchLoop env rest (allowed - 1) s2
           (r.1, (page, env.getRes page) :: r.2))
    else dispatchLoop env rest allowed s

/-- `PixCache::startRendering`: one scheduling pass (`limitCacheSize`, then
dispatch to idle threads unless no pages are allowed). -/
def startRendering (env : PixEnv) (s : PixState) : PixState × List (Int × ℚ) :=
  let res := limitCacheSize env s
  if res.2 ≤ 0 then (res.1, [])
  else dispatchLoop env env.threads res.2 res.1

/-! ## Claim theorems for `PixCache` -/

/-- The fresh cache state (`region = {INT_MAX, -1}` from the field
initializers). -/
def pixInit : PixState := ⟨[], [], 2147483647, -1, 0⟩

/-- A document/configuration with one idle render thread, an unlimited
cache, and 10-byte rendered pages. -/
def envHit : PixEnv := ⟨5, 0, -1, -1, [some false], fun _ => 1, true,
  fun _ _ => true, fun _ _ => 10⟩

/-- A configuration with a 10-byte memory budget whose renderer produces
100-byte pages. -/
def envC1 : PixEnv := ⟨5, 0, 10, -1, [some false], fun _ => 1, true,
  fun _ _ => true, fun _ _ => 100⟩

/-- Claim C1, counterexample to the literal statement: with the
non-negative budget `maxMemory = 10`, a single `requestPage` call caches a
100-byte page, and after the scheduling pass `startRendering` (whose
`limitCacheSize` refuses to touch a cache with fewer than two entries)
completes, `usedMemory = 100` still exceeds the budget — the overshoot does
not resolve within one pass. -/
theorem cache_overshoot_persists :
    (0 : Int) ≤ envC1.maxMemory ∧
    envC1.maxMemory <
      (startRendering envC1 (requestPage envC1 0 1 true pixInit).1).1.usedMemory := by
  decide

/-- Claim C3, counterexample to the literal statement: calling
`pageNumberChanged` with a page absent from the cache while the priority
queue is empty leaves the queue empty (the page does not become its first
entry) and returns before `startTimer(0)` — no scheduling pass is
triggered. -/
theorem pageNumberChanged_no_trigger :
    mapLookup 3 (⟨[], [], 10, 10, 0⟩ : PixState).cache = none ∧
    (pageNumberChanged 3 ⟨[], [], 10, 10, 0⟩).1.priority = [] ∧
    (pageNumberChanged 3 ⟨[], [], 10, 10, 0⟩).2 = false := by
  decide

/-- Claim C3, amended: when the page is absent from the cache,
`pageNumberChanged` collapses the region to `[page, page]` and leaves the
cache untouched, but returns without starting the render timer; the page is
moved to the front of the priority queue only when the queue is non-empty
(and stays first if it already is). -/
theorem pageNumberChanged_absent (p : Int) (s : PixState)
    (habs : mapLookup p s.cache = none) :
    (pageNumberChanged p s).1.regionFirst = p ∧
    (pageNumberChanged p s).1.regionSecond = p ∧
    (pageNumberChanged p s).1.cache = s.cache ∧
    (pageNumberChanged p s).2 = false ∧
    (s.priority = [] → (pageNumberChanged p s).1.priority = []) ∧
    (s.priority ≠ [] → (pageNumberChanged p s).1.priority.head? = some p) := by
  rw [pageNumberChanged, if_pos (by rw [habs]; rfl)]
  refine ⟨rfl, rfl, rfl, rfl, ?_, ?_⟩
  · intro hpr
    show (if s.priority.isEmpty = false ∧ s.priority.head? ≠ some p
      then p :: removeOne p s.priority else s.priority) = []
    rw [if_neg]
    · exact hpr
    · rw [hpr]
      simp
  · intro hpr
    show (if s.priority.isEmpty = false ∧ s.priority.head? ≠ some p
      then p :: removeOne p s.priority else s.priority).head? = some p
    by_cases hh : s.priority.head? = some p
    · rw [if_neg (by simp [hh])]
      exact hh
    · have hne : s.priority.isEmpty = false := by
        rw [Bool.eq_false_iff]
        intro hc
        exact hpr (List.isEmpty_iff.mp hc)
      rw [if_pos ⟨hne, hh⟩]
      rfl

theorem pageNumberChanged_absent_witness :
    mapLookup 2 (⟨[], [5], 0, 0, 0⟩ : PixState).cache = none ∧
    ((pageNumberChanged 2 ⟨[], [5], 0, 0, 0⟩).1.regionFirst = 2 ∧
      (pageNumberChanged 2 ⟨[], [5], 0, 0, 0⟩).1.regionSecond = 2 ∧
      (pageNumberChanged 2 ⟨[], [5], 0, 0, 0⟩).1.cache =
        (⟨[], [5], 0, 0, 0⟩ : PixState).cache ∧
      (pageNumberChanged 2 ⟨[], [5], 0, 0, 0⟩).2 = false ∧
      ((⟨[], [5], 0, 0, 0⟩ : PixState).priority = [] →
        (pageNumberChanged 2 ⟨[], [5], 0, 0, 0⟩).1.priority = []) ∧
      ((⟨[], [5], 0, 0, 0⟩ : PixState).priority ≠ [] →
        (pageNumberChanged 2 ⟨[], [5], 0, 0, 0⟩).1.priority.head? = some 2)) :=
  ⟨by decide, pageNumberChanged_absent 2 ⟨[], [5], 0, 0, 0⟩ (by decide)⟩

/-- Claim C4, counterexample to the literal statement: with
`cache_page = false` nothing is stored, so the second of two identical
`requestPage` calls is not served from the cache — it renders the page
again. -/
theorem requestPage_nocache_rerenders :
    (requestPage envHit 1 1 false (requestPage envHit 1 1 false pixInit).1).2.hit
        = false ∧
    (requestPage envHit 1 1 false (requestPage envHit 1 1 false pixInit).1).2.rendered
        = true := by
  decide

/-- Claim C4, amended: if the first of two identical `requestPage` calls
runs with `cache_page = true` on a valid page with a working renderer, the
second call is a pure cache hit: it emits `pageReady` from the cache,
renders nothing, dispatches nothing, and leaves the state unchanged. -/
theorem requestPage_second_hit (env : PixEnv) (p : Int) (r : ℚ) (s : PixState)
    (hp : ¬(p < 0 ∨ env.numberOfPages ≤ p)) (hval : env.renderValid = true)
    (hok : env.renderOk p r = true) :
    requestPage env p r true (requestPage env p r true s).1 =
      ((requestPage env p r true s).1, ⟨true, false, true, false⟩) := by
  by_cases h1 : pixmapHit p r s.cache = true
  · have hs1 : (requestPage env p r true s).1 = s := by
      rw [requestPage, if_pos h1]
    rw [hs1, requestPage, if_pos h1]
  · have hs1 : (requestPage env p r true s).1 =
        cacheStore p ⟨r, env.pngSize p r⟩ s := by
      rw [requestPage, if_neg h1, if_neg hp, if_neg (by simp [hval]),
        if_neg (by simp [hok])]
      rfl
    have hhit : pixmapHit p r (cacheStore p ⟨r, env.pngSize p r⟩ s).cache = true := by
      show pixmapHit p r (mapInsert p (some ⟨r, env.pngSize p r⟩) s.cache) = true
      rw [pixmapHit, mapLookup_mapInsert_self]
      simp only [sub_self]
      norm_num [resEps]
    rw [hs1, requestPage, if_pos hhit]

theorem requestPage_second_hit_witness :
    (¬((1 : Int) < 0 ∨ envHit.numberOfPages ≤ 1) ∧ envHit.renderValid = true ∧
      envHit.renderOk 1 1 = true) ∧
    requestPage envHit 1 1 true (requestPage envHit 1 1 true pixInit).1 =
      ((requestPage envHit 1 1 true pixInit).1, ⟨true, false, true, false⟩) :=
  ⟨⟨by decide, rfl, rfl⟩,
    requestPage_second_hit envHit 1 1 pixInit (by decide) rfl rfl⟩

/-- C++ truncating division: a quotient of at least 1 with a positive
divisor needs a numerator of at least the divisor. -/
theorem le_of_one_le_tdiv (a b : Int) (hb : 0 < b) (h : 1 ≤ a.tdiv b) : b ≤ a := by
  by_contra hc
  push_neg at hc
  rcases le_or_lt 0 a with ha | ha
  · rw [Int.tdiv_eq_ediv ha (by omega), Int.ediv_eq_zero_of_lt ha hc] at h
    omega
  · have h1 : a.tdiv b = -((-a).tdiv b) := by
      rw [show a = -(-a) from by ring, Int.neg_tdiv]
      ring_nf
    have h2 : 0 ≤ (-a).tdiv b := Int.tdiv_nonneg (by omega) (by omega)
    omega

theorem cacheTotal_cons (kv : Int × Option Png) (l : List (Int × Option Png)) :
    cacheTotal (kv :: l) = entrySize kv.2 + cacheTotal l := by
  simp [cacheTotal]

theorem cacheTotal_getLast : ∀ (l : List (Int × Option Png)) (x : Int × Option Png),
    l.getLast? = some x → cacheTotal l = cacheTotal l.dropLast + entrySize x.2 := by
  intro l
  induction l with
  | nil => intro x h; exact Option.noConfusion h
  | cons a t ih =>
    intro x h
    cases t with
    | nil =>
      have hax : a = x := by
        have : some a = some x := h
        injection this
      subst hax
      simp [cacheTotal]
    | cons b m =>
      rw [List.getLast?_cons_cons] at h
      rw [show (a :: b :: m).dropLast = a :: (b :: m).dropLast from rfl]
      rw [cacheTotal_cons a (b :: m), ih x h,
        cacheTotal_cons a ((b :: m).dropLast)]
      ring

theorem cacheTotal_mapInsert (k : Int) (v : Option Png) :
    ∀ (l : List (Int × Option Png)), KeysAsc l →
      cacheTotal (mapInsert k v l) =
        cacheTotal l - entrySize ((mapLookup k l).getD none) + entrySize v := by
  intro l
  induction l with
  | nil =>
    intro _
    simp [cacheTotal, mapInsert, mapLookup, entrySize]
  | cons kv rest ih =>
    intro hasc
    obtain ⟨k0, v0⟩ := kv
    obtain ⟨hhead, hrest⟩ := List.pairwise_cons.mp hasc
    by_cases h1 : k < k0
    · rw [show mapInsert k v ((k0, v0) :: rest) = (k, v) :: (k0, v0) :: rest from by
        rw [mapInsert, if_pos h1]]
      have hlk : mapLookup k ((k0, v0) :: rest) = none := by
        rw [mapLookup_eq_none_iff]
        intro w hw
        rcases List.mem_cons.mp hw with h2 | h2
        · have : k = k0 := congrArg Prod.fst h2
          omega
        · have := hhead (k, w) h2
          simp at this
          omega
      rw [hlk]
      rw [cacheTotal_cons, cacheTotal_cons]
      show entrySize v + (entrySize v0 + cacheTotal rest) =
        entrySize v0 + cacheTotal rest - 0 + entrySize v
      ring
    · by_cases h2 : k = k0
      · rw [show mapInsert k v ((k0, v0) :: rest) = (k, v) :: rest from by
          rw [mapInsert, if_neg h1, if_pos h2]]
        rw [show mapLookup k ((k0, v0) :: rest) = some v0 from by
          rw [mapLookup, if_pos h2]]
        rw [cacheTotal_cons, cacheTotal_cons]
        show entrySize v + cacheTotal rest =
          entrySize v0 + cacheTotal rest - entrySize v0 + entrySize v
        ring
      · rw [show mapInsert k v ((k0, v0) :: rest) = (k0, v0) :: mapInsert k v rest from by
          rw [mapInsert, if_neg h1, if_neg h2]]
        rw [show mapLookup k ((k0, v0) :: rest) = mapLookup k rest from by
          rw [mapLookup, if_neg h2]]
        rw [cacheTotal_cons, cacheTotal_cons, ih hrest]
        ring

theorem keysAsc_mapErase {α : Type} (k : Int) (l : List (Int × α))
    (h : KeysAsc l) : KeysAsc (mapErase k l) :=
  List.Pairwise.sublist (List.filter_sublist l) h

theorem mapErase_absent {α : Type} (k : Int) (l : List (Int × α))
    (hl : mapLookup k l = none) : mapErase k l = l := by
  rw [mapErase, List.filter_eq_self]
  intro kv hkv
  simp only [decide_eq_true_eq]
  intro hc
  have hmem : (k, kv.2) ∈ l := by
    rw [← hc]
    exact hkv
  exact (mapLookup_eq_none_iff k l).mp hl kv.2 hmem

theorem cacheTotal_mapErase (k : Int) :
    ∀ (l : List (Int × Option Png)), KeysAsc l → ∀ v, mapLookup k l = some v →
      cacheTotal (mapErase k l) = cacheTotal l - entrySize v := by
  intro l
  induction l with
  | nil => intro _ v h; exact Option.noConfusion h
  | cons kv rest ih =>
    intro hasc v hv
    obtain ⟨k0, v0⟩ := kv
    obtain ⟨hhead, hrest⟩ := List.pairwise_cons.mp hasc
    by_cases h2 : k = k0
    · have hvv : v0 = v := by
        rw [show mapLookup k ((k0, v0) :: rest) = some v0 from by
          rw [mapLookup, if_pos h2]] at hv
        injection hv
      have hrnone : mapLookup k rest = none := by
        rw [mapLookup_eq_none_iff]
        intro w hw
        have := hhead (k, w) hw
        simp at this
        omega
      rw [show mapErase k ((k0, v0) :: rest) = mapErase k rest from by
        rw [mapErase, List.filter_cons, if_neg (by simp [h2])]
        rfl]
      rw [mapErase_absent k rest hrnone, cacheTotal_cons, hvv]
      ring
    · rw [show mapLookup k ((k0, v0) :: rest) = mapLookup k rest from by
        rw [mapLookup, if_neg h2]] at hv
      rw [show mapErase k ((k0, v0) :: rest) = (k0, v0) :: mapErase k rest from by
        rw [mapErase, List.filter_cons, if_pos (by simp; omega)]
        rfl]
      rw [cacheTotal_cons (k0, v0) (mapErase k rest), ih hrest v hv,
        cacheTotal_cons (k0, v0) rest]
      ring

theorem evictOnce_spec (env : PixEnv) (pref : Int) (st : EvictSt)
    (hne : st.cache ≠ []) :
    ∃ x : Int × Option Png, x ∈ st.cache ∧
      (evictOnce env pref st).cache.length + 1 = st.cache.length ∧
      (∀ kv ∈ (evictOnce env pref st).cache, kv ∈ st.cache) ∧
      (KeysAsc st.cache → KeysAsc (evictOnce env pref st).cache) ∧
      (evictOnce env pref st).used = st.used - entrySize x.2 ∧
      cacheTotal (evictOnce env pref st).cache =
        cacheTotal st.cache - entrySize x.2 ∧
      (x.2 = none → (evictOnce env pref st).allowed = st.allowed ∧
        (evictOnce env pref st).cached = st.cached) ∧
      (x.2 ≠ none → (evictOnce env pref st).cached = st.cached - 1 ∧
        (evictOnce env pref st).allowed =
          allowedUpdate env ⟨(evictOnce env pref st).cache,
            st.used - entrySize x.2, 0, 0, 0, st.cached - 1⟩) := by
  have hpos : 0 < st.cache.length := List.length_pos.mpr hne
  by_cases hdir : 4 * pref < st.last + 3 * st.first
  · cases hgl : st.cache.getLast? with
    | none =>
      have := List.getLast?_isSome.mpr hne
      rw [hgl] at this
      simp at this
    | some x =>
      have hres : evictOnce env pref st =
          (if x.2 = none then
            (⟨st.cache.dropLast, st.used, st.first, lastKey st.cache.dropLast,
              st.allowed, st.cached⟩ : EvictSt)
          else
            ⟨st.cache.dropLast, st.used - entrySize x.2, st.first,
              lastKey st.cache.dropLast,
              allowedUpdate env ⟨st.cache.dropLast, st.used - entrySize x.2,
                st.first, lastKey st.cache.dropLast, 0, st.cached - 1⟩,
              st.cached - 1⟩) := by
        rw [evictOnce]
        simp only [if_pos hdir, hgl, Option.getD_some]
      have hcache : (evictOnce env pref st).cache = st.cache.dropLast := by
        rw [hres]
        by_cases hx : x.2 = none
        · rw [if_pos hx]
        · rw [if_neg hx]
      have htot : cacheTotal st.cache.dropLast = cacheTotal st.cache - entrySize x.2 := by
        have := cacheTotal_getLast st.cache x hgl
        omega
      refine ⟨x, mem_of_getLastQ _ _ hgl, ?_, ?_, ?_, ?_, ?_, ?_, ?_⟩
      · rw [hcache, List.length_dropLast]
        omega
      · rw [hcache]
        exact fun kv hkv => (List.dropLast_sublist st.cache).subset hkv
      · rw [hcache]
        exact fun h => h.sublist (List.dropLast_sublist st.cache)
      · by_cases hx : x.2 = none
        · rw [hres, if_pos hx, hx]
          show st.used = st.used - entrySize none
          rw [show entrySize none = 0 from rfl]
          ring
        · rw [hres, if_neg hx]
      · rw [hcache]
        exact htot
      · intro hx
        rw [hres, if_pos hx]
        exact ⟨rfl, rfl⟩
      · intro hx
        rw [hres, if_neg hx]
        exact ⟨rfl, rfl⟩
  · cases hc : st.cache with
    | nil => exact absurd hc hne
    | cons a t =>
      have hres : evictOnce env pref st =
          (if a.2 = none then
            (⟨t, st.used, firstKey t, st.last, st.allowed, st.cached⟩ : EvictSt)
          else
            ⟨t, st.used - entrySize a.2, firstKey t, st.last,
              allowedUpdate env ⟨t, st.used - entrySize a.2, firstKey t,
                st.last, 0, st.cached - 1⟩,
              st.cached - 1⟩) := by
        rw [evictOnce]
        simp only [if_neg hdir, hc]
        rfl
      have hcache : (evictOnce env pref st).cache = t := by
        rw [hres]
        by_cases hx : a.2 = none
        · rw [if_pos hx]
        · rw [if_neg hx]
      refine ⟨a, List.mem_cons_self a t, ?_, ?_, ?_, ?_, ?_, ?_, ?_⟩
      · rw [hcache]
        rfl
      · rw [hcache]
        exact fun kv hkv => List.mem_cons_of_mem a hkv
      · rw [hcache]
        exact fun h => (List.pairwise_cons.mp h).2
      · by_cases hx : a.2 = none
        · rw [hres, if_pos hx, hx]
          show st.used = st.used - entrySize none
          rw [show entrySize none = 0 from rfl]
          ring
        · rw [hres, if_neg hx]
      · rw [hcache, cacheTotal_cons]
        ring
      · intro hx
        rw [hres, if_pos hx]
        exact ⟨rfl, rfl⟩
      · intro hx
        rw [hres, if_neg hx]
        exact ⟨rfl, rfl⟩

theorem not_stop_two_le (env : PixEnv) (pref : Int) (st : EvictSt)
    (hstop : ¬evictStop env pref st = true) : 2 ≤ st.cache.length := by
  by_contra hcl
  push_neg at hcl
  apply hstop
  rw [evictStop]
  have h2 : decide ((st.cache.length : Int) < 2) = true := by
    rw [decide_eq_true_eq]
    omega
  rw [h2, Bool.or_true]

theorem evictLoop_cacheOk (env : PixEnv) (pref : Int) :
    ∀ (fuel : Nat) (st : EvictSt), st.used = cacheTotal st.cache →
      KeysAsc st.cache →
      ((evictLoop env pref fuel st).1.used =
          cacheTotal (evictLoop env pref fuel st).1.cache ∧
        KeysAsc (evictLoop env pref fuel st).1.cache ∧
        (∀ kv ∈ (evictLoop env pref fuel st).1.cache, kv ∈ st.cache)) := by
  intro fuel
  induction fuel with
  | zero =>
    intro st hok hasc
    rw [evictLoop]
    exact ⟨hok, hasc, fun kv h => h⟩
  | succ f ih =>
    intro st hok hasc
    rw [evictLoop]
    by_cases hstop : evictStop env pref st = true
    · rw [if_pos hstop]
      exact ⟨hok, hasc, fun kv h => h⟩
    · rw [if_neg hstop]
      have hlen2 : 2 ≤ st.cache.length := not_stop_two_le env pref st hstop
      have hne : st.cache ≠ [] := by
        intro hcc
        rw [hcc] at hlen2
        simp at hlen2
      obtain ⟨x, hxmem, hlen, hsub, hkasc, hused, htot, hmk, hnmk⟩ :=
        evictOnce_spec env pref st hne
      have hok2 : (evictOnce env pref st).used =
          cacheTotal (evictOnce env pref st).cache := by
        rw [hused, htot, hok]
      dsimp only
      by_cases hcont : (evictOnce env pref st).allowed < (env.threads.length : Int) ∧
          0 < (evictOnce env pref st).cached
      · rw [if_pos hcont]
        obtain ⟨h1, h2, h3⟩ := ih (evictOnce env pref st) hok2 (hkasc hasc)
        exact ⟨h1, h2, fun kv h => hsub kv (h3 kv h)⟩
      · rw [if_neg hcont]
        exact ⟨hok2, hkasc hasc, hsub⟩

theorem evictLoop_exit (env : PixEnv) (pref : Int) (hm : 0 < env.maxMemory)
    (ht : 1 ≤ env.threads.length) :
    ∀ (fuel : Nat) (st : EvictSt), st.cache.length < fuel →
      (∀ kv ∈ st.cache, kv.2 ≠ none) →
      st.cached = (st.cache.length : Int) →
      ((evictLoop env pref fuel st).1.used ≤ env.maxMemory ∨
        (evictLoop env pref fuel st).1.cache.length < 2) := by
  intro fuel
  induction fuel with
  | zero => intro st hf; omega
  | succ f ih =>
    intro st hf hmark hcached
    rw [evictLoop]
    by_cases hstop : evictStop env pref st = true
    · rw [if_pos hstop]
      rw [evictStop] at hstop
      simp only [Bool.or_eq_true, Bool.and_eq_true, decide_eq_true_eq] at hstop
      rcases hstop with ⟨⟨⟨⟨_, hmem2⟩, _⟩, _⟩, _⟩ | hsz
      · rcases hmem2 with hneg | hle
        · omega
        · left
          exact hle
      · right
        show st.cache.length < 2
        omega
    · rw [if_neg hstop]
      have hlen2 : 2 ≤ st.cache.length := not_stop_two_le env pref st hstop
      have hne : st.cache ≠ [] := by
        intro hcc
        rw [hcc] at hlen2
        simp at hlen2
      obtain ⟨x, hxmem, hlen, hsub, hkasc, hused, htot, hmk, hnmk⟩ :=
        evictOnce_spec env pref st hne
      have hxnn : x.2 ≠ none := hmark x hxmem
      obtain ⟨hcach2, hallow2⟩ := hnmk hxnn
      have hmark2 : ∀ kv ∈ (evictOnce env pref st).cache, kv.2 ≠ none :=
        fun kv h => hmark kv (hsub kv h)
      have hcached2 : (evictOnce env pref st).cached =
          ((evictOnce env pref st).cache.length : Int) := by
        rw [hcach2, hcached]
        omega
      dsimp only
      by_cases hcont : (evictOnce env pref st).allowed < (env.threads.length : Int) ∧
          0 < (evictOnce env pref st).cached
      · rw [if_pos hcont]
        exact ih (evictOnce env pref st) (by omega) hmark2 hcached2
      · rw [if_neg hcont]
        show (evictOnce env pref st).used ≤ env.maxMemory ∨
          (evictOnce env pref st).cache.length < 2
        by_cases hc0 : 0 < (evictOnce env pref st).cached
        · have hTle : (env.threads.length : Int) ≤ (evictOnce env pref st).allowed := by
            by_contra hcc
            push_neg at hcc
            exact absurd (hcont ⟨hcc, hc0⟩) (fun h => h)
          rw [hallow2, allowedUpdate] at hTle
          dsimp only at hTle
          by_cases hup : 0 < st.used - entrySize x.2 ∧ 0 < st.cached - 1
          · rw [if_pos hup] at hTle
            have h1a : 1 ≤ ((env.maxMemory - (st.used - entrySize x.2)) *
                (st.cached - 1)).tdiv (st.used - entrySize x.2) := by
              by_cases hcl : env.maxNumber <
                  ((env.maxMemory - (st.used - entrySize x.2)) *
                    (st.cached - 1)).tdiv (st.used - entrySize x.2) +
                  ((evictOnce env pref st).cache.length : Int)
              · rw [if_pos hcl] at hTle
                omega
              · rw [if_neg hcl] at hTle
                omega
            have hnum := le_of_one_le_tdiv _ _ hup.1 h1a
            left
            rw [hused]
            nlinarith [hup.1, hup.2, hnum]
          · rw [if_neg hup] at hTle
            push_neg at hup
            by_cases hu0 : 0 < st.used - entrySize x.2
            · have := hup hu0
              rw [hcach2] at hc0
              omega
            · left
              rw [hused]
              omega
        · right
          push_neg at hc0
          rw [hcached2] at hc0
          omega

theorem limitCacheCore_cacheOk (env : PixEnv) (s1 : PixState) (hok : CacheOk s1)
    (hasc : KeysAsc s1.cache) :
    CacheOk (limitCacheCore env s1).1 ∧ KeysAsc (limitCacheCore env s1).1.cache := by
  rw [limitCacheCore]
  by_cases hc0 : (s1.cache.length : Int) - runningCount env.threads ≤ 0
  · rw [if_pos hc0]
    exact ⟨hok, hasc⟩
  · rw [if_neg hc0]
    by_cases h2 : (env.threads.length : Int) ≤
        allowedPre env s1 ((s1.cache.length : Int) - runningCount env.threads)
    · rw [if_pos h2]
      exact ⟨hok, hasc⟩
    · rw [if_neg h2]
      have hloop := evictLoop_cacheOk env env.prefPage (s1.cache.length + 1)
        ⟨s1.cache, s1.usedMemory, firstKey s1.cache, lastKey s1.cache,
          allowedPre env s1 ((s1.cache.length : Int) - runningCount env.threads),
          (s1.cache.length : Int) - runningCount env.threads⟩ hok hasc
      set res := evictLoop env env.prefPage (s1.cache.length + 1)
        ⟨s1.cache, s1.usedMemory, firstKey s1.cache, lastKey s1.cache,
          allowedPre env s1 ((s1.cache.length : Int) - runningCount env.threads),
          (s1.cache.length : Int) - runningCount env.threads⟩ with hresd
      cases hr2 : res.2 with
      | some v =>
        simp only [hr2]
        exact ⟨hloop.1, hloop.2.1⟩
      | none =>
        simp only [hr2]
        exact ⟨hloop.1, hloop.2.1⟩

theorem limitCacheSize_cacheOk (env : PixEnv) (s : PixState) (hok : CacheOk s)
    (hasc : KeysAsc s.cache) :
    CacheOk (limitCacheSize env s).1 ∧ KeysAsc (limitCacheSize env s).1.cache := by
  rw [limitCacheSize]
  by_cases h1 : env.maxMemory < 0 ∧ env.maxNumber < 0
  · rw [if_pos h1]
    by_cases h2 : (s.cache.length : Int) = env.numberOfPages
    · rw [if_pos h2]
      exact ⟨hok, hasc⟩
    · rw [if_neg h2]
      exact ⟨hok, hasc⟩
  · rw [if_neg h1]
    by_cases h2 : env.maxNumber = 0 ∨ env.maxMemory = 0
    · rw [if_pos h2]
      constructor
      · show (0 : Int) = cacheTotal []
        rfl
      · show KeysAsc ([] : List (Int × Option Png))
        exact List.Pairwise.nil
    · rw [if_neg h2]
      by_cases h3 : s.regionSecond < s.regionFirst
      · rw [if_pos h3]
        exact limitCacheCore_cacheOk env _ hok hasc
      · rw [if_neg h3]
        exact limitCacheCore_cacheOk env s hok hasc

theorem limitCacheCore_bounds (env : PixEnv) (s1 : PixState)
    (hmpos : 0 < env.maxMemory) (ht : 1 ≤ env.threads.length)
    (hrc : runningCount env.threads = 0)
    (hmark : ∀ kv ∈ s1.cache, kv.2 ≠ none) :
    (limitCacheCore env s1).1.usedMemory ≤ env.maxMemory ∨
      (limitCacheCore env s1).1.cache.length < 2 := by
  rw [limitCacheCore]
  by_cases hc0 : (s1.cache.length : Int) - runningCount env.threads ≤ 0
  · rw [if_pos hc0]
    right
    show s1.cache.length < 2
    rw [hrc] at hc0
    omega
  · rw [if_neg hc0]
    rw [hrc] at hc0
    push_neg at hc0
    by_cases h2 : (env.threads.length : Int) ≤
        allowedPre env s1 ((s1.cache.length : Int) - runningCount env.threads)
    · rw [if_pos h2]
      by_cases hu : 0 < s1.usedMemory
      · rw [allowedPre] at h2
        rw [if_pos hmpos, hrc] at h2
        rw [if_pos (show 0 < s1.usedMemory ∧ 0 < (s1.cache.length : Int) - 0 from
          ⟨hu, by omega⟩)] at h2
        set a := ((env.maxMemory - s1.usedMemory) *
          ((s1.cache.length : Int) - 0)).tdiv s1.usedMemory with ha
        have h1a : 1 ≤ a := by
          by_cases hcl : 0 < env.maxNumber ∧
              env.maxNumber < a + (s1.cache.length : Int)
          · rw [if_pos hcl] at h2
            omega
          · rw [if_neg hcl] at h2
            omega
        have hnum := le_of_one_le_tdiv _ _ hu h1a
        left
        show s1.usedMemory ≤ env.maxMemory
        nlinarith [hu, hc0, hnum]
      · left
        show s1.usedMemory ≤ env.maxMemory
        omega
    · rw [if_neg h2]
      have hexit := evictLoop_exit env env.prefPage hmpos ht (s1.cache.length + 1)
        ⟨s1.cache, s1.usedMemory, firstKey s1.cache, lastKey s1.cache,
          allowedPre env s1 ((s1.cache.length : Int) - runningCount env.threads),
          (s1.cache.length : Int) - runningCount env.threads⟩
        (by show s1.cache.length < s1.cache.length + 1; omega) hmark
        (by show (s1.cache.length : Int) - runningCount env.threads =
              ((s1.cache.length : Int))
            rw [hrc]
            omega)
      set res := evictLoop env env.prefPage (s1.cache.length + 1)
        ⟨s1.cache, s1.usedMemory, firstKey s1.cache, lastKey s1.cache,
          allowedPre env s1 ((s1.cache.length : Int) - runningCount env.threads),
          (s1.cache.length : Int) - runningCount env.threads⟩ with hresd
      cases hr2 : res.2 with
      | some v =>
        simp only [hr2]
        exact hexit
      | none =>
        simp only [hr2]
        exact hexit

/-- Claim C1, amended: with a non-negative memory budget, at least one
(idle) render thread, no pages currently being rendered, and no null
markers in the cache, a completed `limitCacheSize` pass leaves either
`usedMemory ≤ maxMemory` or a cache with fewer than two entries (a single
cached page larger than the whole budget is never evicted, as the
counterexample shows). -/
theorem limitCacheSize_amended (env : PixEnv) (s : PixState)
    (h0 : 0 ≤ env.maxMemory) (ht : 1 ≤ env.threads.length)
    (hrun : ∀ t ∈ env.threads, t ≠ some true)
    (hmark : ∀ kv ∈ s.cache, kv.2 ≠ none) :
    (limitCacheSize env s).1.usedMemory ≤ env.maxMemory ∨
      (limitCacheSize env s).1.cache.length < 2 := by
  have hrc : runningCount env.threads = 0 := by
    rw [runningCount]
    rw [show (env.threads.filter fun t => decide (t = some true)) = [] from
      List.filter_eq_nil_iff.mpr (fun t htm => by
        simp only [decide_eq_true_eq]
        exact hrun t htm)]
    rfl
  rw [limitCacheSize]
  rw [if_neg (fun hcc => absurd hcc.1 (by omega))]
  by_cases hz : env.maxNumber = 0 ∨ env.maxMemory = 0
  · rw [if_pos hz]
    left
    show (0 : Int) ≤ env.maxMemory
    omega
  · rw [if_neg hz]
    have hmpos : 0 < env.maxMemory := by
      push_neg at hz
      omega
    by_cases h3 : s.regionSecond < s.regionFirst
    · rw [if_pos h3]
      exact limitCacheCore_bounds env _ hmpos ht hrc hmark
    · rw [if_neg h3]
      exact limitCacheCore_bounds env s hmpos ht hrc hmark

theorem limitCacheSize_amended_witness :
    ((0 : Int) ≤ envC1.maxMemory ∧ 1 ≤ envC1.threads.length ∧
      (∀ t ∈ envC1.threads, t ≠ some true) ∧
      (∀ kv ∈ pixInit.cache, kv.2 ≠ none)) ∧
    ((limitCacheSize envC1 pixInit).1.usedMemory ≤ envC1.maxMemory ∨
      (limitCacheSize envC1 pixInit).1.cache.length < 2) :=
  ⟨⟨by decide, by decide, by decide, by decide⟩,
    limitCacheSize_amended envC1 pixInit (by decide) (by decide) (by decide)
      (by decide)⟩

theorem cacheStore_cacheOk (p : Int) (png : Png) (s : PixState) (hok : CacheOk s)
    (hasc : KeysAsc s.cache) :
    CacheOk (cacheStore p png s) ∧ KeysAsc (cacheStore p png s).cache := by
  constructor
  · show s.usedMemory - entrySize ((mapLookup p s.cache).getD none) + png.size =
      cacheTotal (mapInsert p (some png) s.cache)
    rw [cacheTotal_mapInsert p (some png) s.cache hasc, ← hok]
    rfl
  · exact keysAsc_mapInsert p (some png) s.cache hasc

/-- Claim C10: the memory-accounting invariant — `usedMemory` equals the
total size of the non-null cache entries (null render markers count as 0) —
together with the sorted-keys representation invariant is preserved by
every completed cache operation: `clear`, `pixmap`, `requestPage`,
`receiveData`, and `limitCacheSize` (including every iteration of its
eviction loop). -/
theorem pixcache_accounting (env : PixEnv) (s : PixState) (p : Int) (r : ℚ)
    (cp : Bool) (d : Option Png) (hok : CacheOk s) (hasc : KeysAsc s.cache) :
    (CacheOk (pixClear env s) ∧ KeysAsc (pixClear env s).cache) ∧
    (CacheOk (pixPixmap env p r s).1 ∧ KeysAsc (pixPixmap env p r s).1.cache) ∧
    (CacheOk (requestPage env p r cp s).1 ∧
      KeysAsc (requestPage env p r cp s).1.cache) ∧
    (CacheOk (receiveData env p d s).1 ∧
      KeysAsc (receiveData env p d s).1.cache) ∧
    (CacheOk (limitCacheSize env s).1 ∧
      KeysAsc (limitCacheSize env s).1.cache) := by
  refine ⟨⟨by show (0 : Int) = cacheTotal ([] : List (Int × Option Png)); rfl,
    List.Pairwise.nil⟩, ?_, ?_, ?_, limitCacheSize_cacheOk env s hok hasc⟩
  · rw [pixPixmap]
    set rr := if r ≤ 0 then env.getRes p else r with hrr
    by_cases h1 : pixmapHit p rr s.cache = true
    · rw [if_pos h1]
      exact ⟨hok, hasc⟩
    · rw [if_neg h1]
      by_cases h2 : p < 0 ∨ env.numberOfPages ≤ p
      · rw [if_pos h2]
        exact ⟨hok, hasc⟩
      · rw [if_neg h2]
        by_cases h3 : env.renderValid = false
        · rw [if_pos h3]
          exact ⟨hok, hasc⟩
        · rw [if_neg h3]
          by_cases h4 : env.renderOk p rr = false
          · rw [if_pos h4]
            exact ⟨hok, hasc⟩
          · rw [if_neg h4]
            exact cacheStore_cacheOk _ _ s hok hasc
  · rw [requestPage]
    by_cases h1 : pixmapHit p r s.cache = true
    · rw [if_pos h1]
      exact ⟨hok, hasc⟩
    · rw [if_neg h1]
      by_cases h2 : p < 0 ∨ env.numberOfPages ≤ p
      · rw [if_pos h2]
        exact ⟨hok, hasc⟩
      · rw [if_neg h2]
        by_cases h3 : env.renderValid = false
        · rw [if_pos h3]
          exact ⟨hok, hasc⟩
        · rw [if_neg h3]
          by_cases h4 : env.renderOk p r = false
          · rw [if_pos h4]
            exact ⟨hok, hasc⟩
          · rw [if_neg h4]
            by_cases h5 : cp = true
            · rw [if_pos h5]
              exact cacheStore_cacheOk _ _ s hok hasc
            · rw [if_neg h5]
              exact ⟨hok, hasc⟩
  · cases d with
    | none => exact ⟨hok, hasc⟩
    | some png =>
      simp only [receiveData]
      split
      · cases hl : mapLookup p s.cache with
        | none =>
          simp only [hl]
          constructor
          · show s.usedMemory = cacheTotal (mapErase p s.cache)
            rw [mapErase_absent p s.cache hl]
            exact hok
          · show KeysAsc (mapErase p s.cache)
            exact keysAsc_mapErase p s.cache hasc
        | some v =>
          cases v with
          | some png2 =>
            simp only [hl]
            exact ⟨hok, hasc⟩
          | none =>
            simp only [hl]
            constructor
            · show s.usedMemory = cacheTotal (mapErase p s.cache)
              rw [cacheTotal_mapErase p s.cache hasc none hl]
              rw [show entrySize none = 0 from rfl, ← hok]
              ring
            · exact keysAsc_mapErase p s.cache hasc
      · exact cacheStore_cacheOk _ _ s hok hasc

theorem pixcache_accounting_witness :
    (CacheOk pixInit ∧ KeysAsc pixInit.cache) ∧
    ((CacheOk (pixClear envHit pixInit) ∧
        KeysAsc (pixClear envHit pixInit).cache) ∧
      (CacheOk (pixPixmap envHit 0 1 pixInit).1 ∧
        KeysAsc (pixPixmap envHit 0 1 pixInit).1.cache) ∧
      (CacheOk (requestPage envHit 0 1 true pixInit).1 ∧
        KeysAsc (requestPage envHit 0 1 true pixInit).1.cache) ∧
      (CacheOk (receiveData envHit 0 none pixInit).1 ∧
        KeysAsc (receiveData envHit 0 none pixInit).1.cache) ∧
      (CacheOk (limitCacheSize envHit pixInit).1 ∧
        KeysAsc (limitCacheSize envHit pixInit).1.cache)) :=
  ⟨⟨rfl, by decide⟩,
    pixcache_accounting envHit pixInit 0 1 true none rfl (by decide)⟩
